import Mathlib

/-!
# A sharded multi-producer/multi-consumer queue (`lfqueue_stptr.h`)

Shallow embedding of `lf_queue<T>` and of its scoped ownership guard
`queue_holder`, followed by the properties established about them.

Modelling conventions.

* A `pointer` is `none` for `nullptr` and `some k` for the address of the
  `std::queue<T>` object that the constructor allocated for slot `k`.
  The contents of those objects live in the field `heap`; the front of a
  `std::queue` is the head of the list, `push` appends at the end.
* `get_index()` reads per-thread statics and the hardware
  (`sched_getcpu`, `__rdtscp`); the values it returns are inputs of the
  operations: `starting_position` for one call, a sequence
  `idx : Nat → Nat` where an operation calls it repeatedly.  The function
  itself is `get_index`, on its statics, with the hardware values as inputs.
* The target is x86 (`__rdtscp`), where `compare_exchange_weak` is a
  `lock cmpxchg` and does not fail spuriously; it is modelled as such.
* Evaluating `queue_holder::queue()` on a guard whose `ptr_` is null is
  undefined behaviour, and a loop of the model stops when its fuel is spent.
  In both cases an operation has no result: `none`, or for
  `try_dequeue_bulk`, where both can be asked for, an `error` that tells
  which of the two happened.
-/

/-- The constant `num_queues`. -/
abbrev num_queues : Nat := 32

/-- The constant `queue_mask = num_queues - 1`. -/
abbrev queue_mask : Nat := num_queues - 1

/-- The type `pointer = std::queue<T>*`: `none` is `nullptr`, `some k` the
sub-queue allocated for slot `k`. -/
abbrev pointer : Type := Option (Fin num_queues)

/-- The struct `aligned_atomic_ptr`: the atomic pointer and its dirty hint. -/
structure aligned_atomic_ptr where
  atomic_ptr : pointer
  dirty_ : Bool
deriving DecidableEq, Repr

/-- The member `aligned_atomic_ptr::store`. -/
def aligned_atomic_ptr.store (s : aligned_atomic_ptr) (data : pointer) : aligned_atomic_ptr :=
  { s with atomic_ptr := data }

/-- The member `aligned_atomic_ptr::load`. -/
def aligned_atomic_ptr.load (s : aligned_atomic_ptr) : pointer :=
  s.atomic_ptr

/-- The member `aligned_atomic_ptr::compare_exchange_weak`: success flag, the
updated `expec`, and the updated cell. -/
def aligned_atomic_ptr.compare_exchange_weak (s : aligned_atomic_ptr) (expec desired : pointer) :
    Bool × pointer × aligned_atomic_ptr :=
  if s.atomic_ptr = expec then (true, expec, { s with atomic_ptr := desired })
  else (false, s.atomic_ptr, s)

/-- The class `lf_queue<T>`: the shard array `data_` together with the memory
of the sub-queues it points to. -/
structure lf_queue (T : Type) where
  data_ : Fin num_queues → aligned_atomic_ptr
  heap : Fin num_queues → List T

/-- The constructor `lf_queue()`: slot `i` receives a new empty sub-queue and
every dirty flag starts false. -/
def lf_queue.construct {T : Type} : lf_queue T :=
  { data_ := fun i => { atomic_ptr := some i, dirty_ := false }
    heap := fun _ => [] }

/-- The struct `queue_holder`: the guard, its shard index and the pointer it owns. -/
structure queue_holder where
  index_ : Fin num_queues
  ptr_ : pointer
deriving DecidableEq, Repr

/-- The expression `(starting_position + i) & queue_mask`, on 32-bit unsigned
arithmetic. -/
def shard_index (starting_position i : Nat) : Fin num_queues :=
  ⟨((starting_position + i) % 4294967296) &&& queue_mask, Nat.lt_succ_of_le Nat.and_le_right⟩

/-- Write of the slot `data_[index]`. -/
def lf_queue.set_slot {T : Type} (q : lf_queue T) (index : Fin num_queues)
    (s : aligned_atomic_ptr) : lf_queue T :=
  { q with data_ := Function.update q.data_ index s }

/-- Write of the sub-queue object at address `p`. -/
def lf_queue.set_queue {T : Type} (q : lf_queue T) (p : Fin num_queues) (xs : List T) :
    lf_queue T :=
  { q with heap := Function.update q.heap p xs }

/-- The member `queue_holder::queue()`: the sub-queue behind `ptr_`, undefined
for a null `ptr_`. -/
def queue_holder.queue {T : Type} (g : queue_holder) (q : lf_queue T) : Option (List T) :=
  g.ptr_.map q.heap

/-- The destructor `~queue_holder()`. -/
def queue_holder.destroy {T : Type} (g : queue_holder) (q : lf_queue T) : lf_queue T :=
  match g.ptr_ with
  | none => q
  | some p =>
    let q1 := q.set_slot g.index_ { q.data_ g.index_ with dirty_ := !(q.heap p).isEmpty }
    q1.set_slot g.index_ ((q1.data_ g.index_).store (some p))

/-- The move constructor `queue_holder(queue_holder&&)`: the new guard and the
moved-from one. -/
def queue_holder.move_construct (other : queue_holder) : queue_holder × queue_holder :=
  ({ index_ := other.index_, ptr_ := other.ptr_ }, { other with ptr_ := none })

/-- The move assignment `queue_holder::operator=(queue_holder&&)`: the assigned
guard, the moved-from one, and the shard array after the release store. -/
def queue_holder.move_assign {T : Type} (g other : queue_holder) (q : lf_queue T) :
    queue_holder × queue_holder × lf_queue T :=
  let q1 := q.set_slot g.index_ ((q.data_ g.index_).store g.ptr_)
  ({ index_ := other.index_, ptr_ := other.ptr_ }, { other with ptr_ := none }, q1)

/-- The loop of `acquire_queue_dequeue`; the first number is `num_queues - i`,
the iterations left. -/
def lf_queue.acquire_queue_dequeue_loop {T : Type} (q : lf_queue T) (starting_position : Nat) :
    Nat → Nat → queue_holder × lf_queue T
  | 0, _ => ({ index_ := 0, ptr_ := none }, q)
  | n + 1, i =>
    let index := shard_index starting_position i
    if (q.data_ index).dirty_ = false then
      q.acquire_queue_dequeue_loop starting_position n (i + 1)
    else
      let ptr := (q.data_ index).load
      let cas := (q.data_ index).compare_exchange_weak ptr none
      if ptr.isSome && cas.1 then
        ({ index_ := index, ptr_ := ptr }, q.set_slot index cas.2.2)
      else
        q.acquire_queue_dequeue_loop starting_position n (i + 1)

/-- The member `acquire_queue_dequeue()` (acquire for read), for the value
`starting_position` returned by `get_index()`. -/
def lf_queue.acquire_queue_dequeue {T : Type} (q : lf_queue T) (starting_position : Nat) :
    queue_holder × lf_queue T :=
  q.acquire_queue_dequeue_loop starting_position num_queues 0

/-- The unbounded loop of `acquire_queue`, cut off after `fuel` probes. -/
def lf_queue.acquire_queue_loop {T : Type} (q : lf_queue T) (starting_position : Nat) :
    Nat → Nat → Option (queue_holder × lf_queue T)
  | 0, _ => none
  | fuel + 1, i =>
    let index := shard_index starting_position i
    let ptr := (q.data_ index).load
    let cas := (q.data_ index).compare_exchange_weak ptr none
    if ptr.isSome && cas.1 then
      some ({ index_ := index, ptr_ := ptr }, q.set_slot index cas.2.2)
    else
      q.acquire_queue_loop starting_position fuel (i + 1)

/-- The member `acquire_queue()` (acquire for write). -/
def lf_queue.acquire_queue {T : Type} (fuel : Nat) (q : lf_queue T) (starting_position : Nat) :
    Option (queue_holder × lf_queue T) :=
  q.acquire_queue_loop starting_position fuel 0

/-- The overload `enqueue(const T& copy)`. -/
def lf_queue.enqueue {T : Type} (fuel : Nat) (q : lf_queue T) (starting_position : Nat)
    (copy : T) : Option (Bool × lf_queue T) :=
  match q.acquire_queue fuel starting_position with
  | none => none
  | some (queue_guard, q1) =>
    match queue_guard.ptr_ with
    | none => none
    | some p =>
      let q2 := q1.set_queue p (q1.heap p ++ [copy])
      some (true, queue_guard.destroy q2)

/-- The overload `enqueue(T&& tmp)`. -/
def lf_queue.enqueue_move {T : Type} (fuel : Nat) (q : lf_queue T) (starting_position : Nat)
    (tmp : T) : Option (Bool × lf_queue T) :=
  match q.acquire_queue fuel starting_position with
  | none => none
  | some (queue_guard, q1) =>
    match queue_guard.ptr_ with
    | none => none
    | some p =>
      let q2 := q1.set_queue p (q1.heap p ++ [tmp])
      some (true, queue_guard.destroy q2)

/-- The overload `template<typename U> enqueue(U&& arg)`, which emplaces. -/
def lf_queue.enqueue_emplace {T : Type} (fuel : Nat) (q : lf_queue T) (starting_position : Nat)
    (arg : T) : Option (Bool × lf_queue T) :=
  match q.acquire_queue fuel starting_position with
  | none => none
  | some (queue_guard, q1) =>
    match queue_guard.ptr_ with
    | none => none
    | some p =>
      let q2 := q1.set_queue p (q1.heap p ++ [arg])
      some (true, queue_guard.destroy q2)

/-- The push loop of `enqueue_bulk`: `count` times `queue.push(*(iter++))`;
reading past the end of the input range is undefined. -/
def push_from_iter {T : Type} : Nat → List T → List T → Option (List T)
  | 0, _, queue => some queue
  | _ + 1, [], _ => none
  | count + 1, x :: iter, queue => push_from_iter count iter (queue ++ [x])

/-- The member `enqueue_bulk(iter, count)`. -/
def lf_queue.enqueue_bulk {T : Type} (fuel : Nat) (q : lf_queue T) (starting_position : Nat)
    (iter : List T) (count : Nat) : Option (Bool × lf_queue T) :=
  match q.acquire_queue fuel starting_position with
  | none => none
  | some (queue_guard, q1) =>
    match queue_guard.ptr_ with
    | none => none
    | some p =>
      match push_from_iter count iter (q1.heap p) with
      | none => none
      | some queue => some (true, queue_guard.destroy (q1.set_queue p queue))

/-- The loop of `try_dequeue`, cut off after `fuel` iterations; `idx iters` is
the value of `get_index()` in the iteration numbered `iters`. -/
def lf_queue.try_dequeue_loop {T : Type} (idx : Nat → Nat) :
    Nat → Nat → T → lf_queue T → Option (Bool × T × lf_queue T)
  | 0, _, _, _ => none
  | fuel + 1, iters, item, q =>
    let acq := q.acquire_queue_dequeue (idx iters)
    let guard := acq.1
    let q1 := acq.2
    match guard.ptr_ with
    | none => some (false, item, guard.destroy q1)
    | some p =>
      match q1.heap p with
      | front :: rest => some (true, front, guard.destroy (q1.set_queue p rest))
      | [] =>
        if iters = num_queues then some (false, item, guard.destroy q1)
        else lf_queue.try_dequeue_loop idx fuel (iters + 1) item (guard.destroy q1)

/-- The member `try_dequeue(T& item)`: the result, the final value of `item`
and the final state.  The loop returns within `num_queues + 1` iterations. -/
def lf_queue.try_dequeue {T : Type} (q : lf_queue T) (idx : Nat → Nat) (item : T) :
    Option (Bool × T × lf_queue T) :=
  lf_queue.try_dequeue_loop idx (num_queues + 1) 0 item q

/-- Why a call of `try_dequeue_bulk` has no result. -/
inductive failure
  /-- The member `queue()` was evaluated on a guard whose `ptr_` is null. -/
  | null_guard
  /-- The loop had not returned when the iterations allowed to it were spent. -/
  | out_of_fuel
deriving DecidableEq, Repr

/-- The `while` loop of `try_dequeue_bulk`, cut off after `fuel` iterations.
`queue` is the local pointer of that name, `output` the items written so far. -/
def lf_queue.try_dequeue_bulk_loop {T : Type} (idx : Nat → Nat) (items : Nat) :
    Nat → queue_holder → Fin num_queues → Nat → Nat → List T → lf_queue T →
      Except failure (Nat × List T × lf_queue T)
  | 0, _, _, _, _, _, _ => Except.error failure.out_of_fuel
  | fuel + 1, queue_guard, queue, count, iters, output, q =>
    if count < items then
      let add := min (q.heap queue).length (items - count)
      let count1 := count + add
      let output1 := output ++ (q.heap queue).take add
      let q1 := q.set_queue queue ((q.heap queue).drop add)
      if count1 = items ∨ iters = num_queues then
        Except.ok (count1, output1, queue_guard.destroy q1)
      else
        let acq := q1.acquire_queue_dequeue (idx (iters + 1))
        let asg := queue_guard.move_assign acq.1 acq.2
        let q2 := asg.2.1.destroy asg.2.2
        match asg.1.ptr_ with
        | none => Except.error failure.null_guard
        | some queue1 =>
          lf_queue.try_dequeue_bulk_loop idx items fuel asg.1 queue1 count1 (iters + 1) output1 q2
    else
      Except.ok (count, output, queue_guard.destroy q)

/-- The member `try_dequeue_bulk(output, items)`: the count returned, the items
written through `output` in order, and the final state. -/
def lf_queue.try_dequeue_bulk {T : Type} (q : lf_queue T) (idx : Nat → Nat) (items : Nat) :
    Except failure (Nat × List T × lf_queue T) :=
  let acq := q.acquire_queue_dequeue (idx 0)
  match acq.1.ptr_ with
  | none => Except.ok (0, [], acq.1.destroy acq.2)
  | some queue =>
    lf_queue.try_dequeue_bulk_loop idx items (num_queues + 2) acq.1 queue 0 0 [] acq.2

/-- One iteration of the loop of `debug()`, at slot `i`, on the running
`item_count`: the sub-queue behind the slot is counted and emptied. -/
def lf_queue.debug_step {T : Type} (acc : Option (Nat × lf_queue T)) (i : Fin num_queues) :
    Option (Nat × lf_queue T) :=
  match acc with
  | none => none
  | some (item_count, q) =>
    match (q.data_ i).load with
    | none => none
    | some queue_ptr =>
      some (item_count + (q.heap queue_ptr).length, q.set_queue queue_ptr [])

/-- The member `debug()`, without the text it prints: the final `item_count`
and the final state. -/
def lf_queue.debug {T : Type} (q : lf_queue T) : Option (Nat × lf_queue T) :=
  (List.finRange num_queues).foldl lf_queue.debug_step (some (0, q))

/-! ## Clients and state predicates -/

/-- A slot that acquire-for-read takes: dirty flag set and pointer non-null. -/
def lf_queue.eligible {T : Type} (q : lf_queue T) (k : Fin num_queues) : Prop :=
  (q.data_ k).dirty_ = true ∧ (q.data_ k).atomic_ptr ≠ none

/-- Every slot is free and holds the sub-queue allocated for it. -/
def lf_queue.AllFree {T : Type} (q : lf_queue T) : Prop :=
  ∀ i, (q.data_ i).atomic_ptr = some i

/-- Every non-empty sub-queue has its dirty flag set. -/
def lf_queue.DirtySound {T : Type} (q : lf_queue T) : Prop :=
  ∀ i, q.heap i ≠ [] → (q.data_ i).dirty_ = true

/-- Every dirty flag tells exactly whether the sub-queue is non-empty. -/
def lf_queue.DirtyExact {T : Type} (q : lf_queue T) : Prop :=
  ∀ i, (q.data_ i).dirty_ = !(q.heap i).isEmpty

/-- All stored items, as a multiset. -/
def lf_queue.all_items {T : Type} (q : lf_queue T) : Multiset T :=
  ∑ i : Fin num_queues, (q.heap i : Multiset T)

/-- A client that calls `enqueue` once per item of a list; the call numbered
`k` sees `get_index() = starts k`. -/
def lf_queue.enqueue_all {T : Type} (fuel : Nat) (starts : Nat → Nat) :
    Nat → List T → lf_queue T → Option (lf_queue T)
  | _, [], q => some q
  | k, x :: xs, q =>
    match q.enqueue fuel (starts k) x with
    | none => none
    | some r => lf_queue.enqueue_all fuel starts (k + 1) xs r.2

/-- A client that calls `try_dequeue` until it first returns false, at most
`fuel` times, and collects the delivered values; the call numbered `k` sees
the `get_index()` values `idx k`. -/
def lf_queue.drain {T : Type} (idx : Nat → Nat → Nat) :
    Nat → Nat → T → lf_queue T → Option (List T × lf_queue T)
  | 0, _, _, _ => none
  | fuel + 1, k, item, q =>
    match q.try_dequeue (idx k) item with
    | none => none
    | some (false, _, q1) => some ([], q1)
    | some (true, v, q1) =>
      match lf_queue.drain idx fuel (k + 1) v q1 with
      | none => none
      | some (out, q2) => some (v :: out, q2)

/-- A client that calls `try_dequeue` `n` times in a row and collects the
results; the call numbered `k` sees the `get_index()` values `idx k`. -/
def lf_queue.try_dequeue_repeat {T : Type} (idx : Nat → Nat → Nat) :
    Nat → Nat → T → lf_queue T → Option (List Bool × T × lf_queue T)
  | 0, _, item, q => some ([], item, q)
  | n + 1, k, item, q =>
    match q.try_dequeue (idx k) item with
    | none => none
    | some (b, item1, q1) =>
      match lf_queue.try_dequeue_repeat idx n (k + 1) item1 q1 with
      | none => none
      | some (bs, item2, q2) => some (b :: bs, item2, q2)

/-- The states reached from construction by a single-threaded sequence of
completed calls of the public operations. -/
inductive lf_queue.Reachable {T : Type} : lf_queue T → Prop
  | construct : lf_queue.Reachable lf_queue.construct
  | enqueue {q : lf_queue T} {fuel s : Nat} {x : T} {r : Bool × lf_queue T} :
      lf_queue.Reachable q → q.enqueue fuel s x = some r → lf_queue.Reachable r.2
  | enqueue_move {q : lf_queue T} {fuel s : Nat} {x : T} {r : Bool × lf_queue T} :
      lf_queue.Reachable q → q.enqueue_move fuel s x = some r → lf_queue.Reachable r.2
  | enqueue_emplace {q : lf_queue T} {fuel s : Nat} {x : T} {r : Bool × lf_queue T} :
      lf_queue.Reachable q → q.enqueue_emplace fuel s x = some r → lf_queue.Reachable r.2
  | enqueue_bulk {q : lf_queue T} {fuel s : Nat} {iter : List T} {count : Nat}
      {r : Bool × lf_queue T} :
      lf_queue.Reachable q → q.enqueue_bulk fuel s iter count = some r →
        lf_queue.Reachable r.2
  | try_dequeue {q : lf_queue T} {idx : Nat → Nat} {item : T} {r : Bool × T × lf_queue T} :
      lf_queue.Reachable q → q.try_dequeue idx item = some r → lf_queue.Reachable r.2.2
  | try_dequeue_bulk {q : lf_queue T} {idx : Nat → Nat} {items : Nat}
      {r : Nat × List T × lf_queue T} :
      lf_queue.Reachable q → q.try_dequeue_bulk idx items = Except.ok r →
        lf_queue.Reachable r.2.2
  | debug {q : lf_queue T} {r : Nat × lf_queue T} :
      lf_queue.Reachable q → q.debug = some r → lf_queue.Reachable r.2

/-- The state inside the loop of `try_dequeue_bulk` while the guard holds
shard `k`: slot `k` is checked out with its flag set, every other slot is
free, and every other non-empty sub-queue is flagged. -/
def lf_queue.HeldAt {T : Type} (q : lf_queue T) (k : Fin num_queues) : Prop :=
  q.data_ k = { atomic_ptr := none, dirty_ := true } ∧
  (∀ i, i ≠ k → (q.data_ i).atomic_ptr = some i) ∧
  (∀ i, i ≠ k → q.heap i ≠ [] → (q.data_ i).dirty_ = true)

/-! ## Threads

The interleaving model: a thread is described by the guard objects it has
alive, each transition is one atomic action of one thread on the shared queue.
The destructor's two stores (dirty flag, then pointer) are taken as one action;
the first does not touch any pointer.  The scans of the two acquisition
functions are not traced: a successful compare-exchange may hit any free slot,
and acquire-for-read may also give up.

The only move assignment of the program is line 305 of `try_dequeue_bulk`.
Control reaches it with a guard whose pointer is non-null: line 289 returns on
a null first guard, and after an assignment line 306 and then line 296
dereference the new guard, which is undefined for a null pointer; a thread in
that situation takes no further step of `try_dequeue_bulk`. -/

/-- Where a thread stands with respect to its guard objects. -/
inductive thread_state
  /-- No guard object alive. -/
  | idle
  /-- An acquisition function has returned the guard `tmp`. -/
  | returned (tmp : queue_holder)
  /-- The local guard `g` has been move-constructed from `tmp`, which is still alive. -/
  | moved (g tmp : queue_holder)
  /-- The local guard `g` is alive and is the only one. -/
  | holding (g : queue_holder)
  /-- Line 305: `acquire_queue_dequeue()` has returned `tmp`, `operator=` has not run. -/
  | reacquired (g tmp : queue_holder)
  /-- Line 305 after `operator=`: the moved-from `tmp` is still alive. -/
  | assigned (g tmp : queue_holder)

/-- The guard objects of a thread. -/
def thread_state.guards : thread_state → List queue_holder
  | .idle => []
  | .returned tmp => [tmp]
  | .moved g tmp => [g, tmp]
  | .holding g => [g]
  | .reacquired g tmp => [tmp, g]
  | .assigned g tmp => [g, tmp]

/-- The sub-queues owned by the guards of a thread, one entry per guard with a
non-null pointer. -/
def thread_state.owned (th : thread_state) : List (Fin num_queues) :=
  th.guards.filterMap queue_holder.ptr_

/-- The shared queue and the threads working on it. -/
structure run_state (T : Type) where
  shared : lf_queue T
  threads : Nat → thread_state

/-- The state after construction: no thread has started an operation. -/
def run_state.init {T : Type} : run_state T :=
  { shared := lf_queue.construct, threads := fun _ => thread_state.idle }

/-- One atomic action of thread `t`. -/
inductive run_state.step {T : Type} : run_state T → run_state T → Prop
  /-- Successful compare-exchange of slot `i` from `p` to null, in either acquisition. -/
  | cas (c : run_state T) (t : Nat) (i p : Fin num_queues) :
      c.threads t = thread_state.idle → (c.shared.data_ i).atomic_ptr = some p →
      run_state.step c
        { shared := c.shared.set_slot i
            ((c.shared.data_ i).compare_exchange_weak (some p) none).2.2
          threads := Function.update c.threads t
            (thread_state.returned { index_ := i, ptr_ := some p }) }
  /-- Failure return `{0, nullptr}` of `acquire_queue_dequeue`. -/
  | fail (c : run_state T) (t : Nat) :
      c.threads t = thread_state.idle →
      run_state.step c
        { shared := c.shared
          threads := Function.update c.threads t
            (thread_state.returned { index_ := 0, ptr_ := none }) }
  /-- Move construction of the local guard from the returned one. -/
  | construct (c : run_state T) (t : Nat) (tmp : queue_holder) :
      c.threads t = thread_state.returned tmp →
      run_state.step c
        { shared := c.shared
          threads := Function.update c.threads t
            (thread_state.moved tmp.move_construct.1 tmp.move_construct.2) }
  /-- Destruction of the moved-from temporary after move construction. -/
  | drop_moved (c : run_state T) (t : Nat) (g tmp : queue_holder) :
      c.threads t = thread_state.moved g tmp →
      run_state.step c
        { shared := tmp.destroy c.shared
          threads := Function.update c.threads t (thread_state.holding g) }
  /-- A push or pop on the sub-queue of the guard. -/
  | access (c : run_state T) (t : Nat) (g : queue_holder) (p : Fin num_queues) (xs : List T) :
      c.threads t = thread_state.holding g → g.ptr_ = some p →
      run_state.step c { shared := c.shared.set_queue p xs, threads := c.threads }
  /-- Destruction of the local guard at the end of the operation. -/
  | release (c : run_state T) (t : Nat) (g : queue_holder) :
      c.threads t = thread_state.holding g →
      run_state.step c
        { shared := g.destroy c.shared
          threads := Function.update c.threads t thread_state.idle }
  /-- Line 305, successful compare-exchange while the guard `g` is held. -/
  | recas (c : run_state T) (t : Nat) (g : queue_holder) (i p : Fin num_queues) :
      c.threads t = thread_state.holding g → g.ptr_ ≠ none →
      (c.shared.data_ i).atomic_ptr = some p →
      run_state.step c
        { shared := c.shared.set_slot i
            ((c.shared.data_ i).compare_exchange_weak (some p) none).2.2
          threads := Function.update c.threads t
            (thread_state.reacquired g { index_ := i, ptr_ := some p }) }
  /-- Line 305, failure return while the guard `g` is held. -/
  | refail (c : run_state T) (t : Nat) (g : queue_holder) :
      c.threads t = thread_state.holding g → g.ptr_ ≠ none →
      run_state.step c
        { shared := c.shared
          threads := Function.update c.threads t
            (thread_state.reacquired g { index_ := 0, ptr_ := none }) }
  /-- Line 305, the move assignment `queue_guard = tmp`. -/
  | assign (c : run_state T) (t : Nat) (g tmp : queue_holder) :
      c.threads t = thread_state.reacquired g tmp →
      run_state.step c
        { shared := (g.move_assign tmp c.shared).2.2
          threads := Function.update c.threads t
            (thread_state.assigned (g.move_assign tmp c.shared).1
              (g.move_assign tmp c.shared).2.1) }
  /-- Destruction of the moved-from temporary after the move assignment. -/
  | drop_assigned (c : run_state T) (t : Nat) (g tmp : queue_holder) :
      c.threads t = thread_state.assigned g tmp →
      run_state.step c
        { shared := tmp.destroy c.shared
          threads := Function.update c.threads t (thread_state.holding g) }

/-- The states reached from construction by atomic actions of the threads. -/
inductive run_state.Reachable {T : Type} : run_state T → Prop
  | init : run_state.Reachable run_state.init
  | step {c c' : run_state T} :
      run_state.Reachable c → run_state.step c c' → run_state.Reachable c'

/-- A guard's index is the slot its pointer came from. -/
def queue_holder.consistent (g : queue_holder) : Prop :=
  ∀ p, g.ptr_ = some p → g.index_ = p

/-- What the control state of a thread says about its guards. -/
def thread_state.wf : thread_state → Prop
  | .idle => True
  | .returned tmp => tmp.consistent
  | .moved g tmp => g.consistent ∧ tmp.ptr_ = none
  | .holding g => g.consistent
  | .reacquired g tmp => g.consistent ∧ tmp.consistent ∧ g.ptr_ ≠ none
  | .assigned g tmp => g.consistent ∧ tmp.ptr_ = none

/-- The pointers stored in the slots. -/
def lf_queue.ptrs {T : Type} (q : lf_queue T) : Fin num_queues → pointer :=
  fun i => (q.data_ i).atomic_ptr

/-- Single ownership, for slot pointers `slots` and per-thread owned lists `own`. -/
def single_owner (slots : Fin num_queues → pointer) (own : Nat → List (Fin num_queues)) :
    Prop :=
  (∀ i, slots i = none ∨ slots i = some i) ∧
  (∀ t p, p ∈ own t → slots p = none) ∧
  (∀ t, (own t).Nodup) ∧
  (∀ t t' p, p ∈ own t → p ∈ own t' → t = t') ∧
  (∀ p, slots p = none → ∃ t, p ∈ own t)

/-- The invariant of the interleaving model. -/
def run_state.Inv {T : Type} (c : run_state T) : Prop :=
  single_owner c.shared.ptrs (fun t => (c.threads t).owned) ∧ ∀ t, (c.threads t).wf

/-! ## The affinity index selector and traces of the dequeue loop -/

/-- The three `static thread_local` variables of `get_index()`: `cpuid` is an
`unsigned int`, `countdown` an `int`, and `local_offset` an `int` that only
ever holds a value of `0..3`. -/
structure get_index_statics where
  cpuid : Nat
  countdown : Int
  local_offset : Nat
deriving DecidableEq, Repr

/-- The initialisers of the statics of `get_index()`, run by the first call of
a thread: `sched_getcpu` is what `sched_getcpu()` returns, `thread_offset` the
32-bit pattern of the shared counter.  Returns the statics and the counter
after `fetch_add(1)`. -/
def get_index_init (sched_getcpu : Int) (thread_offset : Nat) : get_index_statics × Nat :=
  ({ cpuid := ((sched_getcpu * 4) % 4294967296).toNat
     countdown := 500
     local_offset := thread_offset &&& 3 },
   (thread_offset + 1) % 4294967296)

/-- The body of `get_index()` on initialised statics; `tsc_aux` is the value
`__rdtscp` stores if it is executed.  Returns the index and the statics. -/
def get_index (st : get_index_statics) (tsc_aux : Nat) : Nat × get_index_statics :=
  if st.countdown > 0 then
    ((st.cpuid + st.local_offset) % 4294967296, { st with countdown := st.countdown - 1 })
  else
    let cpuid := (tsc_aux * 4) % 4294967296
    ((cpuid + st.local_offset) % 4294967296, { st with countdown := 500, cpuid := cpuid })

/-- A client that calls `get_index()` `n` times in a row; the call numbered `k`
would read `tsc_aux k`.  Returns the indices and the final statics. -/
def get_index_run (tsc_aux : Nat → Nat) :
    Nat → Nat → get_index_statics → List Nat × get_index_statics
  | 0, _, st => ([], st)
  | n + 1, k, st =>
    let r := get_index st (tsc_aux k)
    let rest := get_index_run tsc_aux n (k + 1) r.2
    (r.1 :: rest.1, rest.2)

/-- The guards returned by the calls of `acquire_queue_dequeue` that the loop of
`try_dequeue` makes, in order; same recursion as `try_dequeue_loop`. -/
def lf_queue.try_dequeue_trace {T : Type} (idx : Nat → Nat) :
    Nat → Nat → lf_queue T → List queue_holder
  | 0, _, _ => []
  | fuel + 1, iters, q =>
    let acq := q.acquire_queue_dequeue (idx iters)
    let guard := acq.1
    let q1 := acq.2
    match guard.ptr_ with
    | none => [guard]
    | some p =>
      match q1.heap p with
      | _ :: _ => [guard]
      | [] =>
        if iters = num_queues then [guard]
        else guard :: lf_queue.try_dequeue_trace idx fuel (iters + 1) (guard.destroy q1)

/-- The shards whose dirty flag is set while their sub-queue is empty. -/
def lf_queue.stale {T : Type} (q : lf_queue T) : Finset (Fin num_queues) :=
  Finset.univ.filter (fun i => (q.data_ i).dirty_ = true ∧ (q.heap i).isEmpty = true)

/-- Every slot of `q'` is free and holds the pointer it held in `q`. -/
def lf_queue.SlotsRestored {T : Type} (q q' : lf_queue T) : Prop :=
  ∀ i, (q'.data_ i).atomic_ptr = (q.data_ i).atomic_ptr ∧ (q'.data_ i).atomic_ptr ≠ none

/-- The state after `enqueue(1)`, `enqueue(2)`, `enqueue(3)` on the fresh queue
with `get_index()` returning 0, 4 and 8: the shards 0, 4 and 8 hold one item
each. -/
def lf_queue.three_shards : lf_queue Nat :=
  (lf_queue.enqueue_all 1 (fun k => 4 * k) 0 [1, 2, 3] lf_queue.construct).getD
    lf_queue.construct

/-- One pass through the body of the `while` loop of `try_dequeue_bulk`: the
value of `iters` in it, the guard held, and the items it moved from the guard's
sub-queue to the output. -/
structure bulk_visit (T : Type) where
  iters : Nat
  guard : queue_holder
  moved : List T

/-- The passes through the body of the loop of `try_dequeue_bulk`, in order;
same recursion as `try_dequeue_bulk_loop`. -/
def lf_queue.try_dequeue_bulk_visits {T : Type} (idx : Nat → Nat) (items : Nat) :
    Nat → queue_holder → Fin num_queues → Nat → Nat → lf_queue T → List (bulk_visit T)
  | 0, _, _, _, _, _ => []
  | fuel + 1, queue_guard, queue, count, iters, q =>
    if count < items then
      let add := min (q.heap queue).length (items - count)
      let count1 := count + add
      let visit : bulk_visit T :=
        { iters := iters, guard := queue_guard, moved := (q.heap queue).take add }
      let q1 := q.set_queue queue ((q.heap queue).drop add)
      if count1 = items ∨ iters = num_queues then
        [visit]
      else
        let acq := q1.acquire_queue_dequeue (idx (iters + 1))
        let asg := queue_guard.move_assign acq.1 acq.2
        let q2 := asg.2.1.destroy asg.2.2
        match asg.1.ptr_ with
        | none => [visit]
        | some queue1 =>
          visit :: lf_queue.try_dequeue_bulk_visits idx items fuel asg.1 queue1 count1
            (iters + 1) q2
    else
      []

/-- The passes through the loop body that one call of `try_dequeue_bulk` makes,
in order: one per shard visit. -/
def lf_queue.try_dequeue_bulk_trace {T : Type} (q : lf_queue T) (idx : Nat → Nat)
    (items : Nat) : List (bulk_visit T) :=
  let acq := q.acquire_queue_dequeue (idx 0)
  match acq.1.ptr_ with
  | none => []
  | some queue =>
    lf_queue.try_dequeue_bulk_visits idx items (num_queues + 2) acq.1 queue 0 0 acq.2

/-- Shard `k` is the first one in the scan order `(s + m) & 31`, `m = 0, 1, ...`,
whose dirty flag is set in `q` and which is not the shard `held`. -/
def lf_queue.first_flagged {T : Type} (q : lf_queue T) (s : Nat)
    (held : Option (Fin num_queues)) (k : Fin num_queues) : Prop :=
  ∃ m, m < num_queues ∧ shard_index s m = k ∧ (q.data_ k).dirty_ = true ∧ some k ≠ held ∧
    ∀ n, n < m →
      ¬ ((q.data_ (shard_index s n)).dirty_ = true ∧ some (shard_index s n) ≠ held)

/-- How two consecutive passes of the loop of `try_dequeue_bulk` on `q` are
related: `iters` goes up by one, and the shard of the later pass is the first
flagged shard, in scan order from that pass's `get_index()`, other than the
shard of the earlier pass. -/
def lf_queue.next_visit {T : Type} (q : lf_queue T) (idx : Nat → Nat) (a b : bulk_visit T) :
    Prop :=
  b.iters = a.iters + 1 ∧ q.first_flagged (idx b.iters) (some a.guard.index_) b.guard.index_

/-- The state inside the loop of a `try_dequeue_bulk` call on `q0` while the
guard holds shard `k`: slot `k` is checked out, every other slot is free, and
the dirty flags are those of `q0`. -/
def lf_queue.HeldSince {T : Type} (q0 q : lf_queue T) (k : Fin num_queues) : Prop :=
  (q.data_ k).atomic_ptr = none ∧ (∀ i, i ≠ k → (q.data_ i).atomic_ptr = some i) ∧
  ∀ i, (q.data_ i).dirty_ = (q0.data_ i).dirty_

/-! ## Basic facts about slots, guards and the two acquisition scans -/

section basics
variable {T : Type}

@[simp] theorem lf_queue.set_slot_heap (q : lf_queue T) (i : Fin num_queues)
    (s : aligned_atomic_ptr) : (q.set_slot i s).heap = q.heap := rfl

@[simp] theorem lf_queue.set_slot_data (q : lf_queue T) (i : Fin num_queues)
    (s : aligned_atomic_ptr) : (q.set_slot i s).data_ = Function.update q.data_ i s := rfl

@[simp] theorem lf_queue.set_queue_heap (q : lf_queue T) (p : Fin num_queues) (xs : List T) :
    (q.set_queue p xs).heap = Function.update q.heap p xs := rfl

@[simp] theorem lf_queue.set_queue_data (q : lf_queue T) (p : Fin num_queues) (xs : List T) :
    (q.set_queue p xs).data_ = q.data_ := rfl

theorem lf_queue.ext_fields {q r : lf_queue T} (hd : q.data_ = r.data_) (hh : q.heap = r.heap) :
    q = r := by
  cases q; cases r; simp_all

theorem queue_holder.destroy_heap (g : queue_holder) (q : lf_queue T) :
    (g.destroy q).heap = q.heap := by
  unfold queue_holder.destroy
  split <;> rfl

theorem queue_holder.destroy_null (i : Fin num_queues) (q : lf_queue T) :
    (queue_holder.mk i none).destroy q = q := rfl

theorem queue_holder.destroy_data (i p : Fin num_queues) (q : lf_queue T) :
    ((queue_holder.mk i (some p)).destroy q).data_ =
      Function.update q.data_ i { atomic_ptr := some p, dirty_ := !(q.heap p).isEmpty } := by
  simp [queue_holder.destroy, aligned_atomic_ptr.store]

theorem shard_index_val (s i : Nat) : (shard_index s i).val = (s + i) % 32 := by
  have h := Nat.and_pow_two_sub_one_eq_mod ((s + i) % 4294967296) 5
  simp only [shard_index, queue_mask, num_queues]
  norm_num at h ⊢
  omega

theorem shard_index_cover (s : Nat) (j : Fin num_queues) :
    ∃ m, m < num_queues ∧ shard_index s m = j := by
  refine ⟨(j.val + 32 - s % 32) % 32, by simp only [num_queues]; omega, ?_⟩
  apply Fin.ext
  rw [shard_index_val]
  have := j.isLt
  simp only [num_queues] at this
  omega

theorem lf_queue.acquire_queue_dequeue_loop_none (q : lf_queue T) (s : Nat) :
    ∀ n i, (∀ m, m < n → ¬ q.eligible (shard_index s (i + m))) →
      q.acquire_queue_dequeue_loop s n i = ({ index_ := 0, ptr_ := none }, q) := by
  intro n
  induction n with
  | zero => intro i _; rfl
  | succ n ih =>
    intro i h
    have h0 := h 0 (Nat.succ_pos n)
    have hrec : q.acquire_queue_dequeue_loop s n (i + 1) = ({ index_ := 0, ptr_ := none }, q) := by
      apply ih
      intro m hm
      have := h (m + 1) (Nat.succ_lt_succ hm)
      rwa [show i + (m + 1) = i + 1 + m by omega] at this
    simp only [Nat.add_zero, lf_queue.eligible, not_and_or, not_not, Bool.not_eq_true] at h0
    unfold lf_queue.acquire_queue_dequeue_loop
    rcases h0 with h0 | h0
    · simp [h0, hrec]
    · simp [h0, hrec, aligned_atomic_ptr.load]

theorem lf_queue.acquire_queue_dequeue_loop_hit (q : lf_queue T) (s : Nat) :
    ∀ n i m, m < n → q.eligible (shard_index s (i + m)) →
      (∀ k, k < m → ¬ q.eligible (shard_index s (i + k))) →
      q.acquire_queue_dequeue_loop s n i =
        ({ index_ := shard_index s (i + m), ptr_ := (q.data_ (shard_index s (i + m))).atomic_ptr },
          q.set_slot (shard_index s (i + m))
            { atomic_ptr := none, dirty_ := (q.data_ (shard_index s (i + m))).dirty_ }) := by
  intro n
  induction n with
  | zero => intro i m hm; omega
  | succ n ih =>
    intro i m hm he hfirst
    cases m with
    | zero =>
      obtain ⟨hd, hp⟩ := he
      simp only [Nat.add_zero] at hd hp ⊢
      unfold lf_queue.acquire_queue_dequeue_loop
      cases hptr : (q.data_ (shard_index s i)).atomic_ptr with
      | none => exact absurd hptr hp
      | some p =>
        simp [hd, hptr, aligned_atomic_ptr.load, aligned_atomic_ptr.compare_exchange_weak]
    | succ m =>
      have h0 := hfirst 0 (Nat.succ_pos m)
      have hrec := ih (i + 1) m (Nat.lt_of_succ_lt_succ hm)
        (by rwa [show i + 1 + m = i + (m + 1) by omega])
        (by
          intro k hk
          have := hfirst (k + 1) (Nat.succ_lt_succ hk)
          rwa [show i + (k + 1) = i + 1 + k by omega] at this)
      rw [show i + 1 + m = i + (m + 1) by omega] at hrec
      simp only [Nat.add_zero, lf_queue.eligible, not_and_or, not_not, Bool.not_eq_true] at h0
      unfold lf_queue.acquire_queue_dequeue_loop
      rcases h0 with h0 | h0
      · simp [h0, hrec]
      · simp [h0, hrec, aligned_atomic_ptr.load]

end basics

/-! ## One acquisition for read, and one iteration of a dequeue -/

section acquire
variable {T : Type}

theorem lf_queue.acquire_queue_dequeue_cases (q : lf_queue T) (s : Nat) :
    (q.acquire_queue_dequeue s = ({ index_ := 0, ptr_ := none }, q) ∧ ∀ j, ¬ q.eligible j) ∨
    ∃ m p, m < num_queues ∧
      q.data_ (shard_index s m) = { atomic_ptr := some p, dirty_ := true } ∧
      (∀ k, k < m → ¬ q.eligible (shard_index s k)) ∧
      q.acquire_queue_dequeue s =
        ({ index_ := shard_index s m, ptr_ := some p },
          q.set_slot (shard_index s m) { atomic_ptr := none, dirty_ := true }) := by
  classical
  by_cases h : ∃ m, m < num_queues ∧ q.eligible (shard_index s m)
  · right
    have hm := Nat.find_spec h
    have hmin : ∀ k, k < Nat.find h → ¬ q.eligible (shard_index s k) := by
      intro k hk hel
      exact Nat.find_min h hk ⟨Nat.lt_trans hk hm.1, hel⟩
    have hit := q.acquire_queue_dequeue_loop_hit s num_queues 0 (Nat.find h) hm.1
      (by simpa using hm.2) (by simpa using hmin)
    simp only [Nat.zero_add] at hit
    obtain ⟨hd, hp⟩ := hm.2
    obtain ⟨p, hp'⟩ := Option.ne_none_iff_exists'.mp hp
    refine ⟨Nat.find h, p, hm.1, ?_, hmin, ?_⟩
    · cases hs : q.data_ (shard_index s (Nat.find h)) with
      | mk a d =>
        rw [hs] at hd hp'
        simp only at hd hp'
        rw [hd, hp']
    · unfold lf_queue.acquire_queue_dequeue
      rw [hit, hp', hd]
  · left
    have hall : ∀ j, ¬ q.eligible j := by
      intro j hj
      obtain ⟨m, hm, rfl⟩ := shard_index_cover s j
      exact h ⟨m, hm, hj⟩
    refine ⟨?_, hall⟩
    unfold lf_queue.acquire_queue_dequeue
    exact q.acquire_queue_dequeue_loop_none s num_queues 0 (fun m _ => hall _)

theorem lf_queue.release_after_acquire (q : lf_queue T) (k p : Fin num_queues) (d : Bool)
    (xs : List T) :
    (queue_holder.mk k (some p)).destroy
        ((q.set_slot k { atomic_ptr := none, dirty_ := d }).set_queue p xs) =
      { data_ := Function.update q.data_ k { atomic_ptr := some p, dirty_ := !xs.isEmpty }
        heap := Function.update q.heap p xs } := by
  apply lf_queue.ext_fields
  · rw [queue_holder.destroy_data]
    simp
  · rw [queue_holder.destroy_heap]
    simp

theorem lf_queue.set_queue_self (q : lf_queue T) (p : Fin num_queues) :
    q.set_queue p (q.heap p) = q := by
  apply lf_queue.ext_fields <;> simp

theorem lf_queue.inv_update (q : lf_queue T) (hf : q.AllFree) (hs : q.DirtySound)
    (k : Fin num_queues) (xs : List T) (d : Bool) (hd : xs ≠ [] → d = true) :
    ({ data_ := Function.update q.data_ k { atomic_ptr := some k, dirty_ := d }
       heap := Function.update q.heap k xs } : lf_queue T).AllFree ∧
    ({ data_ := Function.update q.data_ k { atomic_ptr := some k, dirty_ := d }
       heap := Function.update q.heap k xs } : lf_queue T).DirtySound := by
  constructor
  · intro i
    by_cases hi : i = k
    · subst hi; simp
    · simpa [Function.update_noteq hi] using hf i
  · intro i
    by_cases hi : i = k
    · subst hi; simpa using hd
    · simpa [Function.update_noteq hi] using hs i

theorem lf_queue.try_dequeue_loop_spec (idx : Nat → Nat) :
    ∀ fuel iters (item : T) (q : lf_queue T), num_queues + 1 ≤ fuel + iters →
      iters ≤ num_queues →
      ∃ b v q', lf_queue.try_dequeue_loop idx fuel iters item q = some (b, v, q') ∧
        (∀ i, (q'.data_ i).atomic_ptr = (q.data_ i).atomic_ptr) ∧
        ((b = true ∧ ∃ s rest, q.heap s = v :: rest ∧ q'.heap = Function.update q.heap s rest) ∨
          (b = false ∧ v = item ∧ q'.heap = q.heap)) ∧
        (q.AllFree → q.DirtySound → q'.DirtySound) := by
  intro fuel
  induction fuel with
  | zero => intro iters item q h1 h2; omega
  | succ fuel ih =>
    intro iters item q h1 h2
    unfold lf_queue.try_dequeue_loop
    rcases q.acquire_queue_dequeue_cases (idx iters) with ⟨hacq, _⟩ | ⟨m, p, _, hslot, _, hacq⟩
    · refine ⟨false, item, q, ?_, fun _ => rfl, Or.inr ⟨rfl, rfl, rfl⟩, fun _ h => h⟩
      simp [hacq, queue_holder.destroy_null]
    · simp only [hacq, lf_queue.set_slot_heap]
      have hrel := q.release_after_acquire (shard_index (idx iters) m) p true
      have hptr : ∀ (xs : List T) i,
          ((Function.update q.data_ (shard_index (idx iters) m)
            { atomic_ptr := some p, dirty_ := !xs.isEmpty }) i).atomic_ptr
            = (q.data_ i).atomic_ptr := by
        intro xs i
        by_cases hi : i = shard_index (idx iters) m
        · subst hi; simp [hslot]
        · simp [Function.update_noteq hi]
      have hinv : ∀ xs : List T, q.AllFree → q.DirtySound →
          ({ data_ := Function.update q.data_ (shard_index (idx iters) m)
                { atomic_ptr := some p, dirty_ := !xs.isEmpty }
             heap := Function.update q.heap p xs } : lf_queue T).DirtySound := by
        intro xs hf hs
        have hp : p = shard_index (idx iters) m := by
          have := hf (shard_index (idx iters) m)
          rw [hslot] at this
          exact Option.some.inj this
        subst hp
        exact (q.inv_update hf hs _ xs _ (by cases xs <;> simp)).2
      cases hq : q.heap p with
      | cons front rest =>
        simp only
        rw [hrel rest]
        exact ⟨true, front, _, rfl, hptr rest, Or.inl ⟨rfl, p, rest, hq, rfl⟩, hinv rest⟩
      | nil =>
        simp only
        have hheap : Function.update q.heap p ([] : List T) = q.heap := by
          rw [← hq]; exact Function.update_eq_self p q.heap
        have hsame : (q.set_slot (shard_index (idx iters) m)
            { atomic_ptr := none, dirty_ := true }).set_queue p [] =
            q.set_slot (shard_index (idx iters) m) { atomic_ptr := none, dirty_ := true } := by
          apply lf_queue.ext_fields <;> simp [hheap]
        have hself := hrel []
        rw [hsame] at hself
        rw [hself]
        by_cases hit : iters = num_queues
        · rw [if_pos hit]
          exact ⟨false, item, _, rfl, hptr [], Or.inr ⟨rfl, rfl, hheap⟩, hinv []⟩
        · rw [if_neg hit]
          obtain ⟨b, v, q', hres, hp', hcase, hsound⟩ := ih (iters + 1) item
            { data_ := Function.update q.data_ (shard_index (idx iters) m)
                { atomic_ptr := some p, dirty_ := !([] : List T).isEmpty }
              heap := Function.update q.heap p [] } (by omega) (by omega)
          refine ⟨b, v, q', hres, fun i => (hp' i).trans (hptr [] i), ?_, ?_⟩
          · simpa only [hheap] using hcase
          · intro hf hs
            exact hsound (fun i => (hptr [] i).trans (hf i)) (hinv [] hf hs)

end acquire

/-! ## Acquisition for write -/

section acquire_write
variable {T : Type}

theorem lf_queue.acquire_queue_loop_hit (q : lf_queue T) (s : Nat) :
    ∀ fuel i m, m < fuel → (q.data_ (shard_index s (i + m))).atomic_ptr ≠ none →
      (∀ k, k < m → (q.data_ (shard_index s (i + k))).atomic_ptr = none) →
      q.acquire_queue_loop s fuel i =
        some ({ index_ := shard_index s (i + m),
                ptr_ := (q.data_ (shard_index s (i + m))).atomic_ptr },
          q.set_slot (shard_index s (i + m))
            { atomic_ptr := none, dirty_ := (q.data_ (shard_index s (i + m))).dirty_ }) := by
  intro fuel
  induction fuel with
  | zero => intro i m hm; omega
  | succ fuel ih =>
    intro i m hm hp hfirst
    cases m with
    | zero =>
      simp only [Nat.add_zero] at hp ⊢
      unfold lf_queue.acquire_queue_loop
      cases hptr : (q.data_ (shard_index s i)).atomic_ptr with
      | none => exact absurd hptr hp
      | some p => simp [hptr, aligned_atomic_ptr.load, aligned_atomic_ptr.compare_exchange_weak]
    | succ m =>
      have h0 := hfirst 0 (Nat.succ_pos m)
      have hrec := ih (i + 1) m (Nat.lt_of_succ_lt_succ hm)
        (by rwa [show i + 1 + m = i + (m + 1) by omega])
        (by
          intro k hk
          have := hfirst (k + 1) (Nat.succ_lt_succ hk)
          rwa [show i + (k + 1) = i + 1 + k by omega] at this)
      rw [show i + 1 + m = i + (m + 1) by omega] at hrec
      simp only [Nat.add_zero] at h0
      unfold lf_queue.acquire_queue_loop
      simp [h0, hrec, aligned_atomic_ptr.load]

theorem lf_queue.acquire_queue_loop_some (q : lf_queue T) (s : Nat) :
    ∀ fuel i g q1, q.acquire_queue_loop s fuel i = some (g, q1) →
      ∃ k p, g = { index_ := k, ptr_ := some p } ∧
        q.data_ k = { atomic_ptr := some p, dirty_ := (q.data_ k).dirty_ } ∧
        q1 = q.set_slot k { atomic_ptr := none, dirty_ := (q.data_ k).dirty_ } := by
  intro fuel
  induction fuel with
  | zero => intro i g q1 h; simp [lf_queue.acquire_queue_loop] at h
  | succ fuel ih =>
    intro i g q1 h
    unfold lf_queue.acquire_queue_loop at h
    cases hptr : (q.data_ (shard_index s i)).atomic_ptr with
    | none =>
      simp [hptr, aligned_atomic_ptr.load] at h
      exact ih _ _ _ h
    | some p =>
      simp [hptr, aligned_atomic_ptr.load, aligned_atomic_ptr.compare_exchange_weak] at h
      refine ⟨shard_index s i, p, h.1.symm, ?_, h.2.symm⟩
      rw [← hptr]

theorem lf_queue.acquire_queue_total (q : lf_queue T) (s fuel : Nat)
    (hfree : ∃ j, (q.data_ j).atomic_ptr ≠ none) (hfuel : num_queues ≤ fuel) :
    ∃ r, q.acquire_queue fuel s = some r := by
  classical
  have h : ∃ m, m < num_queues ∧ (q.data_ (shard_index s m)).atomic_ptr ≠ none := by
    obtain ⟨j, hj⟩ := hfree
    obtain ⟨m, hm, rfl⟩ := shard_index_cover s j
    exact ⟨m, hm, hj⟩
  have hm := Nat.find_spec h
  have hmin : ∀ k, k < Nat.find h → (q.data_ (shard_index s k)).atomic_ptr = none := by
    intro k hk
    by_contra hne
    exact Nat.find_min h hk ⟨Nat.lt_trans hk hm.1, hne⟩
  have hit := q.acquire_queue_loop_hit s fuel 0 (Nat.find h) (Nat.lt_of_lt_of_le hm.1 hfuel)
    (by simpa using hm.2) (by simpa using hmin)
  exact ⟨_, hit⟩

theorem lf_queue.acquire_queue_all_free (q : lf_queue T) (hq : q.AllFree) (s fuel : Nat) :
    q.acquire_queue (fuel + 1) s =
      some ({ index_ := shard_index s 0, ptr_ := some (shard_index s 0) },
        q.set_slot (shard_index s 0)
          { atomic_ptr := none, dirty_ := (q.data_ (shard_index s 0)).dirty_ }) := by
  have hit := q.acquire_queue_loop_hit s (fuel + 1) 0 0 (Nat.succ_pos fuel)
    (by simp [hq (shard_index s (0 + 0))]) (by intro k hk; omega)
  simp only [Nat.add_zero, hq (shard_index s 0)] at hit
  exact hit

theorem push_from_iter_eq {T : Type} :
    ∀ (count : Nat) (iter queue : List T),
      push_from_iter count iter queue =
        if count ≤ iter.length then some (queue ++ iter.take count) else none := by
  intro count
  induction count with
  | zero => intro iter queue; simp [push_from_iter]
  | succ count ih =>
    intro iter queue
    cases iter with
    | nil => simp [push_from_iter]
    | cons x iter => simp [push_from_iter, ih]

end acquire_write

/-! ## Enqueue -/

section enqueue
variable {T : Type}

theorem isEmpty_append_singleton (xs : List T) (x : T) : (xs ++ [x]).isEmpty = false := by
  cases xs <;> rfl

theorem lf_queue.enqueue_move_eq (q : lf_queue T) (fuel s : Nat) (x : T) :
    q.enqueue_move fuel s x = q.enqueue fuel s x := rfl

theorem lf_queue.enqueue_emplace_eq (q : lf_queue T) (fuel s : Nat) (x : T) :
    q.enqueue_emplace fuel s x = q.enqueue fuel s x := rfl

theorem lf_queue.enqueue_bulk_some (q : lf_queue T) (fuel s : Nat) (iter : List T) (count : Nat)
    (r : Bool × lf_queue T) (h : q.enqueue_bulk fuel s iter count = some r) :
    count ≤ iter.length ∧ ∃ k p, (q.data_ k).atomic_ptr = some p ∧
      r = (true,
        { data_ := Function.update q.data_ k
            { atomic_ptr := some p, dirty_ := !(q.heap p ++ iter.take count).isEmpty }
          heap := Function.update q.heap p (q.heap p ++ iter.take count) }) := by
  unfold lf_queue.enqueue_bulk at h
  cases hacq : q.acquire_queue fuel s with
  | none => simp [hacq] at h
  | some a =>
    obtain ⟨g, q1⟩ := a
    obtain ⟨k, p, rfl, hk, rfl⟩ := q.acquire_queue_loop_some s fuel 0 g q1 hacq
    simp only [hacq, lf_queue.set_slot_heap, push_from_iter_eq] at h
    by_cases hc : count ≤ iter.length
    · rw [if_pos hc] at h
      simp only [Option.some.injEq] at h
      refine ⟨hc, k, p, by rw [hk], ?_⟩
      rw [← h, lf_queue.release_after_acquire]
    · rw [if_neg hc] at h
      simp at h

theorem lf_queue.enqueue_some (q : lf_queue T) (fuel s : Nat) (x : T)
    (r : Bool × lf_queue T) (h : q.enqueue fuel s x = some r) :
    ∃ k p, (q.data_ k).atomic_ptr = some p ∧
      r = (true,
        { data_ := Function.update q.data_ k { atomic_ptr := some p, dirty_ := true }
          heap := Function.update q.heap p (q.heap p ++ [x]) }) := by
  unfold lf_queue.enqueue at h
  cases hacq : q.acquire_queue fuel s with
  | none => simp [hacq] at h
  | some a =>
    obtain ⟨g, q1⟩ := a
    obtain ⟨k, p, rfl, hk, rfl⟩ := q.acquire_queue_loop_some s fuel 0 g q1 hacq
    simp only [hacq, lf_queue.set_slot_heap, Option.some.injEq] at h
    refine ⟨k, p, by rw [hk], ?_⟩
    rw [← h, lf_queue.release_after_acquire, isEmpty_append_singleton]
    rfl

theorem lf_queue.enqueue_all_free (q : lf_queue T) (hq : q.AllFree) (fuel s : Nat) (x : T) :
    q.enqueue (fuel + 1) s x = some (true,
      { data_ := Function.update q.data_ (shard_index s 0)
          { atomic_ptr := some (shard_index s 0), dirty_ := true }
        heap := Function.update q.heap (shard_index s 0) (q.heap (shard_index s 0) ++ [x]) }) := by
  unfold lf_queue.enqueue
  rw [q.acquire_queue_all_free hq s fuel]
  simp only [lf_queue.set_slot_heap]
  rw [lf_queue.release_after_acquire, isEmpty_append_singleton]
  rfl

theorem lf_queue.enqueue_bulk_all_free (q : lf_queue T) (hq : q.AllFree) (fuel s : Nat)
    (iter : List T) (count : Nat) (hc : count ≤ iter.length) :
    q.enqueue_bulk (fuel + 1) s iter count = some (true,
      { data_ := Function.update q.data_ (shard_index s 0)
          { atomic_ptr := some (shard_index s 0),
            dirty_ := !(q.heap (shard_index s 0) ++ iter.take count).isEmpty }
        heap := Function.update q.heap (shard_index s 0)
          (q.heap (shard_index s 0) ++ iter.take count) }) := by
  unfold lf_queue.enqueue_bulk
  rw [q.acquire_queue_all_free hq s fuel]
  simp only [lf_queue.set_slot_heap, push_from_iter_eq, if_pos hc]
  rw [lf_queue.release_after_acquire]

/-- C4: each of the three `enqueue` overloads returns true whenever it returns;
in a state where every slot is free it returns (one probe suffices), the item
is appended at the back of shard `get_index() & 31`, behind that shard's
earlier contents, that shard's dirty flag becomes true, and the contents and
dirty flag of every other shard are unchanged. -/
theorem lf_queue.enqueue_appends_at_start_shard (q : lf_queue T) (fuel s : Nat) (x : T) :
    (∀ r, q.enqueue fuel s x = some r → r.1 = true) ∧
    (∀ r, q.enqueue_move fuel s x = some r → r.1 = true) ∧
    (∀ r, q.enqueue_emplace fuel s x = some r → r.1 = true) ∧
    (q.AllFree → 0 < fuel → ∃ q',
      q.enqueue fuel s x = some (true, q') ∧
      q.enqueue_move fuel s x = some (true, q') ∧
      q.enqueue_emplace fuel s x = some (true, q') ∧
      (shard_index s 0).val = (s % 4294967296) &&& 31 ∧
      q'.heap (shard_index s 0) = q.heap (shard_index s 0) ++ [x] ∧
      (q'.data_ (shard_index s 0)).dirty_ = true ∧
      ∀ j, j ≠ shard_index s 0 →
        q'.heap j = q.heap j ∧ (q'.data_ j).dirty_ = (q.data_ j).dirty_) := by
  have htrue : ∀ r, q.enqueue fuel s x = some r → r.1 = true := by
    intro r h
    obtain ⟨k, p, _, rfl⟩ := q.enqueue_some fuel s x r h
    rfl
  refine ⟨htrue, htrue, htrue, ?_⟩
  intro hq hfuel
  obtain ⟨f, rfl⟩ := Nat.exists_eq_succ_of_ne_zero (Nat.pos_iff_ne_zero.mp hfuel)
  have h := q.enqueue_all_free hq f s x
  refine ⟨_, h, h, h, rfl, by simp, by simp, ?_⟩
  intro j hj
  simp [Function.update_noteq hj]

/-- Witness for C4: one `enqueue` of 7 on the freshly constructed queue, with
`get_index() = 0`. -/
theorem lf_queue.enqueue_appends_at_start_shard_witness :
    (lf_queue.construct : lf_queue Nat).AllFree ∧ 0 < 1 ∧
    ∃ q' : lf_queue Nat,
      lf_queue.construct.enqueue 1 0 7 = some (true, q') ∧
      lf_queue.construct.enqueue_move 1 0 7 = some (true, q') ∧
      lf_queue.construct.enqueue_emplace 1 0 7 = some (true, q') ∧
      (shard_index 0 0).val = (0 % 4294967296) &&& 31 ∧
      q'.heap (shard_index 0 0) = (lf_queue.construct : lf_queue Nat).heap (shard_index 0 0) ++ [7] ∧
      (q'.data_ (shard_index 0 0)).dirty_ = true ∧
      ∀ j, j ≠ shard_index 0 0 →
        q'.heap j = (lf_queue.construct : lf_queue Nat).heap j ∧
          (q'.data_ j).dirty_ = ((lf_queue.construct : lf_queue Nat).data_ j).dirty_ :=
  ⟨fun _ => rfl, by decide,
    (lf_queue.enqueue_appends_at_start_shard lf_queue.construct 1 0 7).2.2.2 (fun _ => rfl)
      (by decide)⟩

/-- C5: `enqueue_bulk(iter, count)` returns true whenever it returns, and then
the `count` items read from `iter` stand, in iteration order, at the back of
one sub-queue, the one behind a slot that was free, after what that sub-queue
held; no other sub-queue changes, and for `count = 0` none changes.  It does
return when some slot is free, `num_queues` probes are allowed and the input
range holds `count` items. -/
theorem lf_queue.enqueue_bulk_appends (q : lf_queue T) (fuel s : Nat) (iter : List T)
    (count : Nat) :
    (∀ r, q.enqueue_bulk fuel s iter count = some r →
      r.1 = true ∧ (iter.take count).length = count ∧
      (∃ k p, (q.data_ k).atomic_ptr = some p ∧
        r.2.heap p = q.heap p ++ iter.take count ∧ ∀ j, j ≠ p → r.2.heap j = q.heap j) ∧
      (count = 0 → r.2.heap = q.heap)) ∧
    ((∃ j, (q.data_ j).atomic_ptr ≠ none) → num_queues ≤ fuel → count ≤ iter.length →
      ∃ q', q.enqueue_bulk fuel s iter count = some (true, q')) := by
  constructor
  · intro r h
    obtain ⟨hc, k, p, hk, rfl⟩ := q.enqueue_bulk_some fuel s iter count r h
    refine ⟨rfl, by simp [hc], ⟨k, p, hk, by simp, ?_⟩, ?_⟩
    · intro j hj
      simp [Function.update_noteq hj]
    · intro h0
      subst h0
      simp
  · intro hfree hfuel hc
    obtain ⟨a, hacq⟩ := q.acquire_queue_total s fuel hfree hfuel
    obtain ⟨g, q1⟩ := a
    obtain ⟨k, p, rfl, hk, rfl⟩ := q.acquire_queue_loop_some s fuel 0 g q1 hacq
    unfold lf_queue.enqueue_bulk
    simp only [hacq, lf_queue.set_slot_heap, push_from_iter_eq, if_pos hc]
    exact ⟨_, rfl⟩

/-- Witness for C5: `enqueue_bulk` of three items on the fresh queue. -/
theorem lf_queue.enqueue_bulk_appends_witness :
    (∃ j, (((lf_queue.construct : lf_queue Nat).data_ j).atomic_ptr ≠ none)) ∧
    num_queues ≤ 32 ∧ 3 ≤ [10, 20, 30].length ∧
    ∃ q' : lf_queue Nat, lf_queue.construct.enqueue_bulk 32 0 [10, 20, 30] 3 = some (true, q') :=
  ⟨⟨0, by decide⟩, by decide, by decide,
    (lf_queue.enqueue_bulk_appends lf_queue.construct 32 0 [10, 20, 30] 3).2 ⟨0, by decide⟩
      (by decide) (by decide)⟩

end enqueue

/-! ## Single dequeue -/

section dequeue
variable {T : Type}

/-- C2: `try_dequeue(item)` always returns, and it returns true exactly when an
item was moved into `item`: on true, `item` holds the former front element of
one sub-queue, which has lost exactly that element, every other sub-queue is
unchanged; on false, `item` and every sub-queue are unchanged.  In both cases
every slot points to the sub-queue it pointed to before. -/
theorem lf_queue.try_dequeue_true_iff_moved (q : lf_queue T) (idx : Nat → Nat) (item : T) :
    ∃ b v q', q.try_dequeue idx item = some (b, v, q') ∧
      (∀ i, (q'.data_ i).atomic_ptr = (q.data_ i).atomic_ptr) ∧
      ((b = true ∧ ∃ s rest, q.heap s = v :: rest ∧ q'.heap s = rest ∧
          ∀ j, j ≠ s → q'.heap j = q.heap j) ∨
        (b = false ∧ v = item ∧ ∀ j, q'.heap j = q.heap j)) := by
  obtain ⟨b, v, q', hres, hptr, hcase, _⟩ :=
    lf_queue.try_dequeue_loop_spec idx (num_queues + 1) 0 item q (by omega) (by omega)
  refine ⟨b, v, q', hres, hptr, ?_⟩
  rcases hcase with ⟨hb, s, rest, hs, hheap⟩ | ⟨hb, hv, hheap⟩
  · refine Or.inl ⟨hb, s, rest, hs, by simp [hheap], ?_⟩
    intro j hj
    simp [hheap, Function.update_noteq hj]
  · exact Or.inr ⟨hb, hv, fun j => by rw [hheap]⟩

theorem lf_queue.try_dequeue_of_empty (q : lf_queue T) (hempty : ∀ p, q.heap p = [])
    (idx : Nat → Nat) (item : T) :
    ∃ q', q.try_dequeue idx item = some (false, item, q') ∧ ∀ p, q'.heap p = [] := by
  obtain ⟨b, v, q', hres, _, hcase, _⟩ :=
    lf_queue.try_dequeue_loop_spec idx (num_queues + 1) 0 item q (by omega) (by omega)
  rcases hcase with ⟨_, s, rest, hs, _⟩ | ⟨hb, hv, hheap⟩
  · rw [hempty s] at hs
    cases hs
  · subst hb hv
    exact ⟨q', hres, fun p => by rw [hheap]; exact hempty p⟩

/-- C3: when every sub-queue is empty, whatever the dirty flags and the start
indices, `try_dequeue` returns false and leaves `item` alone, and so does each
of any number `n` of further calls. -/
theorem lf_queue.try_dequeue_false_when_empty (q : lf_queue T) (hempty : ∀ p, q.heap p = [])
    (idx : Nat → Nat → Nat) (item : T) (n k : Nat) :
    ∃ q', lf_queue.try_dequeue_repeat idx n k item q = some (List.replicate n false, item, q') ∧
      ∀ p, q'.heap p = [] := by
  induction n generalizing q k with
  | zero => exact ⟨q, rfl, hempty⟩
  | succ n ih =>
    obtain ⟨q1, h1, he1⟩ := q.try_dequeue_of_empty hempty (idx k) item
    obtain ⟨q2, h2, he2⟩ := ih q1 he1 (k + 1)
    refine ⟨q2, ?_, he2⟩
    simp [lf_queue.try_dequeue_repeat, h1, h2, List.replicate_succ]

/-- Witness for C3: three calls on a queue whose sub-queues are all empty while
all 32 dirty flags are stale. -/
theorem lf_queue.try_dequeue_false_when_empty_witness :
    (∀ p, ({ data_ := fun i => { atomic_ptr := some i, dirty_ := true }
             heap := fun _ => [] } : lf_queue Nat).heap p = []) ∧
    ∃ q' : lf_queue Nat,
      lf_queue.try_dequeue_repeat (fun _ _ => 0) 3 0 5
          { data_ := fun i => { atomic_ptr := some i, dirty_ := true }, heap := fun _ => [] } =
        some (List.replicate 3 false, 5, q') ∧
      ∀ p, q'.heap p = [] :=
  ⟨fun _ => rfl,
    lf_queue.try_dequeue_false_when_empty
      { data_ := fun i => { atomic_ptr := some i, dirty_ := true }, heap := fun _ => [] }
      (fun _ => rfl) (fun _ _ => 0) 5 3 0⟩

end dequeue

/-! ## No loss in a single-threaded run -/

section no_loss
variable {T : Type}

theorem lf_queue.exact_update (q : lf_queue T) (hf : q.AllFree) (he : q.DirtyExact)
    (k : Fin num_queues) (xs : List T) :
    ({ data_ := Function.update q.data_ k { atomic_ptr := some k, dirty_ := !xs.isEmpty }
       heap := Function.update q.heap k xs } : lf_queue T).AllFree ∧
    ({ data_ := Function.update q.data_ k { atomic_ptr := some k, dirty_ := !xs.isEmpty }
       heap := Function.update q.heap k xs } : lf_queue T).DirtyExact := by
  constructor
  · intro i
    by_cases hi : i = k
    · subst hi; simp
    · simpa [Function.update_noteq hi] using hf i
  · intro i
    by_cases hi : i = k
    · subst hi; simp
    · simpa [Function.update_noteq hi] using he i

theorem lf_queue.all_items_update (d d' : Fin num_queues → aligned_atomic_ptr)
    (h : Fin num_queues → List T) (k : Fin num_queues) (xs : List T) :
    lf_queue.all_items { data_ := d', heap := Function.update h k xs } + (h k : Multiset T) =
      lf_queue.all_items { data_ := d, heap := h } + (xs : Multiset T) := by
  have hfun : (fun i => ((Function.update h k xs i : List T) : Multiset T)) =
      Function.update (fun i => (h i : Multiset T)) k (xs : Multiset T) := by
    funext i
    by_cases hi : i = k
    · subst hi; simp
    · simp [Function.update_noteq hi]
  simp only [lf_queue.all_items]
  rw [hfun, Finset.sum_update_of_mem (Finset.mem_univ k),
    Finset.sum_eq_add_sum_diff_singleton (Finset.mem_univ k) (fun i => (h i : Multiset T))]
  abel

theorem lf_queue.all_items_append (d d' : Fin num_queues → aligned_atomic_ptr)
    (h : Fin num_queues → List T) (k : Fin num_queues) (ys : List T) :
    lf_queue.all_items { data_ := d', heap := Function.update h k (h k ++ ys) } =
      lf_queue.all_items { data_ := d, heap := h } + (ys : Multiset T) := by
  have hsum := lf_queue.all_items_update d d' h k (h k ++ ys)
  rw [← Multiset.coe_add, ← add_assoc, add_right_comm] at hsum
  exact add_right_cancel hsum

theorem lf_queue.all_items_pop (d d' : Fin num_queues → aligned_atomic_ptr)
    (h : Fin num_queues → List T) (k : Fin num_queues) (x : T) (rest : List T)
    (hk : h k = x :: rest) :
    lf_queue.all_items { data_ := d, heap := h } =
      x ::ₘ lf_queue.all_items { data_ := d', heap := Function.update h k rest } := by
  have hsum := lf_queue.all_items_update d d' h k rest
  rw [hk, ← Multiset.cons_coe, Multiset.add_cons, ← Multiset.cons_add] at hsum
  exact (add_right_cancel hsum).symm

theorem lf_queue.all_items_of_empty (q : lf_queue T) (h : ∀ i, q.heap i = []) :
    q.all_items = 0 := by
  simp [lf_queue.all_items, h]

theorem lf_queue.try_dequeue_loop_exact (idx : Nat → Nat) (fuel iters : Nat) (item : T)
    (q : lf_queue T) (hf : q.AllFree) (he : q.DirtyExact) :
    ((∀ i, q.heap i = []) ∧
      lf_queue.try_dequeue_loop idx (fuel + 1) iters item q = some (false, item, q)) ∨
    ∃ k x rest, q.heap k = x :: rest ∧
      lf_queue.try_dequeue_loop idx (fuel + 1) iters item q = some (true, x,
        { data_ := Function.update q.data_ k { atomic_ptr := some k, dirty_ := !rest.isEmpty }
          heap := Function.update q.heap k rest }) := by
  unfold lf_queue.try_dequeue_loop
  rcases q.acquire_queue_dequeue_cases (idx iters) with ⟨hacq, hnone⟩ | ⟨m, p, _, hslot, _, hacq⟩
  · left
    constructor
    · intro i
      have hi := hnone i
      simp only [lf_queue.eligible, hf i, ne_eq, not_false_eq_true, and_true, reduceCtorEq,
        Bool.not_eq_true] at hi
      have := he i
      rw [hi] at this
      cases hh : q.heap i with
      | nil => rfl
      | cons a l => rw [hh] at this; simp at this
    · simp [hacq, queue_holder.destroy_null]
  · right
    have hp : p = shard_index (idx iters) m := by
      have := hf (shard_index (idx iters) m)
      rw [hslot] at this
      exact Option.some.inj this
    subst hp
    have hd := he (shard_index (idx iters) m)
    rw [hslot] at hd
    simp only [hacq, lf_queue.set_slot_heap]
    cases hq : q.heap (shard_index (idx iters) m) with
    | nil => rw [hq] at hd; simp at hd
    | cons front rest =>
      simp only
      rw [lf_queue.release_after_acquire]
      exact ⟨_, front, rest, hq, rfl⟩

theorem lf_queue.enqueue_all_spec (fuel : Nat) (starts : Nat → Nat) :
    ∀ (items : List T) (k : Nat) (q : lf_queue T), q.AllFree → q.DirtyExact →
      ∃ q', lf_queue.enqueue_all (fuel + 1) starts k items q = some q' ∧
        q'.AllFree ∧ q'.DirtyExact ∧ q'.all_items = q.all_items + (items : Multiset T) := by
  intro items
  induction items with
  | nil => intro k q hf he; exact ⟨q, rfl, hf, he, by simp⟩
  | cons x xs ih =>
    intro k q hf he
    have hstep := q.enqueue_all_free hf fuel (starts k) x
    have hupd := q.exact_update hf he (shard_index (starts k) 0)
      (q.heap (shard_index (starts k) 0) ++ [x])
    rw [isEmpty_append_singleton] at hupd
    obtain ⟨q', hres, hf', he', hitems⟩ := ih (k + 1) _ hupd.1 hupd.2
    refine ⟨q', ?_, hf', he', ?_⟩
    · simp only [lf_queue.enqueue_all, hstep]
      exact hres
    · rw [hitems, lf_queue.all_items_append q.data_, add_assoc, Multiset.coe_add]
      rfl

end no_loss

section no_loss_claim
variable {T : Type}

theorem lf_queue.drain_spec (idx : Nat → Nat → Nat) :
    ∀ (n k : Nat) (item : T) (q : lf_queue T), q.AllFree → q.DirtyExact →
      Multiset.card q.all_items < n →
      ∃ out q', lf_queue.drain idx n k item q = some (out, q') ∧
        (out : Multiset T) = q.all_items ∧ ∀ i, q'.heap i = [] := by
  intro n
  induction n with
  | zero => intro k item q _ _ h; omega
  | succ n ih =>
    intro k item q hf he hcard
    rcases lf_queue.try_dequeue_loop_exact (idx k) num_queues 0 item q hf he with
      ⟨hempty, hres⟩ | ⟨s, x, rest, hs, hres⟩
    · refine ⟨[], q, ?_, ?_, hempty⟩
      · simp only [lf_queue.drain, lf_queue.try_dequeue, hres]
      · rw [q.all_items_of_empty hempty]; rfl
    · have hupd := q.exact_update hf he s rest
      have hpop := lf_queue.all_items_pop q.data_
        (Function.update q.data_ s { atomic_ptr := some s, dirty_ := !rest.isEmpty })
        q.heap s x rest hs
      have hpop' : q.all_items = x ::ₘ
          ({ data_ := Function.update q.data_ s { atomic_ptr := some s, dirty_ := !rest.isEmpty }
             heap := Function.update q.heap s rest } : lf_queue T).all_items := hpop
      obtain ⟨out, q', hd, hout, hfin⟩ := ih (k + 1) x _ hupd.1 hupd.2 (by
        rw [hpop', Multiset.card_cons] at hcard
        omega)
      refine ⟨x :: out, q', ?_, ?_, hfin⟩
      · simp only [lf_queue.drain, lf_queue.try_dequeue, hres, hd]
      · rw [hpop', ← hout]; rfl

/-- C1: starting from a freshly constructed queue, one `enqueue` per item of
any finite list (whatever `get_index()` returns) followed by `try_dequeue`
calls until the first false delivers a list of values whose multiset equals
the multiset of the enqueued items; the drain stops after `items.length`
successes and leaves every sub-queue empty. -/
theorem lf_queue.no_loss_single_threaded (items : List T) (fuel : Nat) (starts : Nat → Nat)
    (idx : Nat → Nat → Nat) (item : T) (n : Nat) (hn : items.length < n) :
    ∃ q1 out q2,
      lf_queue.enqueue_all (fuel + 1) starts 0 items lf_queue.construct = some q1 ∧
      lf_queue.drain idx n 0 item q1 = some (out, q2) ∧
      (out : Multiset T) = (items : Multiset T) ∧ ∀ i, q2.heap i = [] := by
  have hf : (lf_queue.construct : lf_queue T).AllFree := fun _ => rfl
  have he : (lf_queue.construct : lf_queue T).DirtyExact := fun _ => rfl
  obtain ⟨q1, h1, hf1, he1, hitems⟩ :=
    lf_queue.enqueue_all_spec fuel starts items 0 lf_queue.construct hf he
  have hzero : (lf_queue.construct : lf_queue T).all_items = 0 :=
    lf_queue.all_items_of_empty _ (fun _ => rfl)
  rw [hzero, zero_add] at hitems
  obtain ⟨out, q2, h2, hout, hfin⟩ := lf_queue.drain_spec idx n 0 item q1 hf1 he1 (by
    rw [hitems, Multiset.coe_card]
    exact hn)
  exact ⟨q1, out, q2, h1, h2, hout.trans hitems, hfin⟩

/-- Witness for C1: the items 1, 2, 3, with `get_index()` returning 0, 5, 10
for the enqueues and 0 for the dequeues. -/
theorem lf_queue.no_loss_single_threaded_witness :
    [1, 2, 3].length < 4 ∧
    ∃ (q1 : lf_queue Nat) (out : List Nat) (q2 : lf_queue Nat),
      lf_queue.enqueue_all (0 + 1) (fun k => 5 * k) 0 [1, 2, 3] lf_queue.construct = some q1 ∧
      lf_queue.drain (fun _ _ => 0) 4 0 0 q1 = some (out, q2) ∧
      (out : Multiset Nat) = (([1, 2, 3] : List Nat) : Multiset Nat) ∧ ∀ i, q2.heap i = [] :=
  ⟨by decide,
    lf_queue.no_loss_single_threaded [1, 2, 3] 0 (fun k => 5 * k) (fun _ _ => 0) 0 4 (by decide)⟩

end no_loss_claim

/-! ## Bulk dequeue -/

section bulk
variable {T : Type}

theorem queue_holder.destroy_eq (k p : Fin num_queues) (q : lf_queue T) :
    (queue_holder.mk k (some p)).destroy q =
      { data_ := Function.update q.data_ k
          { atomic_ptr := some p, dirty_ := !(q.heap p).isEmpty }
        heap := q.heap } :=
  lf_queue.ext_fields (queue_holder.destroy_data k p q) (queue_holder.destroy_heap _ q)

/-- C6: scenario 4 evaluated on the code, with the items 1..5 and
`get_index() = 0`: `enqueue_bulk` of the 5 items on the fresh queue returns
true, the first `try_dequeue_bulk(out, 3)` returns 3 and writes 1, 2, 3, and
the second `try_dequeue_bulk(out, 3)`, after taking the remaining 4, 5,
re-acquires, gets the failure guard and evaluates `queue()` on its null
pointer: it has no result. -/
theorem lf_queue.scenario4_second_call_uses_null_guard :
    ∃ q1 q2 : lf_queue Nat,
      lf_queue.construct.enqueue_bulk 1 0 [1, 2, 3, 4, 5] 5 = some (true, q1) ∧
      q1.try_dequeue_bulk (fun _ => 0) 3 = Except.ok (3, [1, 2, 3], q2) ∧
      q2.heap 0 = [4, 5] ∧
      q2.try_dequeue_bulk (fun _ => 0) 3 = Except.error failure.null_guard :=
  ⟨_, _, rfl, rfl, rfl, rfl⟩

/-- C7: on the state reached by one `enqueue(7)` on the fresh queue
(`get_index() = 0`), `try_dequeue_bulk(out, 2)` takes the single item, finds no
other shard at the re-acquisition of line 305 and evaluates `queue()` on the
null guard it got back: it has no result. -/
theorem lf_queue.try_dequeue_bulk_uses_null_guard :
    ∃ q1 : lf_queue Nat,
      lf_queue.construct.enqueue 1 0 7 = some (true, q1) ∧
      q1.try_dequeue_bulk (fun _ => 0) 2 = Except.error failure.null_guard :=
  ⟨_, rfl, rfl⟩

end bulk

section bulk_round_trip
variable {T : Type}

theorem lf_queue.try_dequeue_bulk_single_shard (q : lf_queue T) (k : Fin num_queues)
    (xs : List T) (idx : Nat → Nat)
    (hdata : ∀ i, q.data_ i =
      if i = k then { atomic_ptr := some k, dirty_ := !xs.isEmpty }
      else { atomic_ptr := some i, dirty_ := false })
    (hheap : ∀ i, q.heap i = if i = k then xs else []) :
    ∃ q2, q.try_dequeue_bulk idx xs.length = Except.ok (xs.length, xs, q2) ∧
      ∀ p, q2.heap p = [] := by
  unfold lf_queue.try_dequeue_bulk
  rcases q.acquire_queue_dequeue_cases (idx 0) with ⟨hacq, hnone⟩ | ⟨m, p, _, hslot, _, hacq⟩
  · have hk := hnone k
    simp only [lf_queue.eligible, hdata k, if_true, ne_eq, reduceCtorEq, not_false_eq_true,
      and_true, Bool.not_eq_true, Bool.not_eq_false'] at hk
    have hxs : xs = [] := by
      cases xs with
      | nil => rfl
      | cons a l => simp at hk
    subst hxs
    refine ⟨q, by simp [hacq, queue_holder.destroy_null], ?_⟩
    intro p
    rw [hheap p]
    split <;> rfl
  · rw [hdata] at hslot
    by_cases hm : shard_index (idx 0) m = k
    · rw [if_pos hm] at hslot
      have hp : p = k := by
        have := congrArg aligned_atomic_ptr.atomic_ptr hslot
        exact (Option.some.inj this).symm
      have hne : xs.isEmpty = false := by
        have := congrArg aligned_atomic_ptr.dirty_ hslot
        simpa using this
      have hpos : 0 < xs.length := by
        cases xs with
        | nil => simp at hne
        | cons a l => simp
      subst hp
      simp only [hacq]
      unfold lf_queue.try_dequeue_bulk_loop
      simp only [lf_queue.set_slot_heap, hheap p, if_true, hpos, Nat.sub_zero, Nat.min_self,
        Nat.zero_add, true_or, List.take_length, List.drop_length, List.nil_append]
      rw [queue_holder.destroy_eq]
      refine ⟨_, rfl, ?_⟩
      intro j
      by_cases hj : j = p
      · subst hj; simp
      · simp [Function.update_noteq hj, hheap j, hj]
    · rw [if_neg hm] at hslot
      have := congrArg aligned_atomic_ptr.dirty_ hslot
      simp at this

/-- C8: for every list `xs`, `enqueue_bulk(xs, n)` with `n = xs.length` on a
freshly constructed queue followed by `try_dequeue_bulk(out, n)` returns `n`
and writes exactly `xs`, in order, leaving every sub-queue empty, whatever
`get_index()` returns in either call. -/
theorem lf_queue.enqueue_bulk_try_dequeue_bulk_round_trip (xs : List T) (fuel s : Nat)
    (idx : Nat → Nat) :
    ∃ q1 q2,
      lf_queue.construct.enqueue_bulk (fuel + 1) s xs xs.length = some (true, q1) ∧
      q1.try_dequeue_bulk idx xs.length = Except.ok (xs.length, xs, q2) ∧
      ∀ p, q2.heap p = [] := by
  have h1 := (lf_queue.construct : lf_queue T).enqueue_bulk_all_free (fun _ => rfl) fuel s xs
    xs.length (Nat.le_refl _)
  have hnil : (lf_queue.construct : lf_queue T).heap (shard_index s 0) = [] := rfl
  rw [List.take_length, hnil, List.nil_append] at h1
  obtain ⟨q2, h2, h3⟩ := lf_queue.try_dequeue_bulk_single_shard
    (lf_queue.mk
      (Function.update (lf_queue.construct : lf_queue T).data_ (shard_index s 0)
        (aligned_atomic_ptr.mk (some (shard_index s 0)) (!xs.isEmpty)))
      (Function.update (lf_queue.construct : lf_queue T).heap (shard_index s 0) xs))
    (shard_index s 0) xs idx
    (fun i => by
      by_cases hi : i = shard_index s 0
      · subst hi; simp
      · simp [Function.update_noteq hi, hi, lf_queue.construct])
    (fun i => by
      by_cases hi : i = shard_index s 0
      · subst hi; simp
      · simp [Function.update_noteq hi, hi, lf_queue.construct])
  exact ⟨_, q2, h1, h2, h3⟩

end bulk_round_trip

/-! ## The dirty hint never hides a stored item -/

section dirty_sound
variable {T : Type}

theorem lf_queue.release_held (q : lf_queue T) (k : Fin num_queues) (h : q.HeldAt k) :
    ((queue_holder.mk k (some k)).destroy q).AllFree ∧
      ((queue_holder.mk k (some k)).destroy q).DirtySound := by
  rw [queue_holder.destroy_eq]
  obtain ⟨_, hfree, hsound⟩ := h
  constructor
  · intro i
    by_cases hi : i = k
    · subst hi; simp
    · simpa [Function.update_noteq hi] using hfree i hi
  · intro i
    by_cases hi : i = k
    · subst hi
      intro hne
      cases hh : q.heap i with
      | nil => exact absurd hh hne
      | cons a l => simp [hh]
    · simpa [Function.update_noteq hi] using hsound i hi

theorem lf_queue.HeldAt_set_queue (q : lf_queue T) (k : Fin num_queues) (h : q.HeldAt k)
    (xs : List T) : (q.set_queue k xs).HeldAt k := by
  obtain ⟨hk, hfree, hsound⟩ := h
  refine ⟨hk, hfree, ?_⟩
  intro i hi
  simpa [Function.update_noteq hi] using hsound i hi

theorem lf_queue.HeldAt_of_acquire (q : lf_queue T) (hf : q.AllFree) (hs : q.DirtySound)
    (k : Fin num_queues) :
    (q.set_slot k { atomic_ptr := none, dirty_ := true }).HeldAt k := by
  refine ⟨by simp, ?_, ?_⟩
  · intro i hi
    simpa [Function.update_noteq hi] using hf i
  · intro i hi
    simpa [Function.update_noteq hi] using hs i

theorem lf_queue.try_dequeue_bulk_loop_sound (idx : Nat → Nat) (items : Nat) :
    ∀ (fuel : Nat) (k : Fin num_queues) (count iters : Nat) (output : List T)
      (q : lf_queue T) (r : Nat × List T × lf_queue T), q.HeldAt k →
      lf_queue.try_dequeue_bulk_loop idx items fuel { index_ := k, ptr_ := some k } k
        count iters output q = Except.ok r →
      r.2.2.AllFree ∧ r.2.2.DirtySound := by
  intro fuel
  induction fuel with
  | zero => intro k count iters output q r _ h; simp [lf_queue.try_dequeue_bulk_loop] at h
  | succ fuel ih =>
    intro k count iters output q r hheld h
    unfold lf_queue.try_dequeue_bulk_loop at h
    by_cases hc : count < items
    · rw [if_pos hc] at h
      simp only at h
      have hheld1 := q.HeldAt_set_queue k hheld
        ((q.heap k).drop (min (q.heap k).length (items - count)))
      by_cases hret : count + min (q.heap k).length (items - count) = items ∨ iters = num_queues
      · rw [if_pos hret] at h
        simp only [Except.ok.injEq] at h
        subst h
        exact lf_queue.release_held _ k hheld1
      · rw [if_neg hret] at h
        generalize hq1 : q.set_queue k ((q.heap k).drop (min (q.heap k).length (items - count)))
          = q1 at h hheld1
        rcases q1.acquire_queue_dequeue_cases (idx (iters + 1)) with
          ⟨hacq, _⟩ | ⟨m, p, _, hslot, _, hacq⟩
        · simp [hacq, queue_holder.move_assign] at h
        · have hne : shard_index (idx (iters + 1)) m ≠ k := by
            intro heq
            rw [heq, hheld1.1] at hslot
            simp at hslot
          have hp : p = shard_index (idx (iters + 1)) m := by
            have := hheld1.2.1 _ hne
            rw [hslot] at this
            exact Option.some.inj this
          subst hp
          simp only [hacq, queue_holder.move_assign, queue_holder.destroy_null] at h
          refine ih _ _ _ _ _ r ?_ h
          obtain ⟨hk, hfree, hsound⟩ := hheld1
          refine ⟨?_, ?_, ?_⟩
          · simp [Function.update_noteq hne, aligned_atomic_ptr.store]
          · intro i hi
            by_cases hik : i = k
            · subst hik; simp [aligned_atomic_ptr.store]
            · simpa [Function.update_noteq hik, Function.update_noteq hi,
                aligned_atomic_ptr.store] using hfree i hik
          · intro i hi
            by_cases hik : i = k
            · subst hik
              intro _
              simp [aligned_atomic_ptr.store, Function.update_noteq hi, hk]
            · simpa [Function.update_noteq hik, Function.update_noteq hi,
                aligned_atomic_ptr.store] using hsound i hik
    · rw [if_neg hc] at h
      simp only [Except.ok.injEq] at h
      subst h
      exact lf_queue.release_held _ k hheld

theorem lf_queue.try_dequeue_bulk_sound (q : lf_queue T) (hf : q.AllFree) (hs : q.DirtySound)
    (idx : Nat → Nat) (items : Nat) (r : Nat × List T × lf_queue T)
    (h : q.try_dequeue_bulk idx items = Except.ok r) : r.2.2.AllFree ∧ r.2.2.DirtySound := by
  unfold lf_queue.try_dequeue_bulk at h
  rcases q.acquire_queue_dequeue_cases (idx 0) with ⟨hacq, _⟩ | ⟨m, p, _, hslot, _, hacq⟩
  · simp only [hacq, queue_holder.destroy_null, Except.ok.injEq] at h
    subst h
    exact ⟨hf, hs⟩
  · have hp : p = shard_index (idx 0) m := by
      have := hf (shard_index (idx 0) m)
      rw [hslot] at this
      exact Option.some.inj this
    subst hp
    simp only [hacq] at h
    exact lf_queue.try_dequeue_bulk_loop_sound idx items _ _ _ _ _ _ r
      (q.HeldAt_of_acquire hf hs _) h

end dirty_sound

section reachable
variable {T : Type}

theorem lf_queue.debug_step_sound (acc : Option (Nat × lf_queue T)) (i : Fin num_queues)
    (hacc : ∀ a, acc = some a → a.2.AllFree ∧ a.2.DirtySound) :
    ∀ a, lf_queue.debug_step acc i = some a → a.2.AllFree ∧ a.2.DirtySound := by
  intro a h
  cases acc with
  | none => simp [lf_queue.debug_step] at h
  | some b =>
    obtain ⟨n, q⟩ := b
    obtain ⟨hf, hs⟩ := hacc (n, q) rfl
    have hfi : (q.data_ i).atomic_ptr = some i := hf i
    simp only [lf_queue.debug_step, aligned_atomic_ptr.load, hfi, Option.some.injEq] at h
    subst h
    refine ⟨hf, ?_⟩
    intro j
    by_cases hj : j = i
    · subst hj; simp
    · simpa [Function.update_noteq hj] using hs j

theorem lf_queue.debug_fold_sound (l : List (Fin num_queues)) :
    ∀ (acc : Option (Nat × lf_queue T)),
      (∀ a, acc = some a → a.2.AllFree ∧ a.2.DirtySound) →
      ∀ a, l.foldl lf_queue.debug_step acc = some a → a.2.AllFree ∧ a.2.DirtySound := by
  induction l with
  | nil => intro acc hacc a h; exact hacc a h
  | cons i l ih =>
    intro acc hacc a h
    exact ih _ (lf_queue.debug_step_sound acc i hacc) a h

theorem lf_queue.Reachable.all_free_and_sound {q : lf_queue T} (h : q.Reachable) :
    q.AllFree ∧ q.DirtySound := by
  induction h with
  | construct => exact ⟨fun _ => rfl, fun i hi => absurd rfl hi⟩
  | @enqueue q fuel s x r _ hr ih =>
    obtain ⟨k, p, hk, rfl⟩ := q.enqueue_some fuel s x r hr
    have hp : p = k := (Option.some.inj ((ih.1 k).symm.trans hk)).symm
    subst hp
    exact q.inv_update ih.1 ih.2 p _ true (fun _ => rfl)
  | @enqueue_move q fuel s x r _ hr ih =>
    obtain ⟨k, p, hk, rfl⟩ := q.enqueue_some fuel s x r hr
    have hp : p = k := (Option.some.inj ((ih.1 k).symm.trans hk)).symm
    subst hp
    exact q.inv_update ih.1 ih.2 p _ true (fun _ => rfl)
  | @enqueue_emplace q fuel s x r _ hr ih =>
    obtain ⟨k, p, hk, rfl⟩ := q.enqueue_some fuel s x r hr
    have hp : p = k := (Option.some.inj ((ih.1 k).symm.trans hk)).symm
    subst hp
    exact q.inv_update ih.1 ih.2 p _ true (fun _ => rfl)
  | @enqueue_bulk q fuel s iter count r _ hr ih =>
    obtain ⟨_, k, p, hk, rfl⟩ := q.enqueue_bulk_some fuel s iter count r hr
    have hp : p = k := (Option.some.inj ((ih.1 k).symm.trans hk)).symm
    subst hp
    exact q.inv_update ih.1 ih.2 p _ _ (fun hne => by
      cases hh : q.heap p ++ List.take count iter with
      | nil => exact absurd hh hne
      | cons a l => rfl)
  | @try_dequeue q idx item r _ hr ih =>
    obtain ⟨b, v, q', hres, hptr, _, hsound⟩ :=
      lf_queue.try_dequeue_loop_spec idx (num_queues + 1) 0 item q (by omega) (by omega)
    have hrq : r = (b, v, q') := Option.some.inj (hr.symm.trans hres)
    subst hrq
    exact ⟨fun i => (hptr i).trans (ih.1 i), hsound ih.1 ih.2⟩
  | @try_dequeue_bulk q idx items r _ hr ih =>
    exact q.try_dequeue_bulk_sound ih.1 ih.2 idx items r hr
  | @debug q r _ hr ih =>
    exact lf_queue.debug_fold_sound _ (some (0, q))
      (fun a ha => by cases ha; exact ih) r hr

/-- C10: in every state reached from construction by a single-threaded
sequence of completed public operations (`enqueue` in its three overloads,
`enqueue_bulk`, `try_dequeue`, `try_dequeue_bulk`, `debug`), every shard whose
sub-queue is non-empty has its dirty flag set. -/
theorem lf_queue.dirty_flag_set_on_nonempty_shard (q : lf_queue T) (h : q.Reachable)
    (i : Fin num_queues) (hne : q.heap i ≠ []) : (q.data_ i).dirty_ = true :=
  h.all_free_and_sound.2 i hne

/-- Witness for C10: the state after `enqueue(7)` on the fresh queue with
`get_index() = 0`; shard 0 holds 7 and is flagged. -/
theorem lf_queue.dirty_flag_set_on_nonempty_shard_witness :
    (lf_queue.mk
      (Function.update (lf_queue.construct : lf_queue Nat).data_ (shard_index 0 0)
        (aligned_atomic_ptr.mk (some (shard_index 0 0)) true))
      (Function.update (lf_queue.construct : lf_queue Nat).heap (shard_index 0 0)
        ((lf_queue.construct : lf_queue Nat).heap (shard_index 0 0) ++ [7]))).Reachable ∧
    (lf_queue.mk
      (Function.update (lf_queue.construct : lf_queue Nat).data_ (shard_index 0 0)
        (aligned_atomic_ptr.mk (some (shard_index 0 0)) true))
      (Function.update (lf_queue.construct : lf_queue Nat).heap (shard_index 0 0)
        ((lf_queue.construct : lf_queue Nat).heap (shard_index 0 0) ++ [7]))).heap 0 ≠ [] ∧
    ((lf_queue.mk
      (Function.update (lf_queue.construct : lf_queue Nat).data_ (shard_index 0 0)
        (aligned_atomic_ptr.mk (some (shard_index 0 0)) true))
      (Function.update (lf_queue.construct : lf_queue Nat).heap (shard_index 0 0)
        ((lf_queue.construct : lf_queue Nat).heap (shard_index 0 0) ++ [7]))).data_ 0).dirty_
      = true :=
  have hr := lf_queue.Reachable.enqueue lf_queue.Reachable.construct
    ((lf_queue.construct : lf_queue Nat).enqueue_all_free (fun _ => rfl) 0 0 7)
  ⟨hr, by decide, lf_queue.dirty_flag_set_on_nonempty_shard _ hr 0 (by decide)⟩

end reachable

/-! ## Single ownership under interleaving -/

section ownership
variable {T : Type}

theorem single_owner_take {slots : Fin num_queues → pointer}
    {own : Nat → List (Fin num_queues)} (h : single_owner slots own) (t : Nat)
    (p : Fin num_queues) (hp : slots p = some p) :
    single_owner (Function.update slots p none) (Function.update own t (p :: own t)) := by
  obtain ⟨h1, h2, h3, h4, h5⟩ := h
  have hnot : ∀ t', p ∉ own t' := by
    intro t' hmem
    have := h2 t' p hmem
    rw [hp] at this
    cases this
  refine ⟨?_, ?_, ?_, ?_, ?_⟩
  · intro i
    by_cases hi : i = p
    · subst hi; simp
    · simpa [Function.update_noteq hi] using h1 i
  · intro t' x hx
    by_cases hxp : x = p
    · subst hxp; simp
    · rw [Function.update_noteq hxp]
      by_cases ht : t' = t
      · subst ht
        simp only [Function.update_same, List.mem_cons] at hx
        rcases hx with hx | hx
        · exact absurd hx hxp
        · exact h2 _ x hx
      · rw [Function.update_noteq ht] at hx
        exact h2 t' x hx
  · intro t'
    by_cases ht : t' = t
    · subst ht
      simp only [Function.update_same, List.nodup_cons]
      exact ⟨hnot _, h3 _⟩
    · rw [Function.update_noteq ht]
      exact h3 t'
  · intro t1 t2 x hx1 hx2
    have hmem : ∀ t', x ∈ Function.update own t (p :: own t) t' → x = p ∨ x ∈ own t' := by
      intro t' hx
      by_cases ht : t' = t
      · subst ht
        simpa using hx
      · rw [Function.update_noteq ht] at hx
        exact Or.inr hx
    by_cases ht1 : t1 = t
    · by_cases ht2 : t2 = t
      · rw [ht1, ht2]
      · rw [Function.update_noteq ht2] at hx2
        rcases hmem t1 hx1 with hx | hx
        · subst hx; exact absurd hx2 (hnot _)
        · exact h4 _ _ x hx hx2
    · rw [Function.update_noteq ht1] at hx1
      rcases hmem t2 hx2 with hx | hx
      · subst hx; exact absurd hx1 (hnot _)
      · exact h4 _ _ x hx1 hx
  · intro x hx
    by_cases hxp : x = p
    · subst hxp
      exact ⟨t, by simp⟩
    · rw [Function.update_noteq hxp] at hx
      obtain ⟨t', ht'⟩ := h5 x hx
      refine ⟨t', ?_⟩
      by_cases ht : t' = t
      · subst ht; simp [ht']
      · rwa [Function.update_noteq ht]

theorem single_owner_give {slots : Fin num_queues → pointer}
    {own : Nat → List (Fin num_queues)} (h : single_owner slots own) (t : Nat)
    (p : Fin num_queues) (hp : p ∈ own t) :
    single_owner (Function.update slots p (some p))
      (Function.update own t ((own t).erase p)) := by
  obtain ⟨h1, h2, h3, h4, h5⟩ := h
  have hsub : ∀ t' x, x ∈ Function.update own t ((own t).erase p) t' → x ∈ own t' ∧ x ≠ p := by
    intro t' x hx
    by_cases ht : t' = t
    · subst ht
      simp only [Function.update_same] at hx
      exact ⟨List.mem_of_mem_erase hx, fun hxp => by
        subst hxp
        exact (List.Nodup.not_mem_erase (h3 _)) hx⟩
    · rw [Function.update_noteq ht] at hx
      refine ⟨hx, fun hxp => ?_⟩
      subst hxp
      exact ht (h4 _ _ x hx hp)
  refine ⟨?_, ?_, ?_, ?_, ?_⟩
  · intro i
    by_cases hi : i = p
    · subst hi; simp
    · simpa [Function.update_noteq hi] using h1 i
  · intro t' x hx
    obtain ⟨hmem, hne⟩ := hsub t' x hx
    rw [Function.update_noteq hne]
    exact h2 t' x hmem
  · intro t'
    by_cases ht : t' = t
    · subst ht
      simp only [Function.update_same]
      exact (h3 _).erase p
    · rw [Function.update_noteq ht]
      exact h3 t'
  · intro t1 t2 x hx1 hx2
    exact h4 t1 t2 x (hsub t1 x hx1).1 (hsub t2 x hx2).1
  · intro x hx
    by_cases hxp : x = p
    · subst hxp; simp at hx
    · rw [Function.update_noteq hxp] at hx
      obtain ⟨t', ht'⟩ := h5 x hx
      refine ⟨t', ?_⟩
      by_cases ht : t' = t
      · subst ht
        simp only [Function.update_same]
        exact (List.mem_erase_of_ne hxp).mpr ht'
      · rwa [Function.update_noteq ht]

theorem owned_update (threads : Nat → thread_state) (t : Nat) (th : thread_state) :
    (fun t' => (Function.update threads t th t').owned) =
      Function.update (fun t' => (threads t').owned) t th.owned := by
  funext t'
  by_cases ht : t' = t
  · subst ht; simp
  · simp [Function.update_noteq ht]

theorem wf_update {threads : Nat → thread_state} (h : ∀ t, (threads t).wf) (t : Nat)
    (th : thread_state) (hth : th.wf) : ∀ t', (Function.update threads t th t').wf := by
  intro t'
  by_cases ht : t' = t
  · subst ht; simpa using hth
  · simpa [Function.update_noteq ht] using h t'

theorem run_state.inv_take (c : run_state T) (hinv : c.Inv) (t : Nat) (p : Fin num_queues)
    (th : thread_state) (q : lf_queue T)
    (hq : q.ptrs = Function.update c.shared.ptrs p none) (hp : c.shared.ptrs p = some p)
    (hown : th.owned = p :: (c.threads t).owned) (hwf : th.wf) :
    run_state.Inv { shared := q, threads := Function.update c.threads t th } := by
  refine ⟨?_, wf_update hinv.2 t th hwf⟩
  show single_owner q.ptrs (fun t' => (Function.update c.threads t th t').owned)
  rw [owned_update, hq, hown]
  exact single_owner_take hinv.1 t p hp

theorem run_state.inv_give (c : run_state T) (hinv : c.Inv) (t : Nat) (p : Fin num_queues)
    (th : thread_state) (q : lf_queue T)
    (hq : q.ptrs = Function.update c.shared.ptrs p (some p))
    (hp : p ∈ (c.threads t).owned)
    (hown : th.owned = ((c.threads t).owned).erase p) (hwf : th.wf) :
    run_state.Inv { shared := q, threads := Function.update c.threads t th } := by
  refine ⟨?_, wf_update hinv.2 t th hwf⟩
  show single_owner q.ptrs (fun t' => (Function.update c.threads t th t').owned)
  rw [owned_update, hq, hown]
  exact single_owner_give hinv.1 t p hp

theorem run_state.inv_keep (c : run_state T) (hinv : c.Inv) (t : Nat)
    (th : thread_state) (q : lf_queue T) (hq : q.ptrs = c.shared.ptrs)
    (hown : th.owned = (c.threads t).owned) (hwf : th.wf) :
    run_state.Inv { shared := q, threads := Function.update c.threads t th } := by
  refine ⟨?_, wf_update hinv.2 t th hwf⟩
  show single_owner q.ptrs (fun t' => (Function.update c.threads t th t').owned)
  rw [owned_update, hq, hown]
  have : Function.update (fun t' => (c.threads t').owned) t (c.threads t).owned =
      fun t' => (c.threads t').owned :=
    Function.update_eq_self t (fun t' => (c.threads t').owned)
  rw [this]
  exact hinv.1

end ownership

section interleaving
variable {T : Type}

theorem queue_holder.destroy_of_null (g : queue_holder) (hg : g.ptr_ = none) (q : lf_queue T) :
    g.destroy q = q := by
  simp [queue_holder.destroy, hg]

theorem lf_queue.ptrs_set_slot (q : lf_queue T) (i : Fin num_queues) (s : aligned_atomic_ptr) :
    (q.set_slot i s).ptrs = Function.update q.ptrs i s.atomic_ptr := by
  funext j
  by_cases hj : j = i
  · subst hj; simp [lf_queue.ptrs]
  · simp [lf_queue.ptrs, Function.update_noteq hj]

theorem lf_queue.ptrs_destroy (q : lf_queue T) (k p : Fin num_queues) :
    ((queue_holder.mk k (some p)).destroy q).ptrs = Function.update q.ptrs k (some p) := by
  funext j
  by_cases hj : j = k
  · subst hj; simp [lf_queue.ptrs, queue_holder.destroy_data]
  · simp [lf_queue.ptrs, queue_holder.destroy_data, Function.update_noteq hj]

theorem run_state.step_preserves_inv {c c' : run_state T} (hinv : c.Inv)
    (hstep : run_state.step c c') : c'.Inv := by
  cases hstep with
  | cas t i p hidle hslot =>
    have hpi : p = i := by
      rcases hinv.1.1 i with h | h
      · rw [lf_queue.ptrs, hslot] at h; cases h
      · rw [lf_queue.ptrs, hslot] at h; exact Option.some.inj h
    subst hpi
    refine c.inv_take hinv t p _ _ ?_ hslot ?_ ?_
    · rw [lf_queue.ptrs_set_slot]
      simp [aligned_atomic_ptr.compare_exchange_weak, hslot]
    · simp [thread_state.owned, thread_state.guards, hidle]
    · intro x hx
      exact Option.some.inj hx
  | fail t hidle =>
    refine c.inv_keep hinv t _ _ rfl ?_ ?_
    · simp [thread_state.owned, thread_state.guards, hidle]
    · intro x hx
      cases hx
  | construct t tmp hret =>
    have hwf := hinv.2 t
    rw [hret] at hwf
    refine c.inv_keep hinv t _ _ rfl ?_ ⟨hwf, rfl⟩
    cases htmp : tmp.ptr_ <;>
      simp [thread_state.owned, thread_state.guards, hret, queue_holder.move_construct, htmp]
  | drop_moved t g tmp hmoved =>
    have hwf := hinv.2 t
    rw [hmoved] at hwf
    rw [queue_holder.destroy_of_null tmp hwf.2]
    refine c.inv_keep hinv t _ _ rfl ?_ hwf.1
    simp [thread_state.owned, thread_state.guards, List.filterMap_cons, hmoved, hwf.2]
  | access t g p xs hhold hp =>
    have := c.inv_keep hinv t (c.threads t) (c.shared.set_queue p xs) rfl rfl (hinv.2 t)
    rwa [Function.update_eq_self] at this
  | release t g hhold =>
    have hwf := hinv.2 t
    rw [hhold] at hwf
    cases hg : g.ptr_ with
    | none =>
      rw [queue_holder.destroy_of_null g hg]
      refine c.inv_keep hinv t _ _ rfl ?_ trivial
      simp [thread_state.owned, thread_state.guards, hhold, hg]
    | some p =>
      have hidx : g.index_ = p := hwf p hg
      have hgeq : g = queue_holder.mk p (some p) := by
        cases g; simp_all
      subst hgeq
      refine c.inv_give hinv t p _ _ (lf_queue.ptrs_destroy _ p p) ?_ ?_ trivial
      · simp [thread_state.owned, thread_state.guards, hhold]
      · simp [thread_state.owned, thread_state.guards, hhold]
  | recas t g i p hhold hg hslot =>
    have hwf := hinv.2 t
    rw [hhold] at hwf
    have hpi : p = i := by
      rcases hinv.1.1 i with h | h
      · rw [lf_queue.ptrs, hslot] at h; cases h
      · rw [lf_queue.ptrs, hslot] at h; exact Option.some.inj h
    subst hpi
    refine c.inv_take hinv t p _ _ ?_ hslot ?_ ⟨hwf, fun x hx => Option.some.inj hx, hg⟩
    · rw [lf_queue.ptrs_set_slot]
      simp [aligned_atomic_ptr.compare_exchange_weak, hslot]
    · simp [thread_state.owned, thread_state.guards, hhold]
  | refail t g hhold hg =>
    have hwf := hinv.2 t
    rw [hhold] at hwf
    refine c.inv_keep hinv t _ _ rfl ?_ ⟨hwf, (fun x hx => by cases hx), hg⟩
    simp [thread_state.owned, thread_state.guards, hhold]
  | assign t g tmp hre =>
    have hwf := hinv.2 t
    rw [hre] at hwf
    obtain ⟨hgc, htc, hgn⟩ := hwf
    obtain ⟨p, hp⟩ := Option.ne_none_iff_exists'.mp hgn
    have hidx : g.index_ = p := hgc p hp
    have hnodup := hinv.1.2.2.1 t
    simp only [hre, thread_state.owned, thread_state.guards] at hnodup
    refine c.inv_give hinv t p _ _ ?_ ?_ ?_ ⟨htc, rfl⟩
    · simp only [queue_holder.move_assign, lf_queue.ptrs_set_slot, aligned_atomic_ptr.store,
        hidx, hp]
    · simp [thread_state.owned, thread_state.guards, hre, hp]
    · cases htmp : tmp.ptr_ with
      | none =>
        simp [thread_state.owned, thread_state.guards, hre, hp, htmp,
          queue_holder.move_assign]
      | some x =>
        have hx : x ≠ p := by
          intro hxp
          simp [htmp, hp, hxp] at hnodup
        simp [thread_state.owned, thread_state.guards, hre, hp, htmp,
          queue_holder.move_assign, List.erase_cons, hx]
  | drop_assigned t g tmp hasg =>
    have hwf := hinv.2 t
    rw [hasg] at hwf
    rw [queue_holder.destroy_of_null tmp hwf.2]
    refine c.inv_keep hinv t _ _ rfl ?_ hwf.1
    simp [thread_state.owned, thread_state.guards, List.filterMap_cons, hasg, hwf.2]

theorem run_state.Reachable.inv {c : run_state T} (h : c.Reachable) : c.Inv := by
  induction h with
  | init =>
    refine ⟨⟨fun i => Or.inr rfl, ?_, ?_, ?_, ?_⟩, fun _ => trivial⟩
    · intro t p hp; simp [run_state.init, thread_state.owned, thread_state.guards] at hp
    · intro t; simp [run_state.init, thread_state.owned, thread_state.guards]
    · intro t t' p hp; simp [run_state.init, thread_state.owned, thread_state.guards] at hp
    · intro p hp; simp [run_state.init, lf_queue.ptrs, lf_queue.construct] at hp
  | step _ hstep ih => exact run_state.step_preserves_inv ih hstep

/-- C9: in every state reached from construction by atomic actions of any
number of threads (successful compare-exchange creating a guard, failed
acquisition, guard move construction, move assignment at line 305, sub-queue
access, guard destruction), each sub-queue `p` has exactly one holder: no slot
other than `p` points to it, and either slot `p` points to it and no guard
does, or slot `p` is null and exactly one guard object, of exactly one thread,
points to it. -/
theorem run_state.single_ownership (c : run_state T) (h : c.Reachable) (p : Fin num_queues) :
    (∀ i, (c.shared.data_ i).atomic_ptr = some p → i = p) ∧
    (((c.shared.data_ p).atomic_ptr = some p ∧ ∀ t, (c.threads t).owned.count p = 0) ∨
      ((c.shared.data_ p).atomic_ptr = none ∧
        ∃ t, (c.threads t).owned.count p = 1 ∧
          ∀ t', t' ≠ t → (c.threads t').owned.count p = 0)) := by
  obtain ⟨⟨h1, h2, h3, h4, h5⟩, _⟩ := h.inv
  constructor
  · intro i hi
    rcases h1 i with hn | hs
    · rw [lf_queue.ptrs, hi] at hn; cases hn
    · rw [lf_queue.ptrs, hi] at hs; exact (Option.some.inj hs).symm
  · rcases h1 p with hn | hs
    · right
      obtain ⟨t, ht⟩ := h5 p hn
      refine ⟨hn, t, List.count_eq_one_of_mem (h3 t) ht, ?_⟩
      intro t' hne
      exact List.count_eq_zero_of_not_mem (fun hmem => hne (h4 t' t p hmem ht))
    · left
      refine ⟨hs, fun t => List.count_eq_zero_of_not_mem (fun hmem => ?_)⟩
      have := h2 t p hmem
      rw [hs] at this
      cases this

/-- Witness for C9: thread 0 has taken slot 3 of the fresh queue by a
successful compare-exchange. -/
theorem run_state.single_ownership_witness :
    (run_state.mk
      ((lf_queue.construct : lf_queue Nat).set_slot 3
        (((lf_queue.construct : lf_queue Nat).data_ 3).compare_exchange_weak (some 3) none).2.2)
      (Function.update (fun _ => thread_state.idle) 0
        (thread_state.returned (queue_holder.mk 3 (some 3))))).Reachable ∧
    (((lf_queue.construct : lf_queue Nat).set_slot 3
        (((lf_queue.construct : lf_queue Nat).data_ 3).compare_exchange_weak (some 3)
          none).2.2).data_ 3).atomic_ptr = none ∧
    ∃ t, ((Function.update (fun _ => thread_state.idle) 0
        (thread_state.returned (queue_holder.mk 3 (some 3)))) t).owned.count 3 = 1 :=
  have hr : (run_state.mk
      ((lf_queue.construct : lf_queue Nat).set_slot 3
        (((lf_queue.construct : lf_queue Nat).data_ 3).compare_exchange_weak (some 3) none).2.2)
      (Function.update (fun _ => thread_state.idle) 0
        (thread_state.returned (queue_holder.mk 3 (some 3))))).Reachable :=
    run_state.Reachable.step run_state.Reachable.init
      (run_state.step.cas run_state.init 0 3 3 rfl rfl)
  ⟨hr, by decide,
    ((run_state.single_ownership _ hr 3).2.resolve_left
      (fun h => absurd h.1 (by decide))).2.imp (fun _ h => h.1)⟩

end interleaving

/-! ## The two acquisition functions and the guard, operation by operation -/

section acquisition_claims
variable {T : Type}

theorem lf_queue.acquire_queue_loop_none (q : lf_queue T) (s : Nat) :
    ∀ fuel i, (∀ k, k < fuel → (q.data_ (shard_index s (i + k))).atomic_ptr = none) →
      q.acquire_queue_loop s fuel i = none := by
  intro fuel
  induction fuel with
  | zero => intro i _; rfl
  | succ fuel ih =>
    intro i h
    have h0 := h 0 (Nat.succ_pos fuel)
    simp only [Nat.add_zero] at h0
    unfold lf_queue.acquire_queue_loop
    simp only [aligned_atomic_ptr.load, h0, Option.isSome_none, Bool.false_and,
      Bool.false_eq_true, if_false]
    apply ih
    intro k hk
    have := h (k + 1) (Nat.succ_lt_succ hk)
    rwa [show i + (k + 1) = i + 1 + k by omega] at this

/-- C12: `acquire_queue_dequeue`, started at `s = get_index()`, goes through the
indices `(s + m) & 31`, `m = 0..31`, in that order.  If none of them has its
dirty flag set and a non-null pointer, it returns the guard `{0, nullptr}` and
the queue is unchanged.  Otherwise it returns the guard of the first such
index, with the pointer that was in the slot; that slot's pointer becomes null,
its flag stays set, and every other slot and every sub-queue is unchanged. -/
theorem lf_queue.acquire_queue_dequeue_first_dirty_free (q : lf_queue T) (s : Nat) :
    ((∀ m, m < num_queues →
        ¬ ((q.data_ (shard_index s m)).dirty_ = true ∧
            (q.data_ (shard_index s m)).atomic_ptr ≠ none)) ∧
      q.acquire_queue_dequeue s = ({ index_ := 0, ptr_ := none }, q)) ∨
    ∃ m p, m < num_queues ∧
      (shard_index s m).val = ((s + m) % 4294967296) &&& 31 ∧
      q.data_ (shard_index s m) = { atomic_ptr := some p, dirty_ := true } ∧
      (∀ k, k < m →
        ¬ ((q.data_ (shard_index s k)).dirty_ = true ∧
            (q.data_ (shard_index s k)).atomic_ptr ≠ none)) ∧
      (q.acquire_queue_dequeue s).1 = { index_ := shard_index s m, ptr_ := some p } ∧
      (q.acquire_queue_dequeue s).2.data_ (shard_index s m) =
        { atomic_ptr := none, dirty_ := true } ∧
      (∀ j, j ≠ shard_index s m → (q.acquire_queue_dequeue s).2.data_ j = q.data_ j) ∧
      (q.acquire_queue_dequeue s).2.heap = q.heap := by
  rcases q.acquire_queue_dequeue_cases s with ⟨hacq, hnone⟩ | ⟨m, p, hm, hslot, hfirst, hacq⟩
  · exact Or.inl ⟨fun m _ => hnone _, hacq⟩
  · refine Or.inr ⟨m, p, hm, rfl, hslot, hfirst, ?_, ?_, ?_, ?_⟩
    · rw [hacq]
    · rw [hacq]; simp
    · intro j hj
      rw [hacq]
      simp [Function.update_noteq hj]
    · rw [hacq]; rfl

/-- C13: `acquire_queue`, started at `s = get_index()`, never returns a guard
with a null pointer.  When some slot is free, let `m < 32` be the first probe
position with `(s + m) & 31` free: `m` probes are not enough, and with any
larger number of probes the call returns the guard of that slot with the
pointer that was in it, the slot's pointer is null afterwards, and its flag,
every other slot and every sub-queue are unchanged. -/
theorem lf_queue.acquire_queue_first_free (q : lf_queue T) (s : Nat) :
    (∀ fuel r, q.acquire_queue fuel s = some r → r.1.ptr_ ≠ none) ∧
    ((∃ j, (q.data_ j).atomic_ptr ≠ none) →
      ∃ m p, m < num_queues ∧ (q.data_ (shard_index s m)).atomic_ptr = some p ∧
        (∀ k, k < m → (q.data_ (shard_index s k)).atomic_ptr = none) ∧
        (∀ fuel, fuel ≤ m → q.acquire_queue fuel s = none) ∧
        ∀ fuel, m < fuel → ∃ q',
          q.acquire_queue fuel s = some ({ index_ := shard_index s m, ptr_ := some p }, q') ∧
          q'.data_ (shard_index s m) =
            { atomic_ptr := none, dirty_ := (q.data_ (shard_index s m)).dirty_ } ∧
          (∀ j, j ≠ shard_index s m → q'.data_ j = q.data_ j) ∧
          q'.heap = q.heap) := by
  classical
  constructor
  · intro fuel r hr
    obtain ⟨g, q1⟩ := r
    obtain ⟨k, p, rfl, _, _⟩ := q.acquire_queue_loop_some s fuel 0 g q1 hr
    simp
  · intro hfree
    have h : ∃ m, m < num_queues ∧ (q.data_ (shard_index s m)).atomic_ptr ≠ none := by
      obtain ⟨j, hj⟩ := hfree
      obtain ⟨m, hm, rfl⟩ := shard_index_cover s j
      exact ⟨m, hm, hj⟩
    have hm := Nat.find_spec h
    have hmin : ∀ k, k < Nat.find h → (q.data_ (shard_index s k)).atomic_ptr = none := by
      intro k hk
      by_contra hne
      exact Nat.find_min h hk ⟨Nat.lt_trans hk hm.1, hne⟩
    obtain ⟨p, hp⟩ := Option.ne_none_iff_exists'.mp hm.2
    refine ⟨Nat.find h, p, hm.1, hp, hmin, ?_, ?_⟩
    · intro fuel hfuel
      apply q.acquire_queue_loop_none s fuel 0
      intro k hk
      rw [Nat.zero_add]
      exact hmin k (Nat.lt_of_lt_of_le hk hfuel)
    · intro fuel hfuel
      have hit := q.acquire_queue_loop_hit s fuel 0 (Nat.find h) hfuel
        (by simpa using hm.2) (by simpa using hmin)
      simp only [Nat.zero_add, hp] at hit
      refine ⟨_, hit, by simp, ?_, rfl⟩
      intro j hj
      simp [Function.update_noteq hj]

/-- Witness for C13: on the fresh queue with slot 0 checked out, started at 0. -/
theorem lf_queue.acquire_queue_first_free_witness :
    (∃ j, ((((lf_queue.construct : lf_queue Nat).set_slot 0
        { atomic_ptr := none, dirty_ := false }).data_ j).atomic_ptr ≠ none)) ∧
    ∃ m p, m < num_queues ∧
      ((((lf_queue.construct : lf_queue Nat).set_slot 0
        { atomic_ptr := none, dirty_ := false }).data_ (shard_index 0 m)).atomic_ptr = some p) :=
  ⟨⟨1, by decide⟩,
    ((lf_queue.acquire_queue_first_free
      ((lf_queue.construct : lf_queue Nat).set_slot 0 { atomic_ptr := none, dirty_ := false })
      0).2 ⟨1, by decide⟩).imp fun _ h => h.imp fun _ h' => ⟨h'.1, h'.2.1⟩⟩

/-- C16: the move assignment `g = std::move(h)` on a guard `g` that holds the
non-null pointer `p`: slot `g.index_` holds `p` afterwards, no dirty flag, no
other slot and no sub-queue changes, `g` has the index and pointer of `h`, and
`h` is left with a null pointer, so that destroying it changes nothing. -/
theorem queue_holder.move_assign_releases_keeping_flags (g h : queue_holder) (q : lf_queue T)
    (p : Fin num_queues) (hp : g.ptr_ = some p) :
    ((g.move_assign h q).2.2.data_ g.index_).atomic_ptr = some p ∧
    (∀ j, ((g.move_assign h q).2.2.data_ j).dirty_ = (q.data_ j).dirty_) ∧
    (∀ j, j ≠ g.index_ → (g.move_assign h q).2.2.data_ j = q.data_ j) ∧
    (g.move_assign h q).2.2.heap = q.heap ∧
    (g.move_assign h q).1 = { index_ := h.index_, ptr_ := h.ptr_ } ∧
    (g.move_assign h q).2.1.ptr_ = none ∧
    ∀ q' : lf_queue T, (g.move_assign h q).2.1.destroy q' = q' := by
  refine ⟨by simp [queue_holder.move_assign, aligned_atomic_ptr.store, hp], ?_, ?_, rfl, rfl,
    rfl, fun q' => rfl⟩
  · intro j
    by_cases hj : j = g.index_
    · subst hj; simp [queue_holder.move_assign, aligned_atomic_ptr.store]
    · simp [queue_holder.move_assign, Function.update_noteq hj]
  · intro j hj
    simp [queue_holder.move_assign, Function.update_noteq hj]

/-- Witness for C16: the guard of shard 3 is assigned the guard of shard 5. -/
theorem queue_holder.move_assign_releases_keeping_flags_witness :
    (queue_holder.mk 3 (some 3)).ptr_ = some 3 ∧
    ((((queue_holder.mk 3 (some 3)).move_assign (queue_holder.mk 5 (some 5))
        ((((lf_queue.construct : lf_queue Nat).set_slot 3
          { atomic_ptr := none, dirty_ := true }).set_slot 5
          { atomic_ptr := none, dirty_ := true }))).2.2.data_ 3).atomic_ptr = some 3) :=
  ⟨rfl, (queue_holder.move_assign_releases_keeping_flags (queue_holder.mk 3 (some 3))
    (queue_holder.mk 5 (some 5)) _ 3 rfl).1⟩

/-- C20: the move assignment evaluated on a guard whose own pointer is null.
On the fresh queue `acquire_queue_dequeue` returns the guard `{0, nullptr}`;
assigning another such guard onto it stores null into the free slot 0.  After
`enqueue(7)` into shard 0 the same assignment makes the stored item
unreachable: slot 0 is null, its sub-queue still holds 7, and `try_dequeue`
returns false. -/
theorem queue_holder.move_assign_onto_null_guard_locks_slot :
    ((lf_queue.construct : lf_queue Nat).acquire_queue_dequeue 0).1 =
      { index_ := 0, ptr_ := none } ∧
    ((lf_queue.construct : lf_queue Nat).data_ 0).atomic_ptr = some 0 ∧
    (((queue_holder.mk 0 none).move_assign (queue_holder.mk 0 none)
        (lf_queue.construct : lf_queue Nat)).2.2.data_ 0).atomic_ptr = none ∧
    ∃ q1 q2 : lf_queue Nat,
      lf_queue.construct.enqueue 1 0 7 = some (true, q1) ∧
      (q1.data_ 0).atomic_ptr = some 0 ∧
      ((queue_holder.mk 0 none).move_assign (queue_holder.mk 0 none) q1).2.2 = q2 ∧
      (q2.data_ 0).atomic_ptr = none ∧ q2.heap 0 = [7] ∧
      (q2.try_dequeue (fun _ => 0) 0).map (fun r => r.1) = some false :=
  ⟨rfl, rfl, rfl, _, _, rfl, rfl, rfl, rfl, rfl, rfl⟩

end acquisition_claims

/-! ## The affinity index selector -/

section affinity

theorem get_index_local_offset (st : get_index_statics) (tsc_aux : Nat) :
    (get_index st tsc_aux).2.local_offset = st.local_offset := by
  unfold get_index
  split <;> rfl

theorem get_index_run_cached (tsc_aux : Nat → Nat) :
    ∀ (n k : Nat) (st : get_index_statics), (n : Int) ≤ st.countdown →
      get_index_run tsc_aux n k st =
        (List.replicate n ((st.cpuid + st.local_offset) % 4294967296),
          { st with countdown := st.countdown - n }) := by
  intro n
  induction n with
  | zero => intro k st _; simp [get_index_run]
  | succ n ih =>
    intro k st h
    have hpos : st.countdown > 0 := by omega
    have hstep : get_index st (tsc_aux k) =
        ((st.cpuid + st.local_offset) % 4294967296,
          { st with countdown := st.countdown - 1 }) := by
      simp [get_index, hpos]
    have hrec := ih (k + 1) { st with countdown := st.countdown - 1 } (by simp; omega)
    simp only [get_index_run, hstep, hrec, List.replicate_succ]
    congr 2
    push_cast
    omega

/-- C14: `get_index()`.  The initialisers give a thread the offset
`ticket & 3 = ticket mod 4`, which is at most 3, the countdown 500 and the
estimate `sched_getcpu() * 4`, and advance the shared counter by one.  With the
countdown at 500 (after initialisation or after a refresh) and the cached
estimate `c`, the next `n ≤ 500` calls all return `4 * c + o` in 32-bit
unsigned arithmetic, whatever the hardware would report, and keep the cached
value; the call after 500 such calls reads the new estimate `c'`, sets the
countdown back to 500 and returns `4 * c' + o`.  No call changes the offset. -/
theorem get_index_cached_for_500_calls (st : get_index_statics) (tsc_aux : Nat → Nat) :
    (∀ (sched_getcpu : Int) (ticket : Nat),
      (get_index_init sched_getcpu ticket).1.local_offset = ticket % 4 ∧
      (get_index_init sched_getcpu ticket).1.local_offset ≤ 3 ∧
      (get_index_init sched_getcpu ticket).1.countdown = 500 ∧
      (get_index_init sched_getcpu ticket).1.cpuid =
        ((sched_getcpu * 4) % 4294967296).toNat ∧
      (get_index_init sched_getcpu ticket).2 = (ticket + 1) % 4294967296) ∧
    (∀ aux, (get_index st aux).2.local_offset = st.local_offset) ∧
    (st.countdown = 500 → ∀ (c n k : Nat), st.cpuid = (4 * c) % 4294967296 → n ≤ 500 →
      (get_index_run tsc_aux n k st).1 =
        List.replicate n ((4 * c + st.local_offset) % 4294967296) ∧
      (get_index_run tsc_aux n k st).2 = { st with countdown := 500 - n }) ∧
    (st.countdown = 500 → ∀ (k c' : Nat),
      get_index (get_index_run tsc_aux 500 k st).2 c' =
        ((4 * c' + st.local_offset) % 4294967296,
          { cpuid := (4 * c') % 4294967296, countdown := 500,
            local_offset := st.local_offset })) := by
  refine ⟨?_, get_index_local_offset st, ?_, ?_⟩
  · intro cpu ticket
    have hand : ticket &&& 3 = ticket % 4 := Nat.and_pow_two_sub_one_eq_mod ticket 2
    refine ⟨hand, ?_, rfl, rfl, rfl⟩
    show ticket &&& 3 ≤ 3
    exact Nat.and_le_right
  · intro h500 c n k hc hn
    have hrun := get_index_run_cached tsc_aux n k st (by rw [h500]; exact_mod_cast hn)
    rw [hrun, h500, hc]
    refine ⟨?_, rfl⟩
    simp only
    congr 1
    omega
  · intro h500 k c'
    have hrun := get_index_run_cached tsc_aux 500 k st (by rw [h500]; norm_num)
    rw [hrun, h500]
    simp only [get_index]
    norm_num
    constructor
    · omega
    · omega

/-- Witness for C14: a thread with ticket 6 on processor 2; its first 500 calls
return `4 * 2 + 2 = 10`. -/
theorem get_index_cached_for_500_calls_witness :
    (get_index_init 2 6).1.countdown = 500 ∧
    (get_index_init 2 6).1.cpuid = (4 * 2) % 4294967296 ∧ 500 ≤ 500 ∧
    (get_index_run (fun _ => 9) 500 0 (get_index_init 2 6).1).1 =
      List.replicate 500 ((4 * 2 + (get_index_init 2 6).1.local_offset) % 4294967296) :=
  ⟨rfl, rfl, Nat.le_refl 500,
    ((get_index_cached_for_500_calls (get_index_init 2 6).1 (fun _ => 9)).2.2.1 rfl 2 500 0 rfl
      (Nat.le_refl 500)).1⟩

end affinity

/-! ## Completeness of the single dequeue -/

section completeness
variable {T : Type}

theorem lf_queue.stale_card_lt_of_cleared (q : lf_queue T) (k : Fin num_queues)
    (hd : (q.data_ k).dirty_ = true) (hk : q.heap k = []) :
    (lf_queue.stale
      ({ data_ := Function.update q.data_ k { atomic_ptr := some k, dirty_ := false }
         heap := Function.update q.heap k [] } : lf_queue T)).card < q.stale.card := by
  apply Finset.card_lt_card
  rw [Finset.ssubset_iff_of_subset]
  · refine ⟨k, ?_, ?_⟩
    · simp [lf_queue.stale, hd, hk]
    · simp [lf_queue.stale]
  · intro i hi
    simp only [lf_queue.stale, Finset.mem_filter, Finset.mem_univ, true_and] at hi ⊢
    by_cases hik : i = k
    · subst hik; simp at hi
    · simpa [Function.update_noteq hik] using hi

theorem lf_queue.try_dequeue_loop_complete (idx : Nat → Nat) :
    ∀ (fuel n iters : Nat) (item : T) (q : lf_queue T), q.AllFree → q.DirtySound →
      (∃ i, q.heap i ≠ []) → q.stale.card ≤ n → n < fuel → iters + n < num_queues →
      ∃ v q', lf_queue.try_dequeue_loop idx fuel iters item q = some (true, v, q') := by
  intro fuel
  induction fuel with
  | zero => intro n iters item q _ _ _ _ h; omega
  | succ fuel ih =>
    intro n iters item q hf hs hne hcard hfuel hiters
    unfold lf_queue.try_dequeue_loop
    rcases q.acquire_queue_dequeue_cases (idx iters) with ⟨_, hnone⟩ | ⟨m, p, _, hslot, _, hacq⟩
    · obtain ⟨i, hi⟩ := hne
      exact absurd ⟨hs i hi, by rw [hf i]; simp⟩ (hnone i)
    · have hp : p = shard_index (idx iters) m := by
        have := hf (shard_index (idx iters) m)
        rw [hslot] at this
        exact Option.some.inj this
      subst hp
      simp only [hacq, lf_queue.set_slot_heap]
      have hrel := q.release_after_acquire (shard_index (idx iters) m)
        (shard_index (idx iters) m) true
      cases hq : q.heap (shard_index (idx iters) m) with
      | cons front rest =>
        simp only
        exact ⟨front, _, rfl⟩
      | nil =>
        simp only
        have hheap : Function.update q.heap (shard_index (idx iters) m) ([] : List T) =
            q.heap := by
          rw [← hq]; exact Function.update_eq_self _ q.heap
        have hsame : (q.set_slot (shard_index (idx iters) m)
            { atomic_ptr := none, dirty_ := true }).set_queue (shard_index (idx iters) m) [] =
            q.set_slot (shard_index (idx iters) m) { atomic_ptr := none, dirty_ := true } := by
          apply lf_queue.ext_fields <;> simp [hheap]
        have hself := hrel []
        rw [hsame] at hself
        rw [hself]
        have hdirty : (q.data_ (shard_index (idx iters) m)).dirty_ = true := by rw [hslot]
        have hlt := q.stale_card_lt_of_cleared (shard_index (idx iters) m) hdirty hq
        have hne32 : iters ≠ num_queues := by omega
        rw [if_neg hne32]
        have hinv := q.inv_update hf hs (shard_index (idx iters) m) [] false (fun h => absurd rfl h)
        refine ih (n - 1) (iters + 1) item _ hinv.1 hinv.2 ?_ ?_ (by omega) (by omega)
        · obtain ⟨i, hi⟩ := hne
          refine ⟨i, ?_⟩
          have hik : i ≠ shard_index (idx iters) m := fun h => hi (h ▸ hq)
          simpa [Function.update_noteq hik] using hi
        · have : (([] : List T).isEmpty) = true := rfl
          simp only [this, Bool.not_true]
          omega

theorem lf_queue.stale_card_le_of_nonempty (q : lf_queue T) (i : Fin num_queues)
    (hi : q.heap i ≠ []) : q.stale.card ≤ 31 := by
  have hsub : q.stale ⊆ Finset.univ.erase i := by
    intro j hj
    simp only [lf_queue.stale, Finset.mem_filter, Finset.mem_univ, true_and] at hj
    simp only [Finset.mem_erase, Finset.mem_univ, and_true]
    intro hji
    subst hji
    cases hh : q.heap j with
    | nil => exact hi hh
    | cons a l => rw [hh] at hj; simp at hj
  have := Finset.card_le_card hsub
  rw [Finset.card_erase_of_mem (Finset.mem_univ i), Finset.card_univ, Fintype.card_fin] at this
  exact this

/-- C19: in every state reached from construction by a single-threaded sequence
of completed public operations, `try_dequeue` returns, for every sequence of
`get_index()` values, and it returns true exactly when some sub-queue is
non-empty: the iteration bound never ends the search before a stored item is
found. -/
theorem lf_queue.try_dequeue_true_iff_item_stored (q : lf_queue T) (h : q.Reachable)
    (idx : Nat → Nat) (item : T) :
    ∃ b v q', q.try_dequeue idx item = some (b, v, q') ∧ (b = true ↔ ∃ i, q.heap i ≠ []) := by
  obtain ⟨hf, hs⟩ := h.all_free_and_sound
  by_cases hne : ∃ i, q.heap i ≠ []
  · obtain ⟨i, hi⟩ := hne
    obtain ⟨v, q', hres⟩ := lf_queue.try_dequeue_loop_complete idx (num_queues + 1) 31 0 item q
      hf hs ⟨i, hi⟩ (q.stale_card_le_of_nonempty i hi) (by decide) (by decide)
    exact ⟨true, v, q', hres, fun _ => ⟨i, hi⟩, fun _ => rfl⟩
  · have hempty : ∀ p, q.heap p = [] := by
      intro p
      by_contra hp
      exact hne ⟨p, hp⟩
    obtain ⟨q', hres, _⟩ := q.try_dequeue_of_empty hempty idx item
    exact ⟨false, item, q', hres, (fun hb => by cases hb), (fun hex => absurd hex hne)⟩

/-- Witness for C19: the state after `enqueue(7)` on the fresh queue. -/
theorem lf_queue.try_dequeue_true_iff_item_stored_witness :
    (lf_queue.mk
      (Function.update (lf_queue.construct : lf_queue Nat).data_ (shard_index 0 0)
        (aligned_atomic_ptr.mk (some (shard_index 0 0)) true))
      (Function.update (lf_queue.construct : lf_queue Nat).heap (shard_index 0 0)
        ((lf_queue.construct : lf_queue Nat).heap (shard_index 0 0) ++ [7]))).Reachable ∧
    ∃ b v q', (lf_queue.mk
      (Function.update (lf_queue.construct : lf_queue Nat).data_ (shard_index 0 0)
        (aligned_atomic_ptr.mk (some (shard_index 0 0)) true))
      (Function.update (lf_queue.construct : lf_queue Nat).heap (shard_index 0 0)
        ((lf_queue.construct : lf_queue Nat).heap (shard_index 0 0) ++ [7]))).try_dequeue
          (fun k => 5 * k) 0 = some (b, v, q') ∧ b = true :=
  have hr := lf_queue.Reachable.enqueue lf_queue.Reachable.construct
    ((lf_queue.construct : lf_queue Nat).enqueue_all_free (fun _ => rfl) 0 0 7)
  ⟨hr, (lf_queue.try_dequeue_true_iff_item_stored _ hr (fun k => 5 * k) 0).imp
    fun _ h1 => h1.imp fun _ h2 => h2.imp fun _ h3 => ⟨h3.1, h3.2.mpr ⟨0, by decide⟩⟩⟩

end completeness

/-! ## The acquisitions made by one `try_dequeue` -/

section trace
variable {T : Type}

theorem lf_queue.flags_after_release (q : lf_queue T) (k : Fin num_queues) (xs : List T) :
    (∀ i,
      ((Function.update q.data_ k { atomic_ptr := some k, dirty_ := !xs.isEmpty } i).dirty_ =
          (q.data_ i).dirty_ ∧ Function.update q.heap k xs i = q.heap i) ∨
      (Function.update q.data_ k { atomic_ptr := some k, dirty_ := !xs.isEmpty } i).dirty_ =
        !(Function.update q.heap k xs i).isEmpty) := by
  intro i
  by_cases hi : i = k
  · subst hi; right; simp
  · left; simp [Function.update_noteq hi]

theorem lf_queue.try_dequeue_loop_flags (idx : Nat → Nat) :
    ∀ (fuel iters : Nat) (item : T) (q : lf_queue T) (r : Bool × T × lf_queue T),
      q.AllFree → lf_queue.try_dequeue_loop idx fuel iters item q = some r →
      (∀ i, ((r.2.2.data_ i).dirty_ = (q.data_ i).dirty_ ∧ r.2.2.heap i = q.heap i) ∨
        (r.2.2.data_ i).dirty_ = !(r.2.2.heap i).isEmpty) ∧
      (∀ g, g ∈ lf_queue.try_dequeue_trace idx fuel iters q → g.ptr_ ≠ none →
        (r.2.2.data_ g.index_).dirty_ = !(r.2.2.heap g.index_).isEmpty) := by
  intro fuel
  induction fuel with
  | zero => intro iters item q r _ h; simp [lf_queue.try_dequeue_loop] at h
  | succ fuel ih =>
    intro iters item q r hf h
    unfold lf_queue.try_dequeue_loop at h
    unfold lf_queue.try_dequeue_trace
    rcases q.acquire_queue_dequeue_cases (idx iters) with ⟨hacq, _⟩ | ⟨m, p, _, hslot, _, hacq⟩
    · simp only [hacq, queue_holder.destroy_null, Option.some.injEq] at h
      subst h
      refine ⟨fun i => Or.inl ⟨rfl, rfl⟩, ?_⟩
      intro g hg hne
      simp only [hacq, List.mem_singleton] at hg
      subst hg
      exact absurd rfl hne
    · have hp : p = shard_index (idx iters) m := by
        have := hf (shard_index (idx iters) m)
        rw [hslot] at this
        exact Option.some.inj this
      subst hp
      simp only [hacq, lf_queue.set_slot_heap] at h ⊢
      have hrel := q.release_after_acquire (shard_index (idx iters) m)
        (shard_index (idx iters) m) true
      have hexact : ∀ xs : List T,
          (Function.update q.data_ (shard_index (idx iters) m)
            { atomic_ptr := some (shard_index (idx iters) m), dirty_ := !xs.isEmpty }
            (shard_index (idx iters) m)).dirty_ =
          !(Function.update q.heap (shard_index (idx iters) m) xs
            (shard_index (idx iters) m)).isEmpty := by
        intro xs; simp
      cases hq : q.heap (shard_index (idx iters) m) with
      | cons front rest =>
        rw [hq] at h
        simp only [Option.some.injEq] at h
        rw [hrel rest] at h
        subst h
        refine ⟨q.flags_after_release _ rest, ?_⟩
        intro g hg _
        simp only [List.mem_singleton] at hg
        subst hg
        exact hexact rest
      | nil =>
        rw [hq] at h
        simp only at h
        have hheap : Function.update q.heap (shard_index (idx iters) m) ([] : List T) =
            q.heap := by
          rw [← hq]; exact Function.update_eq_self _ q.heap
        have hsame : (q.set_slot (shard_index (idx iters) m)
            { atomic_ptr := none, dirty_ := true }).set_queue (shard_index (idx iters) m) [] =
            q.set_slot (shard_index (idx iters) m) { atomic_ptr := none, dirty_ := true } := by
          apply lf_queue.ext_fields <;> simp [hheap]
        have hself := hrel []
        rw [hsame] at hself
        rw [hself] at h ⊢
        by_cases hit : iters = num_queues
        · rw [if_pos hit] at h ⊢
          simp only [Option.some.injEq] at h
          subst h
          refine ⟨q.flags_after_release _ [], ?_⟩
          intro g hg _
          simp only [List.mem_singleton] at hg
          subst hg
          exact hexact []
        · rw [if_neg hit] at h ⊢
          have hfm : (lf_queue.mk
              (Function.update q.data_ (shard_index (idx iters) m)
                (aligned_atomic_ptr.mk (some (shard_index (idx iters) m))
                  (!([] : List T).isEmpty)))
              (Function.update q.heap (shard_index (idx iters) m) [])).AllFree := by
            intro i
            by_cases hi : i = shard_index (idx iters) m
            · subst hi; simp
            · simpa [Function.update_noteq hi] using hf i
          obtain ⟨hall, htrace⟩ := ih (iters + 1) item _ r hfm h
          have hfirst : ∀ i,
              ((r.2.2.data_ i).dirty_ = (q.data_ i).dirty_ ∧ r.2.2.heap i = q.heap i) ∨
              (r.2.2.data_ i).dirty_ = !(r.2.2.heap i).isEmpty := by
            intro i
            rcases hall i with ⟨hd, hh⟩ | hex
            · by_cases hi : i = shard_index (idx iters) m
              · subst hi
                right
                rw [hd, hh]
                exact hexact []
              · left
                rw [hd, hh]
                simp [Function.update_noteq hi]
            · exact Or.inr hex
          refine ⟨hfirst, ?_⟩
          intro g hg hne
          simp only [List.mem_cons] at hg
          rcases hg with hg | hg
          · subst hg
            rcases hall (shard_index (idx iters) m) with ⟨hd, hh⟩ | hex
            · simp only
              rw [hd, hh]
              exact hexact []
            · exact hex
          · exact htrace g hg hne

theorem lf_queue.try_dequeue_trace_length_le (idx : Nat → Nat) :
    ∀ (fuel iters : Nat) (q : lf_queue T), iters ≤ num_queues →
      (lf_queue.try_dequeue_trace idx fuel iters q).length ≤ num_queues + 1 - iters := by
  intro fuel
  induction fuel with
  | zero => intro iters q _; simp [lf_queue.try_dequeue_trace]
  | succ fuel ih =>
    intro iters q hi
    unfold lf_queue.try_dequeue_trace
    simp only
    split
    · simp; omega
    · split
      · simp; omega
      · split
        · simp; omega
        · rename_i hne
          have := ih (iters + 1) ((q.acquire_queue_dequeue (idx iters)).1.destroy
            (q.acquire_queue_dequeue (idx iters)).2) (by omega)
          simp only [List.length_cons]
          omega

theorem lf_queue.Reachable.of_enqueue_all (fuel : Nat) (starts : Nat → Nat) :
    ∀ (items : List T) (k : Nat) (q q' : lf_queue T), q.Reachable →
      lf_queue.enqueue_all fuel starts k items q = some q' → q'.Reachable := by
  intro items
  induction items with
  | nil =>
    intro k q q' hq h
    simp only [lf_queue.enqueue_all, Option.some.injEq] at h
    exact h ▸ hq
  | cons x xs ih =>
    intro k q q' hq h
    simp only [lf_queue.enqueue_all] at h
    cases hstep : q.enqueue fuel (starts k) x with
    | none => simp [hstep] at h
    | some r =>
      simp only [hstep] at h
      exact ih (k + 1) r.2 q' (lf_queue.Reachable.enqueue hq hstep) h

end trace

section trace_claims
variable {T : Type}

theorem option_eq_some_getD {α : Type} (o : Option α) (d : α) (h : o.isSome = true) :
    o = some (o.getD d) := by
  cases o with
  | none => cases h
  | some a => rfl

theorem lf_queue.enqueue_flag_exact (q : lf_queue T) (hf : q.AllFree) (fuel s : Nat) (x : T)
    (g : queue_holder) (q1 : lf_queue T) (r : Bool × lf_queue T)
    (hacq : q.acquire_queue fuel s = some (g, q1)) (hr : q.enqueue fuel s x = some r) :
    (r.2.data_ g.index_).dirty_ = !(r.2.heap g.index_).isEmpty := by
  obtain ⟨k, p, rfl, hk, rfl⟩ := q.acquire_queue_loop_some s fuel 0 g q1 hacq
  have hp : p = k := by
    have := hf k
    rw [hk] at this
    exact (Option.some.inj this)
  subst hp
  unfold lf_queue.enqueue at hr
  simp only [hacq, lf_queue.set_slot_heap, Option.some.injEq] at hr
  rw [lf_queue.release_after_acquire] at hr
  subst hr
  simp

theorem lf_queue.enqueue_bulk_flag_exact (q : lf_queue T) (hf : q.AllFree) (fuel s : Nat)
    (iter : List T) (count : Nat) (g : queue_holder) (q1 : lf_queue T) (r : Bool × lf_queue T)
    (hacq : q.acquire_queue fuel s = some (g, q1))
    (hr : q.enqueue_bulk fuel s iter count = some r) :
    (r.2.data_ g.index_).dirty_ = !(r.2.heap g.index_).isEmpty := by
  obtain ⟨k, p, rfl, hk, rfl⟩ := q.acquire_queue_loop_some s fuel 0 g q1 hacq
  have hp : p = k := by
    have := hf k
    rw [hk] at this
    exact (Option.some.inj this)
  subst hp
  unfold lf_queue.enqueue_bulk at hr
  simp only [hacq, lf_queue.set_slot_heap, push_from_iter_eq] at hr
  by_cases hc : count ≤ iter.length
  · rw [if_pos hc] at hr
    simp only [Option.some.injEq] at hr
    rw [lf_queue.release_after_acquire] at hr
    subst hr
    simp
  · rw [if_neg hc] at hr
    simp at hr

/-- C15: destroying a guard with index `i` and non-null pointer `p` sets the
dirty flag of slot `i` to whether the sub-queue `p` is non-empty and stores `p`
into slot `i`; no other slot and no sub-queue changes.  Destroying a guard with
a null pointer changes nothing.  Hence, from a state with every slot free,
after `enqueue` (any overload), `enqueue_bulk` or `try_dequeue` has returned,
the dirty flag of every shard the call acquired tells exactly whether that
shard is non-empty. -/
theorem queue_holder.destroy_sets_exact_flag (q : lf_queue T) :
    (∀ i p : Fin num_queues,
      ((queue_holder.mk i (some p)).destroy q).data_ i =
        { atomic_ptr := some p, dirty_ := !(q.heap p).isEmpty } ∧
      (∀ j, j ≠ i → ((queue_holder.mk i (some p)).destroy q).data_ j = q.data_ j) ∧
      ((queue_holder.mk i (some p)).destroy q).heap = q.heap) ∧
    (∀ i : Fin num_queues, (queue_holder.mk i none).destroy q = q) ∧
    (q.AllFree →
      (∀ fuel s x g q1 r, q.acquire_queue fuel s = some (g, q1) →
        (q.enqueue fuel s x = some r ∨ q.enqueue_move fuel s x = some r ∨
          q.enqueue_emplace fuel s x = some r) →
        (r.2.data_ g.index_).dirty_ = !(r.2.heap g.index_).isEmpty) ∧
      (∀ fuel s iter count g q1 r, q.acquire_queue fuel s = some (g, q1) →
        q.enqueue_bulk fuel s iter count = some r →
        (r.2.data_ g.index_).dirty_ = !(r.2.heap g.index_).isEmpty) ∧
      (∀ idx item r, q.try_dequeue idx item = some r →
        ∀ g, g ∈ lf_queue.try_dequeue_trace idx (num_queues + 1) 0 q → g.ptr_ ≠ none →
          (r.2.2.data_ g.index_).dirty_ = !(r.2.2.heap g.index_).isEmpty)) := by
  refine ⟨?_, fun i => rfl, ?_⟩
  · intro i p
    rw [queue_holder.destroy_eq]
    refine ⟨by simp, ?_, rfl⟩
    intro j hj
    simp [Function.update_noteq hj]
  · intro hf
    refine ⟨?_, ?_, ?_⟩
    · intro fuel s x g q1 r hacq hr
      have hr' : q.enqueue fuel s x = some r := by
        rcases hr with h | h | h
        · exact h
        · exact h
        · exact h
      exact q.enqueue_flag_exact hf fuel s x g q1 r hacq hr'
    · intro fuel s iter count g q1 r hacq hr
      exact q.enqueue_bulk_flag_exact hf fuel s iter count g q1 r hacq hr
    · intro idx item r hr
      exact (lf_queue.try_dequeue_loop_flags idx (num_queues + 1) 0 item q r hf hr).2

/-- Witness for C15: `enqueue(7)` on the fresh queue with `get_index() = 0`
acquires shard 0 and leaves its flag set. -/
theorem queue_holder.destroy_sets_exact_flag_witness :
    (lf_queue.construct : lf_queue Nat).AllFree ∧
    ∃ (g : queue_holder) (q1 : lf_queue Nat) (r : Bool × lf_queue Nat),
      (lf_queue.construct : lf_queue Nat).acquire_queue 1 0 = some (g, q1) ∧
      (lf_queue.construct : lf_queue Nat).enqueue 1 0 7 = some r ∧
      (r.2.data_ g.index_).dirty_ = !(r.2.heap g.index_).isEmpty :=
  ⟨fun _ => rfl, _, _, _, rfl, rfl,
    ((queue_holder.destroy_sets_exact_flag (lf_queue.construct : lf_queue Nat)).2.2
      (fun _ => rfl)).1 1 0 7 _ _ _ rfl (Or.inl rfl)⟩

set_option maxRecDepth 100000 in
/-- C17: the number of `acquire_queue_dequeue` calls of one `try_dequeue`.  It
never exceeds `num_queues + 1 = 33`, and 33 is reached: after 32 `enqueue`
calls that hit the 32 shards and a `debug()`, every sub-queue is empty and
every dirty flag is stale; `try_dequeue` then makes 33 acquisitions, 32 that
return an empty shard and one that fails, before it returns false. -/
theorem lf_queue.try_dequeue_makes_33_acquisitions :
    (∀ (q : lf_queue Nat) (idx : Nat → Nat),
      (lf_queue.try_dequeue_trace idx (num_queues + 1) 0 q).length ≤ 33) ∧
    ∃ q1 q2 : lf_queue Nat,
      lf_queue.enqueue_all 1 (fun k => k) 0 (List.replicate 32 7) lf_queue.construct =
        some q1 ∧
      q1.debug = some (32, q2) ∧ q2.Reachable ∧
      (lf_queue.try_dequeue_trace (fun _ => 0) (num_queues + 1) 0 q2).length = 33 ∧
      ((lf_queue.try_dequeue_trace (fun _ => 0) (num_queues + 1) 0 q2).filter
        (fun g => g.ptr_.isSome)).length = 32 ∧
      (q2.try_dequeue (fun _ => 0) 0).map (fun r => r.1) = some false := by
  have hs1 : (lf_queue.enqueue_all 1 (fun k => k) 0 (List.replicate 32 7)
      (lf_queue.construct : lf_queue Nat)).isSome = true := by decide!
  have hs2 : (((lf_queue.enqueue_all 1 (fun k => k) 0 (List.replicate 32 7)
      (lf_queue.construct : lf_queue Nat)).getD lf_queue.construct).debug).isSome = true := by
    decide!
  have hcount : ((((lf_queue.enqueue_all 1 (fun k => k) 0 (List.replicate 32 7)
      (lf_queue.construct : lf_queue Nat)).getD lf_queue.construct).debug).getD
        (0, lf_queue.construct)).1 = 32 := by decide!
  have h1 := option_eq_some_getD _ lf_queue.construct hs1
  have h2 := option_eq_some_getD _ (0, lf_queue.construct) hs2
  refine ⟨fun q idx => lf_queue.try_dequeue_trace_length_le idx _ 0 q (Nat.zero_le _),
    _, _, h1, h2.trans (congrArg some (Prod.ext hcount rfl)), ?_, ?_, ?_, ?_⟩
  · exact lf_queue.Reachable.debug
      (lf_queue.Reachable.of_enqueue_all 1 (fun k => k) (List.replicate 32 7) 0 _ _
        lf_queue.Reachable.construct h1) h2
  · decide!
  · decide!
  · decide!

end trace_claims

/-! ## What a bulk dequeue that returns has done -/

section bulk_spec
variable {T : Type}

theorem lf_queue.all_items_eq_of_heap {q r : lf_queue T} (h : q.heap = r.heap) :
    q.all_items = r.all_items := by
  unfold lf_queue.all_items
  rw [h]

theorem lf_queue.all_items_take_drop (q : lf_queue T) (p : Fin num_queues) (n : Nat) :
    q.all_items =
      ((q.heap p).take n : Multiset T) + (q.set_queue p ((q.heap p).drop n)).all_items := by
  have hsum := lf_queue.all_items_update q.data_ q.data_ q.heap p ((q.heap p).drop n)
  have hsplit : ((q.heap p : List T) : Multiset T) =
      ((q.heap p).take n : Multiset T) + ((q.heap p).drop n : Multiset T) := by
    rw [Multiset.coe_add, List.take_append_drop]
  rw [hsplit, ← add_assoc] at hsum
  have := add_right_cancel hsum
  rw [add_comm]
  exact this.symm

theorem lf_queue.try_dequeue_bulk_loop_spec (idx : Nat → Nat) (items : Nat) :
    ∀ (fuel : Nat) (k p : Fin num_queues) (count iters : Nat) (output : List T)
      (q : lf_queue T) (r : Nat × List T × lf_queue T),
      (q.data_ k).atomic_ptr = none → count ≤ items →
      lf_queue.try_dequeue_bulk_loop idx items fuel { index_ := k, ptr_ := some p } p
        count iters output q = Except.ok r →
      (∀ i, (r.2.2.data_ i).atomic_ptr = if i = k then some p else (q.data_ i).atomic_ptr) ∧
      r.1 ≤ items ∧
      ∃ taken, r.2.1 = output ++ taken ∧ r.1 = count + taken.length ∧
        (∀ i, ∃ t, q.heap i = t ++ r.2.2.heap i ∧ t.Sublist taken) ∧
        q.all_items = (taken : Multiset T) + r.2.2.all_items := by
  intro fuel
  induction fuel with
  | zero => intro k p count iters output q r _ _ h; simp [lf_queue.try_dequeue_bulk_loop] at h
  | succ fuel ih =>
    intro k p count iters output q r hk hcount h
    unfold lf_queue.try_dequeue_bulk_loop at h
    have hdone : ∀ (q0 : lf_queue T), (q0.data_ k).atomic_ptr = none →
        ∀ i, (((queue_holder.mk k (some p)).destroy q0).data_ i).atomic_ptr =
          if i = k then some p else (q0.data_ i).atomic_ptr := by
      intro q0 _ i
      rw [queue_holder.destroy_eq]
      by_cases hi : i = k
      · subst hi; simp
      · simp [Function.update_noteq hi, hi]
    by_cases hc : count < items
    · rw [if_pos hc] at h
      simp only at h
      have hadd : min (q.heap p).length (items - count) ≤ (q.heap p).length :=
        Nat.min_le_left _ _
      have hadd' : min (q.heap p).length (items - count) ≤ items - count :=
        Nat.min_le_right _ _
      have hfront : ∀ i, ∃ t, q.heap i =
          t ++ (q.set_queue p ((q.heap p).drop
            (min (q.heap p).length (items - count)))).heap i ∧
          t.Sublist ((q.heap p).take (min (q.heap p).length (items - count))) := by
        intro i
        by_cases hi : i = p
        · subst hi
          exact ⟨_, by simp, List.Sublist.refl _⟩
        · exact ⟨[], by simp [Function.update_noteq hi], List.nil_sublist _⟩
      by_cases hret : count + min (q.heap p).length (items - count) = items ∨
          iters = num_queues
      · rw [if_pos hret] at h
        simp only [Except.ok.injEq] at h
        subst h
        refine ⟨hdone _ hk, by simp only; omega, _, rfl, ?_, ?_, ?_⟩
        · simp only [List.length_take]
          omega
        · intro i
          obtain ⟨t, ht, hsub⟩ := hfront i
          exact ⟨t, by rw [queue_holder.destroy_heap]; exact ht, hsub⟩
        · rw [lf_queue.all_items_eq_of_heap (queue_holder.destroy_heap _ _)]
          exact q.all_items_take_drop p _
      · rw [if_neg hret] at h
        generalize hq1 : q.set_queue p ((q.heap p).drop (min (q.heap p).length (items - count)))
          = q1 at h hfront
        have hk1 : (q1.data_ k).atomic_ptr = none := by rw [← hq1]; exact hk
        have hitems1 : q.all_items =
            ((q.heap p).take (min (q.heap p).length (items - count)) : Multiset T) +
              q1.all_items := by
          rw [← hq1]; exact q.all_items_take_drop p _
        have hdata1 : q1.data_ = q.data_ := by rw [← hq1]; rfl
        rcases q1.acquire_queue_dequeue_cases (idx (iters + 1)) with
          ⟨hacq, _⟩ | ⟨m, p', _, hslot, _, hacq⟩
        · simp [hacq, queue_holder.move_assign] at h
        · have hne : shard_index (idx (iters + 1)) m ≠ k := by
            intro heq
            rw [heq] at hslot
            rw [hslot] at hk1
            cases hk1
          simp only [hacq, queue_holder.move_assign, queue_holder.destroy_null] at h
          obtain ⟨hptr, hle, taken, hout, hlen, hpre, hsum⟩ := ih _ _ _ _ _ _ r
            (by simp [Function.update_noteq hne, aligned_atomic_ptr.store]) (by omega) h
          refine ⟨?_, hle, (q.heap p).take (min (q.heap p).length (items - count)) ++ taken,
            ?_, ?_, ?_, ?_⟩
          · intro i
            rw [hptr i]
            by_cases hik' : i = shard_index (idx (iters + 1)) m
            · subst hik'
              rw [if_pos rfl, if_neg hne, ← hdata1, hslot]
            · rw [if_neg hik']
              by_cases hik : i = k
              · subst hik
                simp [aligned_atomic_ptr.store]
              · simp [Function.update_noteq hik, Function.update_noteq hik', hik,
                  aligned_atomic_ptr.store, hdata1]
          · rw [hout, List.append_assoc]
          · rw [hlen, List.length_append, List.length_take]
            omega
          · intro i
            obtain ⟨t1, ht1, hsub1⟩ := hfront i
            obtain ⟨t2, ht2, hsub2⟩ := hpre i
            simp only [lf_queue.set_slot_heap] at ht2
            refine ⟨t1 ++ t2, ?_, List.Sublist.append hsub1 hsub2⟩
            rw [ht1, ht2, List.append_assoc]
          · rw [hitems1, ← Multiset.coe_add, add_assoc]
            congr 1
    · rw [if_neg hc] at h
      simp only [Except.ok.injEq] at h
      subst h
      refine ⟨hdone q hk, hcount, [], by simp, by simp, ?_, ?_⟩
      · intro i
        exact ⟨[], by rw [queue_holder.destroy_heap]; rfl, List.nil_sublist _⟩
      · rw [lf_queue.all_items_eq_of_heap (queue_holder.destroy_heap _ _)]
        simp

theorem lf_queue.try_dequeue_bulk_spec (q : lf_queue T) (idx : Nat → Nat) (items : Nat)
    (r : Nat × List T × lf_queue T) (h : q.try_dequeue_bulk idx items = Except.ok r) :
    (∀ i, (r.2.2.data_ i).atomic_ptr = (q.data_ i).atomic_ptr) ∧
    r.1 = r.2.1.length ∧ r.1 ≤ items ∧
    (∀ i, ∃ t, q.heap i = t ++ r.2.2.heap i ∧ t.Sublist r.2.1) ∧
    q.all_items = (r.2.1 : Multiset T) + r.2.2.all_items := by
  unfold lf_queue.try_dequeue_bulk at h
  rcases q.acquire_queue_dequeue_cases (idx 0) with ⟨hacq, _⟩ | ⟨m, p, _, hslot, _, hacq⟩
  · simp only [hacq, queue_holder.destroy_null, Except.ok.injEq] at h
    subst h
    exact ⟨fun _ => rfl, rfl, Nat.zero_le _, fun i => ⟨[], rfl, List.Sublist.refl _⟩, by simp⟩
  · simp only [hacq] at h
    obtain ⟨hptr, hle, taken, hout, hlen, hpre, hsum⟩ :=
      lf_queue.try_dequeue_bulk_loop_spec idx items _ _ _ _ _ _ _ r (by simp) (Nat.zero_le _) h
    simp only [List.nil_append] at hout
    subst hout
    refine ⟨?_, by omega, hle, hpre, hsum⟩
    intro i
    rw [hptr i]
    by_cases hi : i = shard_index (idx 0) m
    · subst hi
      rw [if_pos rfl, hslot]
    · rw [if_neg hi]
      simp [Function.update_noteq hi]

end bulk_spec

/-! ## Release on every return path, and what the bulk dequeue delivers -/

section release_claims
variable {T : Type}

theorem lf_queue.slots_restored_of_ptrs (q q' : lf_queue T)
    (hfree : ∀ i, (q.data_ i).atomic_ptr ≠ none)
    (h : ∀ i, (q'.data_ i).atomic_ptr = (q.data_ i).atomic_ptr) : q.SlotsRestored q' :=
  fun i => ⟨h i, by rw [h i]; exact hfree i⟩

theorem lf_queue.enqueue_ptrs (q : lf_queue T) (fuel s : Nat) (x : T) (r : Bool × lf_queue T)
    (h : q.enqueue fuel s x = some r) :
    ∀ i, (r.2.data_ i).atomic_ptr = (q.data_ i).atomic_ptr := by
  obtain ⟨k, p, hk, rfl⟩ := q.enqueue_some fuel s x r h
  intro i
  by_cases hi : i = k
  · subst hi; simp [hk]
  · simp [Function.update_noteq hi]

theorem lf_queue.enqueue_bulk_ptrs (q : lf_queue T) (fuel s : Nat) (iter : List T)
    (count : Nat) (r : Bool × lf_queue T) (h : q.enqueue_bulk fuel s iter count = some r) :
    ∀ i, (r.2.data_ i).atomic_ptr = (q.data_ i).atomic_ptr := by
  obtain ⟨_, k, p, hk, rfl⟩ := q.enqueue_bulk_some fuel s iter count r h
  intro i
  by_cases hi : i = k
  · subst hi; simp [hk]
  · simp [Function.update_noteq hi]

/-- C11: from a state in which all 32 slots are free, every public operation
that returns leaves all 32 slots free, each with the pointer it had before the
call: the three `enqueue` overloads and `enqueue_bulk` (which do return, one
probe being enough), `try_dequeue` (which always returns) on each of its return
paths, and `try_dequeue_bulk` whenever it returns. -/
theorem lf_queue.slots_restored_on_return (q : lf_queue T)
    (hfree : ∀ i, (q.data_ i).atomic_ptr ≠ none) :
    (∀ fuel s x, ∃ r, q.enqueue (fuel + 1) s x = some r ∧
      q.enqueue_move (fuel + 1) s x = some r ∧ q.enqueue_emplace (fuel + 1) s x = some r) ∧
    (∀ fuel s x r, q.enqueue fuel s x = some r ∨ q.enqueue_move fuel s x = some r ∨
      q.enqueue_emplace fuel s x = some r → q.SlotsRestored r.2) ∧
    (∀ fuel s iter count, count ≤ iter.length →
      ∃ r, q.enqueue_bulk (fuel + 1) s iter count = some r) ∧
    (∀ fuel s iter count r, q.enqueue_bulk fuel s iter count = some r →
      q.SlotsRestored r.2) ∧
    (∀ idx item, ∃ r, q.try_dequeue idx item = some r ∧ q.SlotsRestored r.2.2) ∧
    (∀ idx items r, q.try_dequeue_bulk idx items = Except.ok r → q.SlotsRestored r.2.2) := by
  have hacq : ∀ fuel s, ∃ a, q.acquire_queue (fuel + 1) s = some a := by
    intro fuel s
    exact ⟨_, q.acquire_queue_loop_hit s (fuel + 1) 0 0 (Nat.succ_pos fuel)
      (hfree _) (by intro k hk; omega)⟩
  refine ⟨?_, ?_, ?_, ?_, ?_, ?_⟩
  · intro fuel s x
    obtain ⟨⟨g, q1⟩, ha⟩ := hacq fuel s
    obtain ⟨k, p, rfl, _, rfl⟩ := q.acquire_queue_loop_some s (fuel + 1) 0 g q1 ha
    have h : ∃ r, q.enqueue (fuel + 1) s x = some r := by
      unfold lf_queue.enqueue
      simp only [ha]
      exact ⟨_, rfl⟩
    obtain ⟨r, hr⟩ := h
    exact ⟨r, hr, hr, hr⟩
  · intro fuel s x r hr
    have hr' : q.enqueue fuel s x = some r := by
      rcases hr with h | h | h
      · exact h
      · exact h
      · exact h
    exact q.slots_restored_of_ptrs r.2 hfree (q.enqueue_ptrs fuel s x r hr')
  · intro fuel s iter count hc
    obtain ⟨⟨g, q1⟩, ha⟩ := hacq fuel s
    obtain ⟨k, p, rfl, _, rfl⟩ := q.acquire_queue_loop_some s (fuel + 1) 0 g q1 ha
    unfold lf_queue.enqueue_bulk
    simp only [ha, lf_queue.set_slot_heap, push_from_iter_eq, if_pos hc]
    exact ⟨_, rfl⟩
  · intro fuel s iter count r hr
    exact q.slots_restored_of_ptrs r.2 hfree (q.enqueue_bulk_ptrs fuel s iter count r hr)
  · intro idx item
    obtain ⟨b, v, q', hres, hptr, _, _⟩ :=
      lf_queue.try_dequeue_loop_spec idx (num_queues + 1) 0 item q (by omega) (by omega)
    exact ⟨(b, v, q'), hres, q.slots_restored_of_ptrs q' hfree hptr⟩
  · intro idx items r hr
    exact q.slots_restored_of_ptrs r.2.2 hfree (q.try_dequeue_bulk_spec idx items r hr).1

/-- Witness for C11: on the fresh queue, `try_dequeue` returns and leaves the
slots as they were. -/
theorem lf_queue.slots_restored_on_return_witness :
    (∀ i, ((lf_queue.construct : lf_queue Nat).data_ i).atomic_ptr ≠ none) ∧
    ∃ r, (lf_queue.construct : lf_queue Nat).try_dequeue (fun _ => 0) 0 = some r ∧
      (lf_queue.construct : lf_queue Nat).SlotsRestored r.2.2 :=
  ⟨fun i => by simp [lf_queue.construct],
    (lf_queue.slots_restored_on_return (lf_queue.construct : lf_queue Nat)
      (fun i => by simp [lf_queue.construct])).2.2.2.2.1 (fun _ => 0) 0⟩

end release_claims

/-! ## The shard visits of a bulk dequeue -/

section bulk_visits
variable {T : Type}

theorem lf_queue.try_dequeue_bulk_loop_done (idx : Nat → Nat) (items fuel : Nat)
    (g : queue_holder) (p : Fin num_queues) (count iters : Nat) (output : List T)
    (q : lf_queue T) (hc : ¬ count < items) :
    lf_queue.try_dequeue_bulk_loop idx items (fuel + 1) g p count iters output q =
        Except.ok (count, output, g.destroy q) ∧
      lf_queue.try_dequeue_bulk_visits idx items (fuel + 1) g p count iters q = [] := by
  constructor
  · rw [lf_queue.try_dequeue_bulk_loop, if_neg hc]
  · rw [lf_queue.try_dequeue_bulk_visits, if_neg hc]

theorem lf_queue.try_dequeue_bulk_loop_ret (idx : Nat → Nat) (items fuel : Nat)
    (g : queue_holder) (p : Fin num_queues) (count iters : Nat) (output : List T)
    (q : lf_queue T) (hc : count < items)
    (hret : count + min (q.heap p).length (items - count) = items ∨ iters = num_queues) :
    lf_queue.try_dequeue_bulk_loop idx items (fuel + 1) g p count iters output q =
        Except.ok (count + min (q.heap p).length (items - count),
          output ++ (q.heap p).take (min (q.heap p).length (items - count)),
          g.destroy (q.set_queue p ((q.heap p).drop (min (q.heap p).length (items - count))))) ∧
      lf_queue.try_dequeue_bulk_visits idx items (fuel + 1) g p count iters q =
        [{ iters := iters, guard := g,
           moved := (q.heap p).take (min (q.heap p).length (items - count)) }] := by
  constructor
  · rw [lf_queue.try_dequeue_bulk_loop, if_pos hc]
    simp only
    rw [if_pos hret]
  · rw [lf_queue.try_dequeue_bulk_visits, if_pos hc]
    simp only
    rw [if_pos hret]

theorem lf_queue.try_dequeue_bulk_loop_fail (idx : Nat → Nat) (items fuel : Nat)
    (g : queue_holder) (p : Fin num_queues) (count iters : Nat) (output : List T)
    (q q1 : lf_queue T) (hc : count < items)
    (hret : ¬ (count + min (q.heap p).length (items - count) = items ∨ iters = num_queues))
    (hacq : (q.set_queue p ((q.heap p).drop (min (q.heap p).length (items - count)))
      ).acquire_queue_dequeue (idx (iters + 1)) = ({ index_ := 0, ptr_ := none }, q1)) :
    lf_queue.try_dequeue_bulk_loop idx items (fuel + 1) g p count iters output q =
        Except.error failure.null_guard ∧
      lf_queue.try_dequeue_bulk_visits idx items (fuel + 1) g p count iters q =
        [{ iters := iters, guard := g,
           moved := (q.heap p).take (min (q.heap p).length (items - count)) }] := by
  constructor
  · rw [lf_queue.try_dequeue_bulk_loop, if_pos hc]
    simp only
    rw [if_neg hret]
    simp only [hacq, queue_holder.move_assign]
  · rw [lf_queue.try_dequeue_bulk_visits, if_pos hc]
    simp only
    rw [if_neg hret]
    simp only [hacq, queue_holder.move_assign]

theorem lf_queue.try_dequeue_bulk_loop_rec (idx : Nat → Nat) (items fuel : Nat)
    (k p k' p' : Fin num_queues) (count iters : Nat) (output : List T)
    (q q1 : lf_queue T) (hc : count < items)
    (hret : ¬ (count + min (q.heap p).length (items - count) = items ∨ iters = num_queues))
    (hacq : (q.set_queue p ((q.heap p).drop (min (q.heap p).length (items - count)))
      ).acquire_queue_dequeue (idx (iters + 1)) = ({ index_ := k', ptr_ := some p' }, q1)) :
    lf_queue.try_dequeue_bulk_loop idx items (fuel + 1) { index_ := k, ptr_ := some p } p
        count iters output q =
      lf_queue.try_dequeue_bulk_loop idx items fuel { index_ := k', ptr_ := some p' } p'
        (count + min (q.heap p).length (items - count)) (iters + 1)
        (output ++ (q.heap p).take (min (q.heap p).length (items - count)))
        (q1.set_slot k ((q1.data_ k).store (some p))) ∧
    lf_queue.try_dequeue_bulk_visits idx items (fuel + 1) { index_ := k, ptr_ := some p } p
        count iters q =
      { iters := iters, guard := { index_ := k, ptr_ := some p },
        moved := (q.heap p).take (min (q.heap p).length (items - count)) } ::
      lf_queue.try_dequeue_bulk_visits idx items fuel { index_ := k', ptr_ := some p' } p'
        (count + min (q.heap p).length (items - count)) (iters + 1)
        (q1.set_slot k ((q1.data_ k).store (some p))) := by
  constructor
  · rw [lf_queue.try_dequeue_bulk_loop, if_pos hc]
    simp only
    rw [if_neg hret]
    simp only [hacq, queue_holder.move_assign, queue_holder.destroy_null]
  · rw [lf_queue.try_dequeue_bulk_visits, if_pos hc]
    simp only
    rw [if_neg hret]
    simp only [hacq, queue_holder.move_assign, queue_holder.destroy_null]

end bulk_visits

section bulk_visits_spec
variable {T : Type}

theorem lf_queue.try_dequeue_bulk_loop_visits (idx : Nat → Nat) (items : Nat) :
    ∀ (fuel : Nat) (k p : Fin num_queues) (count iters : Nat) (output : List T)
      (q : lf_queue T) (r : Nat × List T × lf_queue T), count ≤ items →
      lf_queue.try_dequeue_bulk_loop idx items fuel { index_ := k, ptr_ := some p } p
        count iters output q = Except.ok r →
      r.2.1 = output ++ ((lf_queue.try_dequeue_bulk_visits idx items fuel
          { index_ := k, ptr_ := some p } p count iters q).map bulk_visit.moved).flatten ∧
      (∀ i, q.heap i = (((lf_queue.try_dequeue_bulk_visits idx items fuel
          { index_ := k, ptr_ := some p } p count iters q).filter
            (fun v => v.guard.ptr_ = some i)).map bulk_visit.moved).flatten ++
          r.2.2.heap i) ∧
      (∀ v, v ∈ (lf_queue.try_dequeue_bulk_visits idx items fuel
          { index_ := k, ptr_ := some p } p count iters q).dropLast →
        ∀ i, v.guard.ptr_ = some i → r.2.2.heap i = []) ∧
      (r.1 = items ∨ (lf_queue.try_dequeue_bulk_visits idx items fuel
          { index_ := k, ptr_ := some p } p count iters q).length + iters = num_queues + 1) := by
  intro fuel
  induction fuel with
  | zero => intro k p count iters output q r _ h; simp [lf_queue.try_dequeue_bulk_loop] at h
  | succ fuel ih =>
    intro k p count iters output q r hcount h
    by_cases hc : count < items
    · by_cases hret : count + min (q.heap p).length (items - count) = items ∨
          iters = num_queues
      · obtain ⟨hl, hv⟩ := lf_queue.try_dequeue_bulk_loop_ret idx items fuel
          { index_ := k, ptr_ := some p } p count iters output q hc hret
        rw [hl] at h
        rw [hv]
        simp only [Except.ok.injEq] at h
        subst h
        refine ⟨by simp, ?_, by simp, ?_⟩
        · intro i
          rw [queue_holder.destroy_heap]
          by_cases hi : i = p
          · subst hi
            simp
          · have hne : ¬ (some p = some i) := fun he => hi (Option.some.inj he).symm
            simp [hne, Function.update_noteq hi]
        · rcases hret with hret | hret
          · exact Or.inl hret
          · right
            simp only [List.length_singleton]
            omega
      · rcases (q.set_queue p ((q.heap p).drop (min (q.heap p).length (items - count)))
          ).acquire_queue_dequeue_cases (idx (iters + 1)) with
          ⟨hacq, _⟩ | ⟨m, p', _, _, _, hacq⟩
        · rw [(lf_queue.try_dequeue_bulk_loop_fail idx items fuel
            { index_ := k, ptr_ := some p } p count iters output q _ hc hret hacq).1] at h
          cases h
        · obtain ⟨hl, hv⟩ := lf_queue.try_dequeue_bulk_loop_rec idx items fuel
            k p _ p' count iters output q _ hc hret hacq
          rw [hl] at h
          rw [hv]
          have hadd : min (q.heap p).length (items - count) = (q.heap p).length := by
            have : ¬ count + min (q.heap p).length (items - count) = items :=
              fun he => hret (Or.inl he)
            omega
          obtain ⟨hout, hpre, hdrained, hbound⟩ := ih _ _ _ _ _ _ r (by omega) h
          have hp := hpre p
          simp only [lf_queue.set_slot_heap, lf_queue.set_queue_heap, Function.update_same]
            at hp
          have hp0 := hp
          rw [hadd, List.drop_length] at hp0
          refine ⟨?_, ?_, ?_, ?_⟩
          · rw [hout]
            simp
          · intro i
            by_cases hi : i = p
            · subst hi
              simp only [decide_True, List.filter_cons_of_pos, List.map_cons,
                List.flatten_cons, List.append_assoc]
              rw [← hp]
              exact (List.take_append_drop _ _).symm
            · have hne : ¬ (some p = some i) := fun he => hi (Option.some.inj he).symm
              have hpi := hpre i
              simp only [lf_queue.set_slot_heap, lf_queue.set_queue_heap,
                Function.update_noteq hi] at hpi
              simp only [hne, decide_False, Bool.false_eq_true, not_false_eq_true,
                List.filter_cons_of_neg]
              exact hpi
          · intro v hv' i hi
            generalize hrest : lf_queue.try_dequeue_bulk_visits idx items fuel
              { index_ := shard_index (idx (iters + 1)) m, ptr_ := some p' } p'
              (count + min (q.heap p).length (items - count)) (iters + 1) _ = rest
              at hv' hdrained
            cases rest with
            | nil => simp at hv'
            | cons w rest =>
              simp only [List.dropLast_cons₂, List.mem_cons] at hv'
              rcases hv' with hv' | hv'
              · subst hv'
                simp only [Option.some.injEq] at hi
                subst hi
                exact (List.nil_eq_append_iff.mp hp0).2
              · exact hdrained v hv' i hi
          · rcases hbound with hbound | hbound
            · exact Or.inl hbound
            · right
              simp only [List.length_cons]
              omega
    · obtain ⟨hl, hv⟩ := lf_queue.try_dequeue_bulk_loop_done idx items fuel
        { index_ := k, ptr_ := some p } p count iters output q hc
      rw [hl] at h
      rw [hv]
      simp only [Except.ok.injEq] at h
      subst h
      refine ⟨by simp, ?_, by simp, ?_⟩
      · intro i
        rw [queue_holder.destroy_heap]
        simp
      · left
        simp only
        omega

theorem lf_queue.first_flagged_unique (q : lf_queue T) (s : Nat)
    (held : Option (Fin num_queues)) (k k' : Fin num_queues)
    (h : q.first_flagged s held k) (h' : q.first_flagged s held k') : k = k' := by
  obtain ⟨m, _, hk, hd, hne, hfirst⟩ := h
  obtain ⟨m', _, hk', hd', hne', hfirst'⟩ := h'
  rcases Nat.lt_trichotomy m m' with hlt | heq | hgt
  · exact absurd ⟨by rw [hk]; exact hd, by rw [hk]; exact hne⟩ (hfirst' m hlt)
  · rw [← hk, ← hk', heq]
  · exact absurd ⟨by rw [hk']; exact hd', by rw [hk']; exact hne'⟩ (hfirst m' hgt)

theorem lf_queue.HeldSince.of_acquire (q : lf_queue T) (hf : q.AllFree) (s : Nat) :
    (q.acquire_queue_dequeue s = ({ index_ := 0, ptr_ := none }, q) ∧
      ∀ j, (q.data_ j).dirty_ = false) ∨
    ∃ k, q.first_flagged s none k ∧
      q.acquire_queue_dequeue s =
        ({ index_ := k, ptr_ := some k }, q.set_slot k { atomic_ptr := none, dirty_ := true }) ∧
      q.HeldSince (q.set_slot k { atomic_ptr := none, dirty_ := true }) k := by
  rcases q.acquire_queue_dequeue_cases s with ⟨hacq, hnone⟩ | ⟨m, p, hm, hslot, hfirst, hacq⟩
  · left
    refine ⟨hacq, ?_⟩
    intro j
    by_contra hj
    exact hnone j ⟨by simpa using hj, by rw [hf j]; simp⟩
  · right
    have hp : p = shard_index s m := by
      have := hf (shard_index s m)
      rw [hslot] at this
      exact Option.some.inj this
    subst hp
    refine ⟨shard_index s m, ⟨m, hm, rfl, by rw [hslot], by simp, ?_⟩, hacq, ?_, ?_, ?_⟩
    · intro n hn hfl
      exact hfirst n hn ⟨hfl.1, by rw [hf _]; simp⟩
    · simp
    · intro i hi
      simpa [Function.update_noteq hi] using hf i
    · intro i
      by_cases hi : i = shard_index s m
      · subst hi
        simp [hslot]
      · simp [Function.update_noteq hi]

theorem lf_queue.HeldSince.step (q0 q : lf_queue T) (k : Fin num_queues)
    (h : q0.HeldSince q k) (xs : List T) (s : Nat) :
    ((q.set_queue k xs).acquire_queue_dequeue s =
        ({ index_ := 0, ptr_ := none }, q.set_queue k xs) ∧
      ∀ j, (q0.data_ j).dirty_ = true → j = k) ∨
    ∃ k', q0.first_flagged s (some k) k' ∧
      (q.set_queue k xs).acquire_queue_dequeue s =
        ({ index_ := k', ptr_ := some k' },
          (q.set_queue k xs).set_slot k' { atomic_ptr := none, dirty_ := true }) ∧
      q0.HeldSince
        (((q.set_queue k xs).set_slot k' { atomic_ptr := none, dirty_ := true }).set_slot k
          ((((q.set_queue k xs).set_slot k' { atomic_ptr := none, dirty_ := true }).data_
            k).store (some k))) k' := by
  obtain ⟨hk, hfree, hdirty⟩ := h
  rcases (q.set_queue k xs).acquire_queue_dequeue_cases s with
    ⟨hacq, hnone⟩ | ⟨m, p, hm, hslot, hfirst, hacq⟩
  · left
    refine ⟨hacq, ?_⟩
    intro j hj
    by_contra hjk
    refine hnone j ⟨?_, ?_⟩
    · rw [lf_queue.set_queue_data, hdirty j]
      exact hj
    · rw [lf_queue.set_queue_data, hfree j hjk]
      simp
  · right
    rw [lf_queue.set_queue_data] at hslot
    have hne : shard_index s m ≠ k := by
      intro heq
      rw [heq] at hslot
      rw [hslot] at hk
      cases hk
    have hp : p = shard_index s m := by
      have := hfree _ hne
      rw [hslot] at this
      exact Option.some.inj this
    subst hp
    refine ⟨shard_index s m, ⟨m, hm, rfl, ?_, ?_, ?_⟩, hacq, ?_, ?_, ?_⟩
    · rw [← hdirty, hslot]
    · intro he
      exact hne (Option.some.inj he)
    · intro n hn hfl
      refine hfirst n hn ⟨?_, ?_⟩
      · rw [lf_queue.set_queue_data, hdirty]
        exact hfl.1
      · have hnk : shard_index s n ≠ k := fun he => hfl.2 (congrArg some he)
        rw [lf_queue.set_queue_data, hfree _ hnk]
        simp
    · simp [Function.update_noteq hne, aligned_atomic_ptr.store]
    · intro i hi
      by_cases hik : i = k
      · subst hik
        simp [aligned_atomic_ptr.store]
      · simpa [Function.update_noteq hik, Function.update_noteq hi,
          aligned_atomic_ptr.store] using hfree i hik
    · intro i
      by_cases hik : i = k
      · subst hik
        simp [aligned_atomic_ptr.store, Function.update_noteq (Ne.symm hne), hdirty]
      · by_cases hi : i = shard_index s m
        · subst hi
          simp [Function.update_noteq hik, aligned_atomic_ptr.store, ← hdirty, hslot]
        · simp [Function.update_noteq hik, Function.update_noteq hi,
            aligned_atomic_ptr.store, hdirty]

end bulk_visits_spec

section bulk_scan_order
variable {T : Type}

theorem lf_queue.try_dequeue_bulk_visits_chain (q0 : lf_queue T) (idx : Nat → Nat)
    (items : Nat) :
    ∀ (fuel : Nat) (k : Fin num_queues) (count iters : Nat) (q : lf_queue T),
      q0.HeldSince q k →
      (∀ v, v ∈ (lf_queue.try_dequeue_bulk_visits idx items fuel
          { index_ := k, ptr_ := some k } k count iters q).head? →
        v.iters = iters ∧ v.guard = { index_ := k, ptr_ := some k }) ∧
      List.Chain' (q0.next_visit idx) (lf_queue.try_dequeue_bulk_visits idx items fuel
          { index_ := k, ptr_ := some k } k count iters q) ∧
      (∀ v, v ∈ lf_queue.try_dequeue_bulk_visits idx items fuel
          { index_ := k, ptr_ := some k } k count iters q →
        v.guard.ptr_ = some v.guard.index_) := by
  intro fuel
  induction fuel with
  | zero =>
    intro k count iters q _
    simp [lf_queue.try_dequeue_bulk_visits]
  | succ fuel ih =>
    intro k count iters q hheld
    by_cases hc : count < items
    · by_cases hret : count + min (q.heap k).length (items - count) = items ∨
          iters = num_queues
      · rw [(lf_queue.try_dequeue_bulk_loop_ret idx items fuel
          { index_ := k, ptr_ := some k } k count iters [] q hc hret).2]
        simp
      · rcases hheld.step q0 q k
          ((q.heap k).drop (min (q.heap k).length (items - count))) (idx (iters + 1)) with
          ⟨hacq, _⟩ | ⟨k', hfirst, hacq, hheld'⟩
        · rw [(lf_queue.try_dequeue_bulk_loop_fail idx items fuel
            { index_ := k, ptr_ := some k } k count iters [] q _ hc hret hacq).2]
          simp
        · rw [(lf_queue.try_dequeue_bulk_loop_rec idx items fuel
            k k k' k' count iters [] q _ hc hret hacq).2]
          obtain ⟨hhead, hchain, hptr⟩ := ih k'
            (count + min (q.heap k).length (items - count)) (iters + 1) _ hheld'
          refine ⟨by simp, ?_, ?_⟩
          · rw [List.chain'_cons']
            refine ⟨?_, hchain⟩
            intro w hw
            obtain ⟨hw1, hw2⟩ := hhead w hw
            refine ⟨hw1, ?_⟩
            rw [hw1, hw2]
            exact hfirst
          · intro v hv
            rw [List.mem_cons] at hv
            rcases hv with hv | hv
            · rw [hv]
            · exact hptr v hv
    · rw [(lf_queue.try_dequeue_bulk_loop_done idx items fuel
        { index_ := k, ptr_ := some k } k count iters [] q hc).2]
      simp

theorem lf_queue.try_dequeue_bulk_loop_returns (q0 : lf_queue T) (idx : Nat → Nat)
    (items : Nat)
    (htwo : ∃ i j, i ≠ j ∧ (q0.data_ i).dirty_ = true ∧ (q0.data_ j).dirty_ = true) :
    ∀ (fuel : Nat) (k : Fin num_queues) (count iters : Nat) (output : List T)
      (q : lf_queue T), q0.HeldSince q k → num_queues + 1 ≤ fuel + iters →
      iters ≤ num_queues →
      ∃ r, lf_queue.try_dequeue_bulk_loop idx items fuel { index_ := k, ptr_ := some k } k
        count iters output q = Except.ok r := by
  intro fuel
  induction fuel with
  | zero =>
    intro k count iters output q _ h1 h2
    omega
  | succ fuel ih =>
    intro k count iters output q hheld hfuel hiters
    by_cases hc : count < items
    · by_cases hret : count + min (q.heap k).length (items - count) = items ∨
          iters = num_queues
      · exact ⟨_, (lf_queue.try_dequeue_bulk_loop_ret idx items fuel
          { index_ := k, ptr_ := some k } k count iters output q hc hret).1⟩
      · rcases hheld.step q0 q k
          ((q.heap k).drop (min (q.heap k).length (items - count))) (idx (iters + 1)) with
          ⟨_, honly⟩ | ⟨k', _, hacq, hheld'⟩
        · obtain ⟨i, j, hij, hi, hj⟩ := htwo
          exact absurd ((honly i hi).trans (honly j hj).symm) hij
        · rw [(lf_queue.try_dequeue_bulk_loop_rec idx items fuel
            k k k' k' count iters output q _ hc hret hacq).1]
          have hne : iters ≠ num_queues := fun he => hret (Or.inr he)
          exact ih k' _ (iters + 1) _ _ hheld' (by omega) (by omega)
    · exact ⟨_, (lf_queue.try_dequeue_bulk_loop_done idx items fuel
        { index_ := k, ptr_ := some k } k count iters output q hc).1⟩

theorem lf_queue.try_dequeue_bulk_two_shards (q : lf_queue T) (hf : q.AllFree)
    (idx : Nat → Nat) (items : Nat) (p1 p2 : Fin num_queues)
    (h1 : q.first_flagged (idx 0) none p1) (h2 : q.first_flagged (idx 1) (some p1) p2)
    (hlt : (q.heap p1).length < items)
    (hle : items ≤ (q.heap p1).length + (q.heap p2).length) :
    ∃ q', q.try_dequeue_bulk idx items =
      Except.ok (items, q.heap p1 ++ (q.heap p2).take (items - (q.heap p1).length), q') := by
  have hne : p2 ≠ p1 := by
    obtain ⟨_, _, _, _, hne, _⟩ := h2
    exact fun he => hne (congrArg some he)
  rcases lf_queue.HeldSince.of_acquire q hf (idx 0) with ⟨_, hnone⟩ | ⟨k, hk, hacq, hheld⟩
  · obtain ⟨_, _, _, hd, _, _⟩ := h1
    rw [hnone p1] at hd
    cases hd
  · have hkp : k = p1 := q.first_flagged_unique _ _ _ _ hk h1
    subst hkp
    have hc : 0 < items := by omega
    have hret : ¬ (0 + min ((q.set_slot k { atomic_ptr := none, dirty_ := true }).heap
        k).length (items - 0) = items ∨ 0 = num_queues) := by
      simp only [lf_queue.set_slot_heap]
      intro h
      rcases h with h | h
      · omega
      · cases h
    rcases hheld.step q _ k
        (((q.set_slot k { atomic_ptr := none, dirty_ := true }).heap k).drop
          (min ((q.set_slot k { atomic_ptr := none, dirty_ := true }).heap k).length
            (items - 0))) (idx (0 + 1)) with ⟨_, honly⟩ | ⟨k', hk', hacq', _⟩
    · obtain ⟨_, _, _, hd, _, _⟩ := h2
      exact absurd (honly p2 hd) hne
    · have hkp' : k' = p2 := q.first_flagged_unique _ _ _ _ hk' h2
      subst hkp'
      unfold lf_queue.try_dequeue_bulk
      simp only [hacq]
      rw [(lf_queue.try_dequeue_bulk_loop_rec idx items (num_queues + 1)
        k k k' k' 0 0 [] _ _ hc hret hacq').1]
      have hmin1 : min (q.heap k).length (items - 0) = (q.heap k).length := by omega
      have hc2 : 0 + min ((q.set_slot k { atomic_ptr := none, dirty_ := true }).heap
          k).length (items - 0) < items := by
        simp only [lf_queue.set_slot_heap]
        omega
      obtain ⟨hl, _⟩ := lf_queue.try_dequeue_bulk_loop_ret idx items num_queues
        { index_ := k', ptr_ := some k' } k'
        (0 + min ((q.set_slot k { atomic_ptr := none, dirty_ := true }).heap k).length
          (items - 0)) (0 + 1)
        ([] ++ ((q.set_slot k { atomic_ptr := none, dirty_ := true }).heap k).take
          (min ((q.set_slot k { atomic_ptr := none, dirty_ := true }).heap k).length
            (items - 0)))
        ((((q.set_slot k { atomic_ptr := none, dirty_ := true }).set_queue k
            (((q.set_slot k { atomic_ptr := none, dirty_ := true }).heap k).drop
              (min ((q.set_slot k { atomic_ptr := none, dirty_ := true }).heap k).length
                (items - 0)))).set_slot k' { atomic_ptr := none, dirty_ := true }).set_slot k
          (((((q.set_slot k { atomic_ptr := none, dirty_ := true }).set_queue k
            (((q.set_slot k { atomic_ptr := none, dirty_ := true }).heap k).drop
              (min ((q.set_slot k { atomic_ptr := none, dirty_ := true }).heap k).length
                (items - 0)))).set_slot k' { atomic_ptr := none, dirty_ := true }).data_
                  k).store (some k)))
        hc2 (Or.inl (by
          simp only [lf_queue.set_slot_heap, lf_queue.set_queue_heap,
            Function.update_noteq hne]
          omega))
      rw [hl]
      refine ⟨_, congrArg Except.ok (Prod.ext ?_ (Prod.ext ?_ rfl))⟩
      · simp only [lf_queue.set_slot_heap, lf_queue.set_queue_heap,
          Function.update_noteq hne]
        omega
      · simp only [lf_queue.set_slot_heap, lf_queue.set_queue_heap,
          Function.update_noteq hne, hmin1, List.nil_append, List.take_length]
        congr 2
        omega

end bulk_scan_order

section bulk_trace
variable {T : Type}

theorem lf_queue.try_dequeue_bulk_visits_length_le (idx : Nat → Nat) (items : Nat) :
    ∀ (fuel : Nat) (k p : Fin num_queues) (count iters : Nat) (q : lf_queue T),
      iters ≤ num_queues →
      (lf_queue.try_dequeue_bulk_visits idx items fuel { index_ := k, ptr_ := some p } p
        count iters q).length + iters ≤ num_queues + 1 := by
  intro fuel
  induction fuel with
  | zero =>
    intro k p count iters q h
    simp only [lf_queue.try_dequeue_bulk_visits, List.length_nil]
    omega
  | succ fuel ih =>
    intro k p count iters q h
    by_cases hc : count < items
    · by_cases hret : count + min (q.heap p).length (items - count) = items ∨
          iters = num_queues
      · rw [(lf_queue.try_dequeue_bulk_loop_ret idx items fuel
          { index_ := k, ptr_ := some p } p count iters [] q hc hret).2]
        simp only [List.length_singleton]
        omega
      · rcases (q.set_queue p ((q.heap p).drop (min (q.heap p).length (items - count)))
          ).acquire_queue_dequeue_cases (idx (iters + 1)) with
          ⟨hacq, _⟩ | ⟨m, p', _, _, _, hacq⟩
        · rw [(lf_queue.try_dequeue_bulk_loop_fail idx items fuel
            { index_ := k, ptr_ := some p } p count iters [] q _ hc hret hacq).2]
          simp only [List.length_singleton]
          omega
        · rw [(lf_queue.try_dequeue_bulk_loop_rec idx items fuel
            k p _ p' count iters [] q _ hc hret hacq).2]
          have hne : iters ≠ num_queues := fun he => hret (Or.inr he)
          have := ih (shard_index (idx (iters + 1)) m) p'
            (count + min (q.heap p).length (items - count)) (iters + 1)
            (((q.set_queue p ((q.heap p).drop (min (q.heap p).length (items - count)))
              ).set_slot (shard_index (idx (iters + 1)) m)
                { atomic_ptr := none, dirty_ := true }).set_slot k
              ((((q.set_queue p ((q.heap p).drop (min (q.heap p).length (items - count)))
                ).set_slot (shard_index (idx (iters + 1)) m)
                  { atomic_ptr := none, dirty_ := true }).data_ k).store (some p)))
            (by omega)
          simp only [List.length_cons]
          omega
    · rw [(lf_queue.try_dequeue_bulk_loop_done idx items fuel
        { index_ := k, ptr_ := some p } p count iters [] q hc).2]
      simp only [List.length_nil]
      omega

theorem lf_queue.try_dequeue_bulk_trace_length_le (q : lf_queue T) (idx : Nat → Nat)
    (items : Nat) : (q.try_dequeue_bulk_trace idx items).length ≤ num_queues + 1 := by
  unfold lf_queue.try_dequeue_bulk_trace
  rcases q.acquire_queue_dequeue_cases (idx 0) with ⟨hacq, _⟩ | ⟨m, p, _, _, _, hacq⟩
  · simp [hacq]
  · simp only [hacq]
    exact lf_queue.try_dequeue_bulk_visits_length_le idx items _ _ _ 0 0 _ (Nat.zero_le _)

theorem lf_queue.try_dequeue_bulk_trace_spec (q : lf_queue T) (idx : Nat → Nat) (items : Nat)
    (r : Nat × List T × lf_queue T) (h : q.try_dequeue_bulk idx items = Except.ok r) :
    r.2.1 = ((q.try_dequeue_bulk_trace idx items).map bulk_visit.moved).flatten ∧
    (∀ i, q.heap i = (((q.try_dequeue_bulk_trace idx items).filter
        (fun v => v.guard.ptr_ = some i)).map bulk_visit.moved).flatten ++ r.2.2.heap i) ∧
    (∀ v, v ∈ (q.try_dequeue_bulk_trace idx items).dropLast →
      ∀ i, v.guard.ptr_ = some i → r.2.2.heap i = []) ∧
    (r.1 = items ∨ (q.try_dequeue_bulk_trace idx items).length = num_queues + 1 ∨
      (q.acquire_queue_dequeue (idx 0)).1.ptr_ = none) := by
  unfold lf_queue.try_dequeue_bulk at h
  unfold lf_queue.try_dequeue_bulk_trace
  rcases q.acquire_queue_dequeue_cases (idx 0) with ⟨hacq, _⟩ | ⟨m, p, _, _, _, hacq⟩
  · simp only [hacq, queue_holder.destroy_null, Except.ok.injEq] at h
    subst h
    simp [hacq]
  · simp only [hacq] at h ⊢
    obtain ⟨hout, hpre, hdrained, hbound⟩ :=
      lf_queue.try_dequeue_bulk_loop_visits idx items _ _ _ _ _ _ _ r (Nat.zero_le _) h
    refine ⟨by simpa using hout, hpre, hdrained, ?_⟩
    rcases hbound with hbound | hbound
    · exact Or.inl hbound
    · exact Or.inr (Or.inl hbound)

theorem lf_queue.try_dequeue_bulk_trace_scan_order (q : lf_queue T) (hf : q.AllFree)
    (idx : Nat → Nat) (items : Nat) :
    (∀ v, v ∈ (q.try_dequeue_bulk_trace idx items).head? →
      v.iters = 0 ∧ q.first_flagged (idx 0) none v.guard.index_) ∧
    List.Chain' (q.next_visit idx) (q.try_dequeue_bulk_trace idx items) ∧
    (∀ v, v ∈ q.try_dequeue_bulk_trace idx items → v.guard.ptr_ = some v.guard.index_) := by
  unfold lf_queue.try_dequeue_bulk_trace
  rcases lf_queue.HeldSince.of_acquire q hf (idx 0) with ⟨hacq, _⟩ | ⟨k, hk, hacq, hheld⟩
  · simp [hacq]
  · simp only [hacq]
    obtain ⟨hhead, hchain, hptr⟩ := lf_queue.try_dequeue_bulk_visits_chain q idx items
      (num_queues + 2) k 0 0 _ hheld
    refine ⟨?_, hchain, hptr⟩
    intro v hv
    obtain ⟨hv1, hv2⟩ := hhead v hv
    refine ⟨hv1, ?_⟩
    rw [hv2]
    exact hk

theorem lf_queue.try_dequeue_bulk_returns (q : lf_queue T) (hf : q.AllFree)
    (idx : Nat → Nat) (items : Nat)
    (htwo : ∃ i j, i ≠ j ∧ (q.data_ i).dirty_ = true ∧ (q.data_ j).dirty_ = true) :
    ∃ r, q.try_dequeue_bulk idx items = Except.ok r := by
  unfold lf_queue.try_dequeue_bulk
  rcases lf_queue.HeldSince.of_acquire q hf (idx 0) with ⟨hacq, _⟩ | ⟨k, _, hacq, hheld⟩
  · simp only [hacq]
    exact ⟨_, rfl⟩
  · simp only [hacq]
    exact lf_queue.try_dequeue_bulk_loop_returns q idx items htwo (num_queues + 2) k 0 0 [] _
      hheld (by omega) (by omega)

theorem lf_queue.no_items_of_failed_acquire (q : lf_queue T) (hf : q.AllFree)
    (hs : q.DirtySound) (s : Nat) (h : (q.acquire_queue_dequeue s).1.ptr_ = none) :
    Multiset.card q.all_items = 0 := by
  rcases lf_queue.HeldSince.of_acquire q hf s with ⟨_, hnone⟩ | ⟨k, _, hacq, _⟩
  · have hempty : ∀ i, q.heap i = [] := by
      intro i
      by_contra hi
      have := hs i hi
      rw [hnone i] at this
      cases this
    rw [q.all_items_of_empty hempty]
    rfl
  · rw [hacq] at h
    cases h

end bulk_trace

section bulk_single
variable {T : Type}

theorem lf_queue.try_dequeue_bulk_single_flag (q : lf_queue T) (hf : q.AllFree)
    (idx : Nat → Nat) (items : Nat) (k : Fin num_queues)
    (hk : ∀ j, (q.data_ j).dirty_ = true ↔ j = k) (hlt : (q.heap k).length < items) :
    q.try_dequeue_bulk idx items = Except.error failure.null_guard := by
  unfold lf_queue.try_dequeue_bulk
  rcases lf_queue.HeldSince.of_acquire q hf (idx 0) with ⟨_, hnone⟩ | ⟨k0, hk0, hacq, hheld⟩
  · have := (hk k).mpr rfl
    rw [hnone k] at this
    cases this
  · obtain ⟨_, _, _, hd, _, _⟩ := hk0
    have hkk : k0 = k := (hk k0).mp hd
    subst hkk
    simp only [hacq]
    have hc : 0 < items := by omega
    have hret : ¬ (0 + min ((q.set_slot k0 { atomic_ptr := none, dirty_ := true }).heap
        k0).length (items - 0) = items ∨ 0 = num_queues) := by
      simp only [lf_queue.set_slot_heap]
      intro h
      rcases h with h | h
      · omega
      · cases h
    rcases hheld.step q _ k0
        (((q.set_slot k0 { atomic_ptr := none, dirty_ := true }).heap k0).drop
          (min ((q.set_slot k0 { atomic_ptr := none, dirty_ := true }).heap k0).length
            (items - 0))) (idx (0 + 1)) with ⟨hacq', _⟩ | ⟨k', hk', _, _⟩
    · exact (lf_queue.try_dequeue_bulk_loop_fail idx items (num_queues + 1)
        { index_ := k0, ptr_ := some k0 } k0 0 0 [] _ _ hc hret hacq').1
    · obtain ⟨_, _, _, hd', hne, _⟩ := hk'
      exact absurd (congrArg some ((hk k').mp hd')) hne

end bulk_single

section bulk_claims
variable {T : Type}

theorem except_eq_ok_getD {ε α : Type} (e : Except ε α) (d : α)
    (h : e.toOption.isSome = true) : e = Except.ok (e.toOption.getD d) := by
  cases e with
  | error err => cases h
  | ok a => rfl

theorem lf_queue.three_shards_eq :
    lf_queue.enqueue_all 1 (fun k => 4 * k) 0 [1, 2, 3] lf_queue.construct =
      some lf_queue.three_shards :=
  option_eq_some_getD _ lf_queue.construct (by decide!)

theorem lf_queue.three_shards_reachable : lf_queue.three_shards.Reachable :=
  lf_queue.Reachable.of_enqueue_all 1 (fun k => 4 * k) [1, 2, 3] 0 _ _
    lf_queue.Reachable.construct lf_queue.three_shards_eq

theorem lf_queue.three_shards_card : Multiset.card lf_queue.three_shards.all_items = 3 := by
  obtain ⟨q', hres, _, _, hitems⟩ := lf_queue.enqueue_all_spec 0 (fun k => 4 * k) [1, 2, 3] 0
    (lf_queue.construct : lf_queue Nat) (fun _ => rfl) (fun _ => rfl)
  have hq : q' = lf_queue.three_shards :=
    Option.some.inj (hres.symm.trans lf_queue.three_shards_eq)
  rw [← hq, hitems, lf_queue.all_items_of_empty _ (fun _ => rfl)]
  rfl

theorem lf_queue.three_shards_bulk :
    ∃ q2, lf_queue.three_shards.try_dequeue_bulk (fun _ => 0) 3 = Except.ok (2, [1, 2], q2) ∧
      q2.heap 8 = [3] := by
  have hs : (lf_queue.three_shards.try_dequeue_bulk (fun _ => 0) 3).toOption.isSome = true := by
    decide!
  have hr := except_eq_ok_getD _ (0, [], lf_queue.construct) hs
  have h1 : ((lf_queue.three_shards.try_dequeue_bulk (fun _ => 0) 3).toOption.getD
      (0, [], lf_queue.construct)).1 = 2 := by decide!
  have h2 : ((lf_queue.three_shards.try_dequeue_bulk (fun _ => 0) 3).toOption.getD
      (0, [], lf_queue.construct)).2.1 = [1, 2] := by decide!
  have h3 : ((lf_queue.three_shards.try_dequeue_bulk (fun _ => 0) 3).toOption.getD
      (0, [], lf_queue.construct)).2.2.heap 8 = [3] := by decide!
  refine ⟨_, hr.trans (congrArg Except.ok (Prod.ext h1 (Prod.ext h2 rfl))), h3⟩

end bulk_claims
